import Mathlib

/-!
Shallow embedding of the aicrawler content pipeline (CastroLab/aicrawler).

The Python sources embedded here are:
  app/services/dedup.py        (URL canonicalizer and dedup keys)
  app/services/reading_time.py (reading-time estimate)
  app/services/discovery.py    (search jobs, citation parsing)
  app/services/fetching.py     (content fetch and extraction pipeline)
  app/services/enrichment.py   (LLM enrichment pipeline)
  app/services/digest.py       (digest synthesis)
  app/services/interrogation.py(query plan / retrieve / synthesize)
  app/clients/claude.py, app/clients/perplexity.py (fail-closed boundaries)

Modelling conventions:
  - Python strings are Lean `String`; character-level code works on `List Char`.
    String functions used by the sources (lower, strip, split, partition,
    find, replace, title) are modelled for the code points the sources use;
    `lower`, `isalpha` and friends are modelled on ASCII (Unicode special
    casing is out of scope).
  - Python machine floats never carry a claim here; SQL `Float` columns are
    modelled as rationals. Python `round` on `int / int` is modelled as exact
    rational round-half-to-even (correct for all operands below 2^52).
  - Functions that can raise return `Option`/`Except`; a raised exception is
    `none`/`.error`.  `urllib` netlocs using bracketed (IPv6) hosts are
    modelled as parse failures (CPython validates and may raise there);
    universal theorems are therefore silent on bracketed netlocs.
  - External services (HTTP fetch, trafilatura, Perplexity, the Claude
    structured call) are oracles passed as parameters.  Per the documented
    boundary contract, a structured LLM call yields either a schema-shaped
    value, an absent result, or a raised transport error.
  - The database session is explicit state: lists of records plus id
    counters; `ORDER BY` is modelled with a stable insertion sort (SQL row
    order on ties is not observable in any claim proved here).
-/

namespace AIC

/-! ## Python primitives -/

/-- Python round() for rationals: round half to even. -/
def pyRound (q : ℚ) : Int :=
  let f : Int := ⌊q⌋
  let r : ℚ := q - f
  if r < 1/2 then f
  else if (1:ℚ)/2 < r then f + 1
  else if f % 2 = 0 then f else f + 1

/-- ASCII lower-casing of one character, as str.lower() does for ASCII. -/
def pyLowerChar (c : Char) : Char :=
  if 'A' ≤ c ∧ c ≤ 'Z' then Char.ofNat (c.toNat + 32) else c

/-- ASCII upper-casing of one character. -/
def pyUpperChar (c : Char) : Char :=
  if 'a' ≤ c ∧ c ≤ 'z' then Char.ofNat (c.toNat - 32) else c

def pyLower (s : String) : String := ⟨s.data.map pyLowerChar⟩

/-- Membership of a character in a strip set. -/
def charIn (cs : List Char) (c : Char) : Bool := cs.contains c

/-- Python str.lstrip(chars) on a character list. -/
def pyLstripL (cs : List Char) : List Char → List Char
  | [] => []
  | c :: rest => if charIn cs c then pyLstripL cs rest else c :: rest

/-- Python str.rstrip(chars) on a character list. -/
def pyRstripL (cs : List Char) : List Char → List Char
  | [] => []
  | c :: rest =>
    match pyRstripL cs rest with
    | [] => if charIn cs c then [] else [c]
    | r => c :: r

def pyStripL (cs : List Char) (l : List Char) : List Char :=
  pyRstripL cs (pyLstripL cs l)

/-- Python whitespace: the characters for which str.isspace() holds, the set
stripped by str.strip() and split on by str.split(). -/
def pyWhitespace : List Char :=
  ([0x9, 0xa, 0xb, 0xc, 0xd, 0x1c, 0x1d, 0x1e, 0x1f, 0x20, 0x85, 0xa0, 0x1680,
    0x2000, 0x2001, 0x2002, 0x2003, 0x2004, 0x2005, 0x2006, 0x2007, 0x2008,
    0x2009, 0x200a, 0x2028, 0x2029, 0x202f, 0x205f, 0x3000]).map Char.ofNat

/-- Python str.strip() with no arguments. -/
def pyStrip (s : String) : String := ⟨pyStripL pyWhitespace s.data⟩

def pyRstrip (cs : List Char) (s : String) : String := ⟨pyRstripL cs s.data⟩

/-- Python str.startswith for strings. -/
def pyStartswith (pre s : String) : Bool := pre.data.isPrefixOf s.data

/-- Python s.find(c): index of the first occurrence of a character, -1 when absent. -/
def pyFindCharL (c : Char) : List Char → Int
  | [] => -1
  | x :: rest =>
    if x = c then 0
    else
      let r := pyFindCharL c rest
      if r < 0 then -1 else r + 1

/-- Python s.partition(c) for a one-character separator. -/
def pyPartitionL (c : Char) : List Char → List Char × Bool × List Char
  | [] => ([], false, [])
  | x :: rest =>
    if x = c then ([], true, rest)
    else
      let (a, found, b) := pyPartitionL c rest
      (x :: a, found, b)

/-- Python s.rpartition(c) for a one-character separator: split at the last occurrence. -/
def pyRpartitionL (c : Char) : List Char → List Char × Bool × List Char
  | [] => ([], false, [])
  | x :: rest =>
    let (a, found, b) := pyRpartitionL c rest
    if found then (x :: a, true, b)
    else if x = c then ([], true, rest)
    else (x :: a, false, b)

/-- Python s.split(c) for a one-character separator (no maxsplit). -/
def pySplitCharL (c : Char) (l : List Char) : List (List Char) :=
  match l with
  | [] => [[]]
  | x :: rest =>
    let r := pySplitCharL c rest
    if x = c then [] :: r
    else
      match r with
      | [] => [[x]]
      | h :: t => (x :: h) :: t

/-- Python s.split(c, 1): split at the first occurrence only. -/
def pySplitOnceL (c : Char) (l : List Char) : List (List Char) :=
  let (a, found, b) := pyPartitionL c l
  if found then [a, b] else [a]

/-- Python s.split() with no arguments: split on whitespace runs, dropping empties. -/
def pySplitWsL : List Char → List (List Char)
  | [] => []
  | c :: rest =>
    if charIn pyWhitespace c then pySplitWsL rest
    else
      match pySplitWsL rest with
      | [] => [[c]]
      | h :: t =>
        match rest with
        | [] => [[c]]
        | r :: _ => if charIn pyWhitespace r then [c] :: h :: t else (c :: h) :: t

/-- Number of whitespace-separated words, Python len(s.split()). -/
def pyWordCount (s : String) : Nat := (pySplitWsL s.data).length

/-- Python str.replace(old, new) for one-character old and removal or
one-character replacements used by the sources. -/
def pyReplaceCharL (old : Char) (new : List Char) (l : List Char) : List Char :=
  l.flatMap (fun c => if c = old then new else [c])

/-- Substring test, Python needle in haystack. -/
def pyContainsL (needle : List Char) : List Char → Bool
  | [] => needle.isEmpty
  | c :: rest => needle.isPrefixOf (c :: rest) || pyContainsL needle rest

def pyContains (needle haystack : String) : Bool := pyContainsL needle.data haystack.data

/-- Python str.title() on ASCII: first letter of each alphabetic run upper-cased,
the rest lower-cased. -/
def pyTitleGo (prevCased : Bool) : List Char → List Char
  | [] => []
  | c :: rest =>
    if c.isAlpha then
      (if prevCased then pyLowerChar c else pyUpperChar c) :: pyTitleGo true rest
    else
      c :: pyTitleGo false rest

def pyTitle (s : String) : String := ⟨pyTitleGo false s.data⟩

/-- Parse a nonempty all-decimal-digit character list as a natural number.
Python int() laxities (signs, underscores, surrounding space) are modelled
as failures; they cannot arise on the inputs the pipeline builds. -/
def parseDigits (l : List Char) : Option Nat :=
  if l.isEmpty then none
  else if l.all (fun c => c.isDigit) then
    some (l.foldl (fun acc c => acc * 10 + (c.toNat - 48)) 0)
  else none

/-- Little-endian decimal digits with explicit fuel (fuel at least n). -/
def natDigitsAux : Nat → Nat → List Nat
  | 0, _ => []
  | _, 0 => []
  | fuel + 1, n => n % 10 :: natDigitsAux fuel (n / 10)

/-- Decimal digit characters of a natural number, most significant first. -/
def natToDigits (n : Nat) : List Char :=
  if n = 0 then ['0']
  else ((natDigitsAux n n).map (fun d => Char.ofNat (48 + d))).reverse

/-- Stable insertion of an element into a sorted list: the new element goes
after existing elements le-related to it, matching Python sort stability. -/
def stableInsert (le : α → α → Bool) (x : α) : List α → List α
  | [] => [x]
  | y :: ys => if le y x then y :: stableInsert le x ys else x :: y :: ys

/-- Stable sort (Python list.sort is stable; any stable sort with the same
ordering agrees with it). -/
def pySort (le : α → α → Bool) (l : List α) : List α :=
  l.foldl (fun acc x => stableInsert le x acc) []

/-! ## UTF-8 (Python str.encode and bytes.decode with replacement) -/

def utf8EncodeChar (c : Char) : List Nat :=
  let n := c.toNat
  if n < 0x80 then [n]
  else if n < 0x800 then [0xC0 + n / 64, 0x80 + n % 64]
  else if n < 0x10000 then [0xE0 + n / 4096, 0x80 + n / 64 % 64, 0x80 + n % 64]
  else [0xF0 + n / 262144, 0x80 + n / 4096 % 64, 0x80 + n / 64 % 64, 0x80 + n % 64]

def utf8Encode (l : List Char) : List Nat := l.flatMap utf8EncodeChar

/-- Unicode replacement character, emitted for malformed byte sequences. -/
def replChar : Char := Char.ofNat 0xFFFD

def contByte (b : Nat) : Bool := 0x80 ≤ b ∧ b ≤ 0xBF

/-- Admissible second byte of a three-byte sequence (excludes overlong forms
and surrogates). -/
def byte2ok3 (b b2 : Nat) : Bool :=
  if b = 0xE0 then 0xA0 ≤ b2 ∧ b2 ≤ 0xBF
  else if b = 0xED then 0x80 ≤ b2 ∧ b2 ≤ 0x9F
  else contByte b2

/-- Admissible second byte of a four-byte sequence. -/
def byte2ok4 (b b2 : Nat) : Bool :=
  if b = 0xF0 then 0x90 ≤ b2 ∧ b2 ≤ 0xBF
  else if b = 0xF4 then 0x80 ≤ b2 ∧ b2 ≤ 0x8F
  else contByte b2

/-- UTF-8 decoding with replacement on errors, as bytes.decode with
errors replace: valid sequences decode exactly; on a malformed sequence the
maximal valid subpart is consumed by one replacement character and decoding
resumes at the first byte that broke the sequence. -/
def utf8Decode : List Nat → List Char
  | [] => []
  | [b] => if b < 0x80 then [Char.ofNat b] else [replChar]
  | [b, b2] =>
    if b < 0x80 then Char.ofNat b :: utf8Decode [b2]
    else if b < 0xC2 then replChar :: utf8Decode [b2]
    else if b < 0xE0 then
      if contByte b2 then [Char.ofNat ((b - 0xC0) * 64 + (b2 - 0x80))]
      else replChar :: utf8Decode [b2]
    else if b < 0xF0 then
      if byte2ok3 b b2 then [replChar] else replChar :: utf8Decode [b2]
    else if b < 0xF5 then
      if byte2ok4 b b2 then [replChar] else replChar :: utf8Decode [b2]
    else replChar :: utf8Decode [b2]
  | [b, b2, b3] =>
    if b < 0x80 then Char.ofNat b :: utf8Decode [b2, b3]
    else if b < 0xC2 then replChar :: utf8Decode [b2, b3]
    else if b < 0xE0 then
      if contByte b2 then Char.ofNat ((b - 0xC0) * 64 + (b2 - 0x80)) :: utf8Decode [b3]
      else replChar :: utf8Decode [b2, b3]
    else if b < 0xF0 then
      if byte2ok3 b b2 then
        if contByte b3 then
          [Char.ofNat ((b - 0xE0) * 4096 + (b2 - 0x80) * 64 + (b3 - 0x80))]
        else replChar :: utf8Decode [b3]
      else replChar :: utf8Decode [b2, b3]
    else if b < 0xF5 then
      if byte2ok4 b b2 then
        if contByte b3 then [replChar] else replChar :: utf8Decode [b3]
      else replChar :: utf8Decode [b2, b3]
    else replChar :: utf8Decode [b2, b3]
  | b :: b2 :: b3 :: b4 :: bs =>
    if b < 0x80 then Char.ofNat b :: utf8Decode (b2 :: b3 :: b4 :: bs)
    else if b < 0xC2 then replChar :: utf8Decode (b2 :: b3 :: b4 :: bs)
    else if b < 0xE0 then
      if contByte b2 then Char.ofNat ((b - 0xC0) * 64 + (b2 - 0x80)) :: utf8Decode (b3 :: b4 :: bs)
      else replChar :: utf8Decode (b2 :: b3 :: b4 :: bs)
    else if b < 0xF0 then
      if byte2ok3 b b2 then
        if contByte b3 then
          Char.ofNat ((b - 0xE0) * 4096 + (b2 - 0x80) * 64 + (b3 - 0x80)) :: utf8Decode (b4 :: bs)
        else replChar :: utf8Decode (b3 :: b4 :: bs)
      else replChar :: utf8Decode (b2 :: b3 :: b4 :: bs)
    else if b < 0xF5 then
      if byte2ok4 b b2 then
        if contByte b3 then
          if contByte b4 then
            Char.ofNat ((b - 0xF0) * 262144 + (b2 - 0x80) * 4096 + (b3 - 0x80) * 64 + (b4 - 0x80))
              :: utf8Decode bs
          else replChar :: utf8Decode (b4 :: bs)
        else replChar :: utf8Decode (b3 :: b4 :: bs)
      else replChar :: utf8Decode (b2 :: b3 :: b4 :: bs)
    else replChar :: utf8Decode (b2 :: b3 :: b4 :: bs)

/-! ## urllib.parse: quoting -/

/-- Bytes never percent-encoded by urllib quote: ALPHA, DIGIT, and bytes 95,
46, 45, 126 for the characters underscore, dot, dash, tilde. -/
def alwaysSafeByte (b : Nat) : Bool :=
  (48 ≤ b ∧ b ≤ 57) || (65 ≤ b ∧ b ≤ 90) || (97 ≤ b ∧ b ≤ 122) ||
    b = 95 || b = 46 || b = 45 || b = 126

def hexUpperChar (n : Nat) : Char := (['0','1','2','3','4','5','6','7','8','9','A','B','C','D','E','F']).getD n '0'

/-- Quoting of one byte by urllib quote_plus with safe set empty: byte 32
becomes a plus sign, safe bytes stay themselves, the rest become percent and
two upper-case hex digits. -/
def quotePlusByte (b : Nat) : List Char :=
  if b = 32 then ['+']
  else if alwaysSafeByte b then [Char.ofNat b]
  else ['%', hexUpperChar (b / 16), hexUpperChar (b % 16)]

/-- urllib quote_plus with safe set empty, as used by urlencode. -/
def quote_plus (s : String) : String := ⟨(utf8Encode s.data).flatMap quotePlusByte⟩

def hexVal (c : Char) : Option Nat :=
  if '0' ≤ c ∧ c ≤ '9' then some (c.toNat - 48)
  else if 'A' ≤ c ∧ c ≤ 'F' then some (c.toNat - 55)
  else if 'a' ≤ c ∧ c ≤ 'f' then some (c.toNat - 87)
  else none

/-- Tokenization step of urllib unquote: ASCII characters become bytes, a
percent followed by two hex digits becomes that byte, a bare percent stays a
literal byte 37, and non-ASCII characters pass through unchanged. -/
def unquoteTokens : List Char → List (Sum Nat Char)
  | [] => []
  | ['%'] => [Sum.inl 37]
  | ['%', a] =>
    Sum.inl 37 :: [if a.toNat ≥ 0x80 then Sum.inr a else Sum.inl a.toNat]
  | '%' :: a :: b :: rest2 =>
    match hexVal a, hexVal b with
    | some ha, some hb => Sum.inl (ha * 16 + hb) :: unquoteTokens rest2
    | _, _ => Sum.inl 37 :: unquoteTokens (a :: b :: rest2)
  | c :: rest =>
    (if c.toNat ≥ 0x80 then Sum.inr c else Sum.inl c.toNat) :: unquoteTokens rest

/-- Decoding of the token stream: each maximal byte run is UTF-8 decoded as a
unit, matching how urllib unquote decodes each ASCII run. -/
def decodeTokensGo (acc : List Nat) : List (Sum Nat Char) → List Char
  | [] => utf8Decode acc.reverse
  | Sum.inl b :: ts => decodeTokensGo (b :: acc) ts
  | Sum.inr c :: ts => utf8Decode acc.reverse ++ c :: decodeTokensGo [] ts

/-- urllib unquote with utf-8 encoding and replacement errors. -/
def pyUnquote (l : List Char) : List Char := decodeTokensGo [] (unquoteTokens l)

/-- The name-and-value decoding done by parse_qsl: replace plus with space,
then unquote. -/
def pyUnquotePlus (l : List Char) : List Char :=
  pyUnquote (pyReplaceCharL '+' [' '] l)

/-! ## urllib.parse: query strings -/

/-- parse_qsl with keep_blank_values False: split on ampersands, skip empty
tokens, skip tokens without an equals sign or with an empty value, and decode
names and values. -/
def parse_qsl (qs : String) : List (String × String) :=
  (pySplitCharL '&' qs.data).filterMap (fun nv =>
    if nv.isEmpty then none
    else
      match pySplitOnceL '=' nv with
      | [n, v] =>
        if v.isEmpty then none
        else some (⟨pyUnquotePlus n⟩, ⟨pyUnquotePlus v⟩)
      | _ => none)

/-- Dict accumulation of parse_qs: append the value to an existing key, else
add a new key at the end (insertion order). -/
def addToGroups (n v : String) : List (String × List String) → List (String × List String)
  | [] => [(n, [v])]
  | (k, vs) :: rest =>
    if k = n then (k, vs ++ [v]) :: rest else (k, vs) :: addToGroups n v rest

/-- parse_qs with keep_blank_values False, as an association list in dict
insertion order. -/
def parse_qs (qs : String) : List (String × List String) :=
  (parse_qsl qs).foldl (fun acc p => addToGroups p.1 p.2 acc) []

/-- Key order used by sorted() on dict items; keys are unique so the value
lists are never compared. -/
def itemLe (a b : String × List String) : Bool :=
  decide (a.1 < b.1) || decide (a.1 = b.1)

/-- urlencode with doseq True and quote_plus quoting. -/
def urlencodeSeq (groups : List (String × List String)) : String :=
  ⟨List.intercalate ['&'] (groups.flatMap (fun g =>
      g.2.map (fun v => (quote_plus g.1).data ++ '=' :: (quote_plus v).data)))⟩

/-! ## urllib.parse: urlsplit, urlparse, urlunparse -/

structure SplitResult where
  scheme : String
  netloc : String
  path : String
  query : String
  fragment : String
deriving Repr, DecidableEq

structure ParseResult where
  scheme : String
  netloc : String
  path : String
  params : String
  query : String
  fragment : String
deriving Repr, DecidableEq

/-- Bytes removed anywhere in a URL by urlsplit: tab, carriage return, newline. -/
def removeUnsafe (l : List Char) : List Char :=
  l.filter (fun c => decide (c ≠ '\t') && decide (c ≠ '\r') && decide (c ≠ '\n'))

/-- Leading WHATWG C0-control-or-space characters stripped by urlsplit. -/
def lstripC0 (l : List Char) : List Char := pyLstripL ((List.range 33).map Char.ofNat) l

/-- Schemes treated as carrying a network location by urlunsplit. -/
def uses_netloc : List String :=
  ["", "ftp", "http", "gopher", "nntp", "telnet", "imap", "wais", "file",
   "mms", "https", "shttp", "snews", "prospero", "rtsp", "rtsps", "rtspu",
   "rsync", "svn", "svn+ssh", "sftp", "nfs", "git", "git+ssh", "ws", "wss"]

/-- Characters allowed after the first character of a scheme. -/
def schemeChar (c : Char) : Bool := c.isAlpha || c.isDigit || c = '+' || c = '-' || c = '.'

/-- Scheme extraction of urlsplit: a colon at a positive index preceded by an
ASCII letter and scheme characters splits off a lower-cased scheme. -/
def splitSchemeL (l : List Char) : String × List Char :=
  let i := pyFindCharL ':' l
  if 0 < i then
    let pre := l.take i.toNat
    match pre with
    | [] => ("", l)
    | c :: rest =>
      if c.isAlpha ∧ rest.all schemeChar then
        (⟨pre.map pyLowerChar⟩, l.drop (i.toNat + 1))
      else ("", l)
  else ("", l)

/-- Netloc extraction: everything up to the first slash, question mark or
hash sign. -/
def splitnetlocL : List Char → List Char × List Char
  | [] => ([], [])
  | c :: rest =>
    if c = '/' ∨ c = '?' ∨ c = '#' then ([], c :: rest)
    else
      let (a, b) := splitnetlocL rest
      (c :: a, b)

/-- ipaddress _parse_octet: nonempty ASCII decimal digits, at most three,
no leading zero, value at most 255. -/
def parseOctet (s : List Char) : Option Nat :=
  if s = [] then none
  else if !s.all (fun c => c.isDigit) then none
  else if 3 < s.length then none
  else if s ≠ ['0'] ∧ s.take 1 = ['0'] then none
  else match parseDigits s with
    | some n => if n ≤ 255 then some n else none
    | none => none

/-- IPv4Address string parsing: exactly four octets joined by dots, combined
big-endian. -/
def ipv4FromString (s : List Char) : Option Nat :=
  if s = [] then none
  else
    let octs := (pySplitCharL '.' s).map parseOctet
    if octs.length = 4 ∧ octs.all (fun o => o.isSome) then
      some (octs.foldl (fun a o => a * 256 + o.getD 0) 0)
    else none

/-- ipaddress _parse_hextet: hex digits of either case only, at most four,
nonempty because int of an empty string raises. -/
def parseHextet (s : List Char) : Option Nat :=
  if !s.all (fun c => (hexVal c).isSome) then none
  else if 4 < s.length then none
  else if s = [] then none
  else some (s.foldl (fun a c => a * 16 + (hexVal c).getD 0) 0)

/-- Little-endian hexadecimal digits with explicit fuel (fuel at least n). -/
def natHexAux : Nat → Nat → List Nat
  | 0, _ => []
  | _, 0 => []
  | fuel + 1, n => n % 16 :: natHexAux fuel (n / 16)

/-- Lower-case hexadecimal characters of a natural number, as %x
formatting. -/
def natToHex (n : Nat) : List Char :=
  if n = 0 then ['0']
  else ((natHexAux n n).map (fun d =>
    if d < 10 then Char.ofNat (48 + d) else Char.ofNat (87 + d))).reverse

/-- IPv6Address._ip_int_from_string: at least two colons; a dotted last part
is parsed as IPv4 and replaced by two hextets; at most nine parts; at most
one interior empty part, standing for a run of zero hextets; a leading or
trailing colon only as the matching half of that double colon; the remaining
parts parsed as hextets into a 128-bit value. -/
def ipv6FromString (s : List Char) : Option Nat :=
  if s = [] then none
  else
    let parts0 := pySplitCharL ':' s
    if parts0.length < 3 then none
    else
      match
        if (parts0.getLast?.getD []).contains '.' then
          match ipv4FromString (parts0.getLast?.getD []) with
          | some v4 =>
            some (parts0.dropLast ++ [natToHex (v4 / 65536), natToHex (v4 % 65536)])
          | none => none
        else some parts0
      with
      | none => none
      | some parts =>
        if 9 < parts.length then none
        else
          let step := fun (a : Nat) (p : List Char) => a * 65536 + (parseHextet p).getD 0
          match (parts.enum.filter
              (fun q => 0 < q.1 ∧ q.1 + 1 < parts.length ∧ q.2 = [])).map
              (fun q => q.1) with
          | i :: rest =>
            if rest ≠ [] then none
            else if parts.headD ['x'] = [] ∧ i - 1 ≠ 0 then none
            else if parts.getLast?.getD ['x'] = [] ∧ parts.length - i - 2 ≠ 0 then none
            else
              let hi := if parts.headD ['x'] = [] then i - 1 else i
              let lo := if parts.getLast?.getD ['x'] = [] then parts.length - i - 2
                        else parts.length - i - 1
              if 8 - (hi + lo) < 1 then none
              else
                let hiParts := parts.take hi
                let loParts := parts.drop (parts.length - lo)
                if hiParts.all (fun p => (parseHextet p).isSome) ∧
                    loParts.all (fun p => (parseHextet p).isSome) then
                  some (loParts.foldl step
                    (hiParts.foldl step 0 * 2 ^ (16 * (8 - (hi + lo)))))
                else none
          | [] =>
            if parts.length ≠ 8 then none
            else if parts.headD ['x'] = [] then none
            else if parts.getLast?.getD ['x'] = [] then none
            else if parts.all (fun p => (parseHextet p).isSome) then
              some (parts.foldl step 0)
            else none

/-- _split_scope_id: at most one percent sign, with a nonempty scope id
after it. -/
def splitScopeId (s : List Char) : Option (List Char) :=
  let (addr, found, scope) := pyPartitionL '%' s
  if !found then some addr
  else if scope = [] ∨ scope.contains '%' then none
  else some addr

/-- IPv6Address accepts a string: no slash, optional scope id split off, and
the remainder a valid textual IPv6 address. -/
def ipv6Acceptable (s : List Char) : Bool :=
  if s.contains '/' then false
  else match splitScopeId s with
    | none => false
    | some addr => (ipv6FromString addr).isSome

/-- _check_bracketed_host: a host starting with v must match the IPvFuture
pattern v hex+ dot anything+ (anchored; the hex class excludes the dot, so
the regex matches exactly when the split at the first dot has a nonempty hex
run before it and a nonempty newline-free remainder); any other host goes to
ip_address, where a valid IPv4 literal is explicitly rejected and otherwise
the string must be a valid IPv6 address. -/
def checkBracketedHost (h : List Char) : Bool :=
  if pyStartswith "v" ⟨h⟩ then
    match h with
    | _ :: rest =>
      let (hexpart, found, tl) := pyPartitionL '.' rest
      found && decide (hexpart ≠ []) && hexpart.all (fun c => (hexVal c).isSome) &&
        decide (tl ≠ []) && !tl.contains '\n'
    | [] => false
  else if (ipv4FromString h).isSome then false
  else ipv6Acceptable h

/-- The bracket validation of urlsplit: brackets must pair, and the text
between the first open bracket and the next close bracket must pass
_check_bracketed_host. -/
def bracketCheckOk (netloc : List Char) : Bool :=
  if netloc.contains '[' && !netloc.contains ']' then false
  else if netloc.contains ']' && !netloc.contains '[' then false
  else if netloc.contains '[' && netloc.contains ']' then
    checkBracketedHost (pyPartitionL ']' (pyPartitionL '[' netloc).2.2).1
  else true

/-- urlsplit. The NFKC check of _checknetloc, which can only reject a netloc
containing non-ASCII characters, is not modelled. -/
def urlsplitE (url : String) : Option SplitResult :=
  let l0 := removeUnsafe (lstripC0 url.data)
  let (scheme, l1) := splitSchemeL l0
  let (netloc, l2) := if l1.take 2 = ['/', '/'] then splitnetlocL (l1.drop 2) else ([], l1)
  if bracketCheckOk netloc then
    let (u3, _, frag) := pyPartitionL '#' l2
    let (u4, _, q) := pyPartitionL '?' u3
    some ⟨scheme, ⟨netloc⟩, ⟨u4⟩, ⟨q⟩, ⟨frag⟩⟩
  else none

/-- Path parameter split of urlparse: the part of the last path segment after
a semicolon becomes params. -/
def splitparamsL (path : List Char) : List Char × List Char :=
  if path.contains ';' then
    if path.contains '/' then
      let (beforeSlash, _, afterSlash) := pyRpartitionL '/' path
      let (a, found, b) := pyPartitionL ';' afterSlash
      if found then (beforeSlash ++ '/' :: a, b) else (path, [])
    else
      let (a, _, b) := pyPartitionL ';' path
      (a, b)
  else (path, [])

/-- Schemes whose paths carry semicolon parameters for urlparse. -/
def uses_params : List String :=
  ["", "ftp", "hdl", "prospero", "http", "imap", "https", "shttp", "rtsp",
   "rtsps", "rtspu", "sip", "sips", "mms", "sftp", "tel"]

def urlparseE (url : String) : Option ParseResult :=
  (urlsplitE url).map (fun s =>
    if uses_params.contains s.scheme then
      let (p, par) := splitparamsL s.path.data
      ⟨s.scheme, s.netloc, ⟨p⟩, ⟨par⟩, s.query, s.fragment⟩
    else
      ⟨s.scheme, s.netloc, s.path, "", s.query, s.fragment⟩)

/-- Host and raw port of a netloc, as the _hostinfo property: the part after
the last at sign; when it has an open bracket the host is the text between
the bracket and the next close bracket with the port after the next colon of
the remainder, otherwise the host stops at the first colon. -/
def pyHostinfo (netloc : String) : List Char × List Char :=
  let (_, found, aft) := pyRpartitionL '@' netloc.data
  let hostinfo := if found then aft else netloc.data
  let (_, openBr, bracketed) := pyPartitionL '[' hostinfo
  if openBr then
    let (h, _, rest) := pyPartitionL ']' bracketed
    (h, (pyPartitionL ':' rest).2.2)
  else
    let (h, _, p) := pyPartitionL ':' hostinfo
    (h, p)

/-- The hostname property: lower-cased except a zone id after a percent sign;
an absent hostname is the empty string (the caller coalesces None). -/
def pyHostname (netloc : String) : String :=
  let h := (pyHostinfo netloc).1
  if h.isEmpty then ""
  else
    let (pre, found, zone) := pyPartitionL '%' h
    if found then ⟨pre.map pyLowerChar ++ '%' :: zone⟩ else ⟨pre.map pyLowerChar⟩

/-- The port property: none of the outer option models a raised ValueError
(non-digit or out-of-range port), an inner none is an absent port. -/
def pyPortE (netloc : String) : Option (Option Nat) :=
  let p := (pyHostinfo netloc).2
  if p.isEmpty then some none
  else
    match parseDigits p with
    | some n => if n ≤ 65535 then some (some n) else none
    | none => none

def urlunsplit (scheme netloc path query fragment : String) : String :=
  let url1 :=
    if netloc ≠ "" ∨ (scheme ≠ "" ∧ uses_netloc.contains scheme ∧ path.data.take 2 ≠ ['/', '/']) then
      let p := if path ≠ "" ∧ path.data.take 1 ≠ ['/'] then "/" ++ path else path
      "//" ++ netloc ++ p
    else path
  let url2 := if scheme ≠ "" then scheme ++ ":" ++ url1 else url1
  let url3 := if query ≠ "" then url2 ++ "?" ++ query else url2
  if fragment ≠ "" then url3 ++ "#" ++ fragment else url3

def urlunparse (scheme netloc path params query fragment : String) : String :=
  let u := if params ≠ "" then path ++ ";" ++ params else path
  urlunsplit scheme netloc u query fragment

/-! ## dedup.py -/

/-- TRACKING_PARAMS from app/services/dedup.py. -/
def TRACKING_PARAMS : List String :=
  ["utm_source", "utm_medium", "utm_campaign", "utm_term", "utm_content",
   "fbclid", "gclid", "ref", "source", "mc_cid", "mc_eid"]

/-- The sorted-and-filtered query groups of normalize_url. -/
def normalizeQueryGroups (query : String) : List (String × List String) :=
  (pySort itemLe (parse_qs query)).filter
    (fun g => !(TRACKING_PARAMS.contains (pyLower g.1)))

/-- Scheme component of normalize_url: the lower-cased parsed scheme, https
when empty. -/
def normScheme (P : ParseResult) : String :=
  if pyLower P.scheme = "" then "https" else pyLower P.scheme

/-- Host component of normalize_url: the hostname with one leading www.
stripped, then lower-cased. -/
def normHost (P : ParseResult) : String :=
  let host0 := pyHostname P.netloc
  pyLower (if pyStartswith "www." host0 then ⟨host0.data.drop 4⟩ else host0)

/-- Port component of normalize_url: kept only when truthy and not 80 or
443. -/
def normPortStr (port : Option Nat) : String :=
  match port with
  | some p => if p ≠ 0 ∧ p ≠ 80 ∧ p ≠ 443 then ":" ++ (⟨natToDigits p⟩ : String) else ""
  | none => ""

/-- Path component of normalize_url: trailing slashes collapsed, the root
path kept. -/
def normPath (P : ParseResult) : String :=
  let r := pyRstrip ['/'] P.path
  if r = "" then "/" else r

/-- Query component of normalize_url: parsed, sorted, tracking keys dropped,
re-encoded. -/
def normQueryStr (P : ParseResult) : String :=
  urlencodeSeq (normalizeQueryGroups P.query)

/-- normalize_url from app/services/dedup.py. Returns none where the Python
function raises (invalid port, bracketed netloc). -/
def normalize_url (url : String) : Option String :=
  match urlparseE (pyStrip url) with
  | none => none
  | some parsed =>
    match pyPortE parsed.netloc with
    | none => none
    | some port =>
      some (urlunparse (normScheme parsed) (normHost parsed ++ normPortStr port)
        (normPath parsed) "" (normQueryStr parsed) "")

/-! ## SHA-256 (hashlib.sha256 hexdigest) -/

def M32 : Nat := 4294967296

def rotr32 (n x : Nat) : Nat := ((x >>> n) ||| (x <<< (32 - n))) % M32

def sha256K : List Nat :=
  [1116352408, 1899447441, 3049323471, 3921009573, 961987163,
   1508970993, 2453635748, 2870763221, 3624381080, 310598401,
   607225278, 1426881987, 1925078388, 2162078206, 2614888103,
   3248222580, 3835390401, 4022224774, 264347078, 604807628,
   770255983, 1249150122, 1555081692, 1996064986, 2554220882,
   2821834349, 2952996808, 3210313671, 3336571891, 3584528711,
   113926993, 338241895, 666307205, 773529912, 1294757372,
   1396182291, 1695183700, 1986661051, 2177026350, 2456956037,
   2730485921, 2820302411, 3259730800, 3345764771, 3516065817,
   3600352804, 4094571909, 275423344, 430227734, 506948616,
   659060556, 883997877, 958139571, 1322822218, 1537002063,
   1747873779, 1955562222, 2024104815, 2227730452, 2361852424,
   2428436474, 2756734187, 3204031479, 3329325298]

def sha256H0 : List Nat :=
  [0x6a09e667, 0xbb67ae85, 0x3c6ef372, 0xa54ff53a, 0x510e527f, 0x9b05688c,
   0x1f83d9ab, 0x5be0cd19]

/-- Big-endian bytes of a natural number, fixed width. -/
def beBytes : Nat → Nat → List Nat
  | 0, _ => []
  | w + 1, n => (n >>> (8 * w)) % 256 :: beBytes w n

/-- SHA-256 message padding. -/
def sha256Pad (msg : List Nat) : List Nat :=
  let len := msg.length
  let padLen := (55 + 64 - len % 64) % 64 + 1
  msg ++ 0x80 :: List.replicate (padLen - 1) 0 ++ beBytes 8 (8 * len)

def chunkGo : Nat → List Nat → List (List Nat)
  | 0, _ => []
  | _, [] => []
  | fuel + 1, l => l.take 64 :: chunkGo fuel (l.drop 64)

/-- Split padded bytes into 64-byte blocks. -/
def chunks64 (l : List Nat) : List (List Nat) := chunkGo l.length l

/-- Sixteen big-endian 32-bit words of one block. -/
def blockWords : List Nat → List Nat
  | b0 :: b1 :: b2 :: b3 :: rest =>
    (b0 * 16777216 + b1 * 65536 + b2 * 256 + b3) :: blockWords rest
  | _ => []

def smallSigma0 (x : Nat) : Nat := (rotr32 7 x) ^^^ (rotr32 18 x) ^^^ (x >>> 3)
def smallSigma1 (x : Nat) : Nat := (rotr32 17 x) ^^^ (rotr32 19 x) ^^^ (x >>> 10)
def bigSigma0 (x : Nat) : Nat := (rotr32 2 x) ^^^ (rotr32 13 x) ^^^ (rotr32 22 x)
def bigSigma1 (x : Nat) : Nat := (rotr32 6 x) ^^^ (rotr32 11 x) ^^^ (rotr32 25 x)

/-- Message schedule extension from 16 to 64 words. -/
def schedExtend (ws : List Nat) : Nat → List Nat
  | 0 => ws
  | n + 1 =>
    let prev := schedExtend ws n
    let i := 16 + n
    prev ++ [(smallSigma1 (prev.getD (i - 2) 0) + prev.getD (i - 7) 0 +
              smallSigma0 (prev.getD (i - 15) 0) + prev.getD (i - 16) 0) % M32]

/-- One round of the compression function on the eight-register state. -/
def sha256Round (st : List Nat) (kw : Nat × Nat) : List Nat :=
  match st with
  | [a, b, c, d, e, f, g, h] =>
    let t1 := (h + bigSigma1 e + ((e &&& f) ^^^ ((M32 - 1 - e) &&& g)) + kw.1 + kw.2) % M32
    let t2 := (bigSigma0 a + ((a &&& b) ^^^ (a &&& c) ^^^ (b &&& c))) % M32
    [(t1 + t2) % M32, a, b, c, (d + t1) % M32, e, f, g]
  | other => other

/-- Process one 64-byte block. -/
def sha256Block (h : List Nat) (block : List Nat) : List Nat :=
  let w := schedExtend (blockWords block) 48
  let st := (sha256K.zip w |>.map (fun p => (p.2, p.1))).foldl sha256Round h
  (h.zip st).map (fun p => (p.1 + p.2) % M32)

def hexLowerChar (n : Nat) : Char :=
  if n < 10 then Char.ofNat (48 + n) else Char.ofNat (87 + n)

def word32Hex (w : Nat) : List Char :=
  (beBytes 4 w).flatMap (fun b => [hexLowerChar (b / 16), hexLowerChar (b % 16)])

/-- hashlib.sha256(s.encode()).hexdigest(). -/
def sha256hex (s : String) : String :=
  let final := (chunks64 (sha256Pad (utf8Encode s.data))).foldl sha256Block sha256H0
  ⟨final.flatMap word32Hex⟩

/-- url_hash from app/services/dedup.py: hex SHA-256 digest of the normalized
URL; none where normalization raises. -/
def url_hash (url : String) : Option String := (normalize_url url).map sha256hex

/-- Last path segment: the part after the last slash, the whole path when
there is none. -/
def lastSegment (l : List Char) : List Char :=
  let (_, found, aft) := pyRpartitionL '/' l
  if found then aft else l

/-- Conditions under which normalize_url is idempotent (each violation is a
genuine non-idempotence of the source): the stripped host must not still
start with www. (a doubled www. loses one prefix per call); the collapsed
path must not expose a semicolon in its last segment (the next parse would
split it off as params); an empty netloc must not sit before a path starting
with two slashes (the next parse would read a netloc out of the path); the
result must not end in strippable whitespace (the next call strips it); and
the netloc must hold no bracketed host (normalization drops the brackets, so
the next parse reads the colons of an IPv6 host as a port separator). -/
def idemCond (u : String) : Bool :=
  match urlparseE (pyStrip u) with
  | none => true
  | some P =>
    match pyPortE P.netloc with
    | none => true
    | some port =>
      let host := normHost P
      let netloc := host ++ normPortStr port
      let path := normPath P
      let query := normQueryStr P
      (!(pyStartswith "www." host)) &&
      (!(decide (netloc = "") && decide (path.data.take 2 = ['/', '/']))) &&
      (!((lastSegment path.data).contains ';')) &&
      (!(decide (query = "") && (match path.data.getLast? with
                                 | some c => charIn pyWhitespace c
                                 | none => false))) &&
      (!(P.netloc.data.contains '['))

/-! ## reading_time.py -/

/-- Words-per-minute constant WPM from app/services/reading_time.py. -/
def WPM : Int := 238

/-- estimate_reading_time from app/services/reading_time.py:
returns 1 for word_count at most 0, else max(1, round(word_count / 238)). -/
def estimate_reading_time (word_count : Int) : Int :=
  if word_count ≤ 0 then 1
  else max 1 (pyRound ((word_count : ℚ) / (WPM : ℚ)))

/-! ## Data model (app/models): fields the pipeline reads or writes.
Timestamps are abstract ticks (`Nat`); dates are abstract ordinals;
SQL Float columns are rationals. -/

structure Article where
  id : Nat
  url : String
  url_hash : String
  title : String
  source : String := ""
  published_date : Option Nat := none
  content_type : String := "article"
  summary : Option String := none
  key_findings : Option String := none
  relevance_score : Option ℚ := none
  word_count : Option Int := none
  reading_time_minutes : Option Int := none
  status : String := "pending"
  created_at : Nat := 0
  has_content : Bool := false
deriving Repr, DecidableEq

structure ArticleContent where
  article_id : Nat
  full_text : Option String := none
  content_hash : Option String := none
  fetch_status : String := "pending"
  fetch_error : Option String := none
  http_status : Option Nat := none
  extracted_title : Option String := none
  extracted_author : Option String := none
  extracted_date : Option String := none
  word_count : Option Nat := none
  fetched_at : Option Nat := none
deriving Repr, DecidableEq

structure Tag where
  id : Nat
  name : String
  category : String
deriving Repr, DecidableEq

structure ArticleTag where
  article_id : Nat
  tag_id : Nat
  confidence : ℚ
deriving Repr, DecidableEq

structure SearchJob where
  id : Nat
  name : String
  query : String
  enabled : Bool
deriving Repr, DecidableEq

structure SearchExecution where
  search_job_id : Nat
  status : String
  error_message : Option String := none
  articles_found : Nat := 0
  articles_new : Nat := 0
  finished_at : Option Nat := none
deriving Repr, DecidableEq

/-- Replace the article with the same id. -/
def updateArticle (articles : List Article) (a : Article) : List Article :=
  articles.map (fun x => if x.id = a.id then a else x)

/-- Truthiness of an optional string: present and non-empty. -/
def truthyStr (o : Option String) : Bool :=
  match o with
  | some t => t ≠ ""
  | none => false

/-! ## clients: fail-closed external boundaries -/

/-- Result shape of search_perplexity (app/clients/perplexity.py); the client
catches its own exceptions and yields none on any failure. -/
structure PerplexityResult where
  content : String
  citations : List String

/-- call_claude_structured (app/clients/claude.py): the API call and response
scan run inside try/except; a raised transport error is caught and becomes
none, as is a missing structured block or missing credentials.  The outcome
parameter is what the call would produce: a raised exception, or the parsed
structured value, or none. -/
def call_claude_structured (outcome : Except String (Option α)) : Option α :=
  match outcome with
  | .error _ => none
  | .ok r => r

/-! ## discovery.py -/

/-- Candidate produced by _parse_citations. -/
structure Candidate where
  url : String
  title : String
  source : String
deriving Repr, DecidableEq

/-- The substitution re.sub with pattern backslash-dot-word-chars anchored at
the end: drop the part from the last dot when everything after it is one or
more word characters. -/
def stripExtension (l : List Char) : List Char :=
  let (bef, found, aft) := pyRpartitionL '.' l
  if found ∧ ¬aft.isEmpty ∧ aft.all (fun c => c.isAlphanum || c = '_') then bef else l

/-- _extract_title_from_url from app/services/discovery.py; none when
urlparse raises. -/
def _extract_title_from_url (url : String) : Option String :=
  (urlparseE url).map (fun parsed =>
    let path := pyStripL ['/'] parsed.path.data
    if path.isEmpty then url
    else
      let lastSeg := ((pySplitCharL '/' path).getLast?).getD []
      let noExt := stripExtension lastSeg
      let spaced := pyReplaceCharL '-' [' '] (pyReplaceCharL '_' [' '] noExt)
      let t := (pyTitle ⟨spaced⟩).data.take 200
      if t.isEmpty then url else ⟨t⟩)

/-- Loop of _parse_citations with the seen set accumulated; none when a
urlparse inside raises. -/
def parseCitationsGo : List String → List String → Option (List Candidate)
  | [], _ => some []
  | u :: rest, seen =>
    let url := pyRstrip ['.'] (pyStrip u)
    if ¬ pyStartswith "http" url then parseCitationsGo rest seen
    else if seen.contains url then parseCitationsGo rest seen
    else
      match urlparseE url, _extract_title_from_url url with
      | some parsed, some title =>
        let source0 := pyHostname parsed.netloc
        let source : String :=
          if pyStartswith "www." source0 then ⟨source0.data.drop 4⟩ else source0
        (parseCitationsGo rest (url :: seen)).map (fun cs => ⟨url, title, source⟩ :: cs)
      | _, _ => none

/-- _parse_citations from app/services/discovery.py: keep http-prefixed
citations, dedup raw URLs within the batch, derive title and source. -/
def _parse_citations (content : String) (citations : List String) : Option (List Candidate) :=
  let _ := content
  parseCitationsGo citations []

structure DiscoveryState where
  articles : List Article
  next_article_id : Nat
deriving Repr, DecidableEq

/-- Article-creation loop of run_search_job: skip candidates whose dedup hash
already exists (the session sees rows added earlier in the loop), create the
rest in status pending.  An error means url_hash raised mid-loop: rows added
so far are kept, since the except branch commits the session. -/
def runJobLoop (now : Nat) : DiscoveryState → Nat → List Candidate →
    Except (DiscoveryState × Nat) (DiscoveryState × Nat)
  | s, newCount, [] => .ok (s, newCount)
  | s, newCount, c :: rest =>
    match url_hash c.url with
    | none => .error (s, newCount)
    | some h =>
      if s.articles.any (fun a => a.url_hash == h) then runJobLoop now s newCount rest
      else
        let a : Article :=
          { id := s.next_article_id, url := c.url, url_hash := h, title := c.title,
            source := c.source, status := "pending", created_at := now }
        runJobLoop now ⟨s.articles ++ [a], s.next_article_id + 1⟩ (newCount + 1) rest

/-- run_search_job from app/services/discovery.py.  The Perplexity boundary
is an oracle from the query to an optional result; exceptions raised inside
the try block (urlparse or the port property raising on a citation) reach the
except branch, which records an error execution with the truncated message,
modelled as the constant ValueError text. -/
def run_search_job (oracle : String → Option PerplexityResult) (now : Nat)
    (s : DiscoveryState) (job : SearchJob) : DiscoveryState × SearchExecution :=
  match oracle job.query with
  | none =>
    (s, { search_job_id := job.id, status := "error",
          error_message := some "Perplexity API returned no result",
          finished_at := some now })
  | some result =>
    match _parse_citations result.content result.citations with
    | none =>
      (s, { search_job_id := job.id, status := "error",
            error_message := some "ValueError", finished_at := some now })
    | some candidates =>
      match runJobLoop now s 0 candidates with
      | .error (s2, _) =>
        (s2, { search_job_id := job.id, status := "error",
               error_message := some "ValueError",
               articles_found := candidates.length, finished_at := some now })
      | .ok (s2, newCount) =>
        (s2, { search_job_id := job.id, status := "completed",
               articles_found := candidates.length, articles_new := newCount,
               finished_at := some now })

/-! ## fetching.py -/

/-- PAYWALL_INDICATORS from app/services/fetching.py. -/
def PAYWALL_INDICATORS : List String :=
  ["subscribe to continue", "subscribe to read", "this content is for subscribers",
   "paywall", "sign in to read", "create a free account", "premium content",
   "members only"]

/-- Outcome of the HTTP GET issued by fetch_article_content. -/
inductive HttpOutcome where
  | resp (status_code : Nat) (text : String)
  | timeout
  | exc (msg : String)
deriving Repr, DecidableEq

/-- Metadata object returned by trafilatura extract_metadata. -/
structure FetchMetadata where
  title : Option String := none
  author : Option String := none
  date : Option String := none
deriving Repr, DecidableEq

structure FetchState where
  articles : List Article
  contents : List ArticleContent
  authors : List (Nat × String)
deriving Repr, DecidableEq

/-- Replace the content record with the same article id. -/
def updateContent (contents : List ArticleContent) (c : ArticleContent) : List ArticleContent :=
  contents.map (fun x => if x.article_id = c.article_id then c else x)

/-- Paywall flag: any indicator occurs in the lower-cased raw HTML. -/
def paywallFlag (html : String) : Bool :=
  PAYWALL_INDICATORS.any (fun ind => pyContains ind (pyLower html))

/-- Get-or-create base of the article content record. -/
def fetchBaseContent (s : FetchState) (a : Article) : ArticleContent :=
  match s.contents.find? (fun c => c.article_id == a.id) with
  | some c => c
  | none => { article_id := a.id, fetch_status := "pending" }

/-- Session write of one fetched content record and one article update. -/
def fetchPut (s : FetchState) (aid : Nat) (c : ArticleContent) (a : Article) : FetchState :=
  { s with
    contents :=
      if s.contents.any (fun x => x.article_id == aid) then updateContent s.contents c
      else s.contents ++ [c],
    articles := updateArticle s.articles a }

/-- The too-short test on a 200 response: extraction absent, empty, or
stripped length under 100. -/
def extractTooShort (extracted : Option String) : Bool :=
  match extracted with
  | none => true
  | some t => t = "" ∨ (pyStrip t).data.length < 100

/-- Content record written by the too-short branch on a 200 response. -/
def fetchFailContent (base : ArticleContent) (pw : Bool) (now : Nat) : ArticleContent :=
  let (st, err) :=
    if pw then ("paywall", "Content appears to be behind a paywall")
    else ("failed", "Could not extract meaningful content")
  { base with http_status := some 200, fetch_status := st, fetch_error := some err,
              fetched_at := some now }

/-- Content record written by the extraction-success branch, including the
metadata backfill. -/
def fetchSuccessContent (meta : Option FetchMetadata) (now : Nat) (base : ArticleContent)
    (html t : String) : ArticleContent :=
  let is_paywall := paywallFlag html
  let wc := pyWordCount t
  let c1 : ArticleContent :=
    { base with
      http_status := some 200,
      full_text := some t,
      content_hash := some (sha256hex t),
      word_count := some wc,
      fetched_at := some now }
  let c2 :=
    if is_paywall ∧ wc < 200 then
      { c1 with fetch_status := "partial",
                fetch_error := some "Partial content - possible paywall" }
    else { c1 with fetch_status := "success" }
  match meta with
  | none => c2
  | some m =>
    let ca := if truthyStr m.title then { c2 with extracted_title := m.title } else c2
    let cb := if truthyStr m.author then { ca with extracted_author := m.author } else ca
    if truthyStr m.date then { cb with extracted_date := m.date } else cb

/-- Article update of the extraction-success branch. -/
def fetchSuccessArticle (a : Article) (t : String) : Article :=
  let wc := pyWordCount t
  let a1 := { a with has_content := true, status := "fetched" }
  if wc ≠ 0 then
    { a1 with word_count := some (wc : Int),
              reading_time_minutes := some (max 1 (pyRound ((wc : ℚ) / 238))) }
  else a1

/-- Author backfill of the extraction-success branch. -/
def fetchSuccessAuthors (meta : Option FetchMetadata) (authors : List (Nat × String))
    (aid : Nat) : List (Nat × String) :=
  match meta with
  | some m =>
    if truthyStr m.author ∧ ¬ authors.any (fun p => p.1 == aid) then
      authors ++ [(aid, m.author.getD "")]
    else authors
  | none => authors

/-- fetch_article_content from app/services/fetching.py.  The HTTP client,
the text extractor and the metadata extractor are oracles; the function
classifies the fetch, persists the content record and moves the article to
fetched or fetch_failed, returning the success flag.  The fetched_at
timestamp is the now parameter. -/
def fetch_article_content (http : String → HttpOutcome) (extract : String → Option String)
    (extract_metadata : String → Option FetchMetadata) (now : Nat)
    (s : FetchState) (article : Article) : FetchState × Bool :=
  let content := fetchBaseContent s article
  match http article.url with
  | .timeout =>
    (fetchPut s article.id
      { content with fetch_status := "failed", fetch_error := some "Request timed out",
                     fetched_at := some now }
      { article with status := "fetch_failed" }, false)
  | .exc msg =>
    (fetchPut s article.id
      { content with fetch_status := "failed", fetch_error := some ⟨msg.data.take 500⟩,
                     fetched_at := some now }
      { article with status := "fetch_failed" }, false)
  | .resp code html =>
    if code ≠ 200 then
      (fetchPut s article.id
        { content with http_status := some code, fetch_status := "failed",
                       fetch_error := some ("HTTP " ++ toString code),
                       fetched_at := some now }
        { article with status := "fetch_failed" }, false)
    else
      let extracted := extract html
      let metadata := extract_metadata html
      if extractTooShort extracted then
        (fetchPut s article.id (fetchFailContent content (paywallFlag html) now)
          { article with status := "fetch_failed" }, false)
      else
        let t := extracted.getD ""
        ({ fetchPut s article.id (fetchSuccessContent metadata now content html t)
             (fetchSuccessArticle article t) with
           authors := fetchSuccessAuthors metadata s.authors article.id }, true)

/-! ## enrichment.py -/

/-- MAX_CONTENT_WORDS from app/services/enrichment.py. -/
def MAX_CONTENT_WORDS : Nat := 12000

/-- _truncate_text from app/services/enrichment.py. -/
def _truncate_text (text : String) : String :=
  let words := pySplitWsL text.data
  if words.length ≤ MAX_CONTENT_WORDS then text
  else ⟨List.intercalate [' '] (words.take MAX_CONTENT_WORDS) ++ "\n\n[... truncated for length]".data⟩

/-- A tag entry of the structured enrichment response. -/
structure EnrichTagData where
  name : String
  category : String
  confidence : ℚ
deriving Repr, DecidableEq

/-- Structured response of the enrichment call, per ENRICHMENT_SCHEMA. -/
structure EnrichResult where
  summary : String
  key_findings : String
  tags : List EnrichTagData
  relevance_score : ℚ
  content_type : String
  word_count : Int
deriving Repr, DecidableEq

/-- The user prompt built by enrich_article: the filled template and its
slots (the prompt text itself is the template applied to these slots). -/
inductive EnrichPrompt where
  | withContent (title url source content_type published_date full_text : String)
  | metadataOnly (title url source content_type published_date : String)
deriving Repr, DecidableEq

structure EnrichState where
  articles : List Article
  contents : List ArticleContent
  tags : List Tag
  article_tags : List ArticleTag
  next_tag_id : Nat
deriving Repr, DecidableEq

/-- The content record for an article, first match as query .first(). -/
def enrichContentRecord (s : EnrichState) (article : Article) : Option ArticleContent :=
  s.contents.find? (fun c => c.article_id == article.id)

/-- Truthiness of has_full_text in enrich_article: a content record exists,
its fetch_status is success or partial, and full_text is truthy. -/
def hasFullText (s : EnrichState) (article : Article) : Bool :=
  match enrichContentRecord s article with
  | some c =>
    (c.fetch_status == "success" || c.fetch_status == "partial") && truthyStr c.full_text
  | none => false

/-- Rendering of article.published_date or the Unknown marker. -/
def promptDate (d : Option Nat) : String :=
  match d with
  | some n => toString n
  | none => "Unknown"

/-- Prompt selection of enrich_article: full-text template when has_full_text
holds, metadata-only template otherwise. -/
def promptFor (s : EnrichState) (article : Article) : EnrichPrompt :=
  if hasFullText s article then
    .withContent article.title article.url article.source article.content_type
      (promptDate article.published_date)
      (_truncate_text (((enrichContentRecord s article).bind (fun c => c.full_text)).getD ""))
  else
    .metadataOnly article.title article.url article.source article.content_type
      (promptDate article.published_date)

/-- Tag materialization step: get-or-create the (name, category) tag, then
create the article link only when absent. -/
def addTagLink (article_id : Nat) (s : EnrichState) (td : EnrichTagData) : EnrichState :=
  let (tag, s1) :=
    match s.tags.find? (fun t => t.name == td.name && t.category == td.category) with
    | some t => (t, s)
    | none =>
      let t : Tag := { id := s.next_tag_id, name := td.name, category := td.category }
      (t, { s with tags := s.tags ++ [t], next_tag_id := s.next_tag_id + 1 })
  if s1.article_tags.any (fun l => l.article_id == article_id && l.tag_id == tag.id) then s1
  else
    { s1 with article_tags :=
        s1.article_tags ++ [{ article_id := article_id, tag_id := tag.id,
                              confidence := td.confidence }] }

/-- enrich_article from app/services/enrichment.py.  The oracle gives the
outcome of the structured call for a prompt; absent means the article moves
to error with nothing else changed.  On success the enrichment fields are
persisted, the real extracted word count is preferred when truthy, and tags
are materialized idempotently. -/
def enrich_article (oracle : EnrichPrompt → Except String (Option EnrichResult))
    (s : EnrichState) (article : Article) : EnrichState × Bool :=
  match call_claude_structured (oracle (promptFor s article)) with
  | none =>
    ({ s with articles := updateArticle s.articles { article with status := "error" } }, false)
  | some result =>
    let contentWc : Option Nat := (enrichContentRecord s article).bind (fun c => c.word_count)
    let wc : Int :=
      if hasFullText s article ∧ (match contentWc with | some w => w ≠ 0 | none => false) = true then
        (contentWc.getD 0 : Int)
      else result.word_count
    let a2 : Article :=
      { article with
        summary := some result.summary,
        key_findings := some result.key_findings,
        relevance_score := some result.relevance_score,
        content_type := result.content_type,
        status := "enriched",
        word_count := some wc,
        reading_time_minutes := some (estimate_reading_time wc) }
    let s2 := { s with articles := updateArticle s.articles a2 }
    (result.tags.foldl (addTagLink article.id) s2, true)

structure BatchStats where
  total : Nat
  success : Nat
  error : Nat
deriving Repr, DecidableEq

/-- Batch selection of enrich_pending_articles: articles in status fetched or
fetch_failed, oldest first, up to the batch size. -/
def selectEnrichBatch (s : EnrichState) (batch_size : Nat) : List Article :=
  (pySort (fun a b => decide (a.created_at ≤ b.created_at))
    (s.articles.filter (fun a => a.status == "fetched" || a.status == "fetch_failed"))).take
    batch_size

/-- enrich_pending_articles from app/services/enrichment.py: iterate the
selected batch, counting per-item success and failure. -/
def enrich_pending_articles (oracle : EnrichPrompt → Except String (Option EnrichResult))
    (s : EnrichState) (batch_size : Nat) : EnrichState × BatchStats :=
  let articles := selectEnrichBatch s batch_size
  articles.foldl
    (fun acc a =>
      let (s2, ok) := enrich_article oracle acc.1 a
      if ok then (s2, { acc.2 with success := acc.2.success + 1 })
      else (s2, { acc.2 with error := acc.2.error + 1 }))
    (s, { total := articles.length, success := 0, error := 0 })

/-! ## digest.py -/

/-- MAX_ARTICLES_PER_DIGEST from app/services/digest.py. -/
def MAX_ARTICLES_PER_DIGEST : Nat := 50

structure Digest where
  id : Nat
  title : String
  digest_type : String
  status : String
  period_start : Option Nat := none
  period_end : Option Nat := none
  executive_summary : Option String := none
  trend_analysis : Option String := none
  article_count : Nat := 0
deriving Repr, DecidableEq

structure DigestSection where
  id : Nat
  digest_id : Nat
  title : String
  section_type : String
  content_markdown : Option String
  position : Nat
deriving Repr, DecidableEq

structure DigestArticle where
  section_id : Nat
  article_id : Nat
  highlight_note : Option String
  position : Nat
deriving Repr, DecidableEq

structure DigestState where
  articles : List Article
  digests : List Digest
  digest_sections : List DigestSection
  digest_articles : List DigestArticle
  next_digest_id : Nat
  next_section_id : Nat
deriving Repr, DecidableEq

/-- Relevance descending with nulls last, the ORDER BY used by the gather
queries; ties and null-against-null keep row order (stable model). -/
def relDescNullsLast (a b : Article) : Bool :=
  match a.relevance_score, b.relevance_score with
  | some x, some y => decide (y ≤ x)
  | some _, none => true
  | none, some _ => false
  | none, none => true

/-- Keep the first occurrence of each article id, the dedup loop run after a
joinedload query. -/
def dedupById : List Article → List Nat → List Article
  | [], _ => []
  | a :: rest, seen =>
    if seen.contains a.id then dedupById rest seen
    else a :: dedupById rest (a.id :: seen)

/-- _gather_articles from app/services/digest.py: enriched articles created
inside the period, by relevance descending nulls last, capped. -/
def _gather_articles (s : DigestState) (period_start period_end : Nat) : List Article :=
  dedupById
    ((pySort relDescNullsLast
       (s.articles.filter (fun a =>
         a.status == "enriched" && decide (period_start ≤ a.created_at) &&
           decide (a.created_at ≤ period_end)))).take MAX_ARTICLES_PER_DIGEST)
    []

/-- A section of the structured digest response, per DIGEST_SCHEMA. -/
structure DigestRespSection where
  title : String
  narrative : String
  article_ids : List Nat
  article_highlights : List String
deriving Repr, DecidableEq

/-- Structured response of the digest call, per DIGEST_SCHEMA. -/
structure DigestResponse where
  title : String
  executive_summary : String
  trend_analysis : String
  sections : List DigestRespSection
  discussion_questions : List String
  action_items : List String
deriving Repr, DecidableEq

/-- Section rows created for one digest response, ids assigned sequentially
from the flush counter. -/
def digestSectionRows (digest_id base : Nat) (secs : List DigestRespSection) :
    List DigestSection :=
  secs.enum.map (fun p =>
    { id := base + p.1, digest_id := digest_id, title := p.2.title,
      section_type := "theme", content_markdown := some p.2.narrative,
      position := p.1 })

/-- Section-article link rows for one digest response: a cited id outside the
gathered candidate set creates no row. -/
def digestArticleRows (base : Nat) (candidateIds : List Nat)
    (secs : List DigestRespSection) : List DigestArticle :=
  secs.enum.flatMap (fun p =>
    p.2.article_ids.enum.filterMap (fun q =>
      if candidateIds.contains q.2 then
        some { section_id := base + p.1, article_id := q.2,
               highlight_note := p.2.article_highlights.get? q.1, position := q.1 }
      else none))

/-- The two synthetic recommendation sections appended when discussion
questions or action items are present.  The numbered and bulleted markdown
bodies are built exactly as in the source. -/
def syntheticSections (digest_id base nsecs : Nat) (resp : DigestResponse) :
    List DigestSection :=
  let qRow : DigestSection :=
    { id := base, digest_id := digest_id, title := "Discussion Questions",
      section_type := "recommendation",
      content_markdown := some (String.intercalate "\n"
        (resp.discussion_questions.enum.map
          (fun p => toString (p.1 + 1) ++ ". " ++ p.2))),
      position := nsecs }
  let qRows := if resp.discussion_questions ≠ [] then [qRow] else []
  let aRow : DigestSection :=
    { id := base + qRows.length, digest_id := digest_id,
      title := "Suggested Action Items", section_type := "recommendation",
      content_markdown := some (String.intercalate "\n"
        (resp.action_items.map (fun a => "- " ++ a))),
      position := nsecs + 1 }
  let aRows := if resp.action_items ≠ [] then [aRow] else []
  qRows ++ aRows

/-- generate_digest from app/services/digest.py (markdown rendering is not
modelled; no claim mentions it).  A digest row is committed in status
generating first; an empty gather or an absent structured response ends in
status error; otherwise sections, membership-checked article links and the
synthetic sections are persisted and the digest completes. -/
def generate_digest (outcome : Except String (Option DigestResponse))
    (s : DigestState) (period_start period_end : Nat) (digest_type : String) :
    DigestState × Digest :=
  let did := s.next_digest_id
  let d0 : Digest :=
    { id := did, title := "AI Working Group Briefing", digest_type := digest_type,
      status := "generating", period_start := some period_start,
      period_end := some period_end }
  let s0 := { s with digests := s.digests ++ [d0], next_digest_id := did + 1 }
  let articles := _gather_articles s period_start period_end
  if articles.isEmpty then
    let d1 := { d0 with status := "error",
                        executive_summary := some "No enriched articles found for this period." }
    ({ s0 with digests := s.digests ++ [d1] }, d1)
  else
    match call_claude_structured outcome with
    | none =>
      let d1 := { d0 with status := "error", article_count := articles.length,
                          executive_summary := some "AI synthesis failed." }
      ({ s0 with digests := s.digests ++ [d1] }, d1)
    | some result =>
      let candidateIds := articles.map (fun a => a.id)
      let base := s0.next_section_id
      let secRows := digestSectionRows did base result.sections
      let artRows := digestArticleRows base candidateIds result.sections
      let synRows := syntheticSections did (base + secRows.length) result.sections.length result
      let d1 := { d0 with status := "completed", title := result.title,
                          executive_summary := some result.executive_summary,
                          trend_analysis := some result.trend_analysis,
                          article_count := articles.length }
      ({ s0 with
         digests := s.digests ++ [d1],
         digest_sections := s.digest_sections ++ secRows ++ synRows,
         digest_articles := s.digest_articles ++ artRows,
         next_section_id := base + secRows.length + synRows.length }, d1)

/-! ## interrogation.py -/

/-- Structured query plan, per QUERY_PLAN_SCHEMA; tag_filters and
content_types default to empty when absent, matching plan.get with an empty
default, and the optional time budget stays optional. -/
structure QueryPlan where
  search_terms : List String
  tag_filters : List String := []
  time_budget_minutes : Option Int := none
  content_types : List String := []
  max_articles : Int := 10
  sort_by : String := "relevance"
deriving Repr, DecidableEq

structure SynthSection where
  title : String
  article_ids : List Nat
  notes : List String
deriving Repr, DecidableEq

structure SynthResult where
  title : String
  description : String
  sections : List SynthSection
  discussion_prompts : List String
  total_reading_time : Int
deriving Repr, DecidableEq

structure ReadingList where
  id : Nat
  title : String
  description : String
  query : String
  discussion_prompts : String
  total_reading_time : Int
  created_by : Option Nat
deriving Repr, DecidableEq

/-- Reading-list item row; the column named section in the source is
section_label here because section is a Lean keyword. -/
structure ReadingListItem where
  reading_list_id : Nat
  article_id : Nat
  section_label : String
  position : Nat
  notes : Option String
deriving Repr, DecidableEq

/-- Audit log row; the JSON payloads are modelled structurally. -/
structure InterrogationLog where
  user_id : Option Nat
  query : String
  query_plan : Option QueryPlan := none
  result_error : Option String := none
  result_synthesis : Option SynthResult := none
  reading_list_id : Option Nat := none
deriving Repr, DecidableEq

structure InterrogationState where
  articles : List Article
  tags : List Tag
  article_tags : List ArticleTag
  reading_lists : List ReadingList
  reading_list_items : List ReadingListItem
  logs : List InterrogationLog
  next_reading_list_id : Nat
deriving Repr, DecidableEq

/-- Add an id to the candidate set (Python set: membership only). -/
def addUnique (ids : List Nat) (n : Nat) : List Nat :=
  if ids.contains n then ids else ids ++ [n]

/-- Sort orderings of _execute_search.  Missing relevance and reading time
count as zero; a missing date sorts earliest (mixed present-and-missing dates
would raise a TypeError in Python when compared against the empty string;
that mixed comparison is not modelled). -/
def sortArticles (sort_by : String) (l : List Article) : List Article :=
  if sort_by = "relevance" then
    pySort (fun a b => decide ((b.relevance_score.getD 0) ≤ (a.relevance_score.getD 0))) l
  else if sort_by = "date" then
    pySort (fun a b => decide ((b.published_date.getD 0) ≤ (a.published_date.getD 0))) l
  else if sort_by = "reading_time" then
    pySort (fun a b => decide ((a.reading_time_minutes.getD 0) ≤ (b.reading_time_minutes.getD 0))) l
  else l

/-- Reading time used by the budget loop: article.reading_time_minutes or 5,
so an unset or zero stored value counts as five minutes. -/
def budgetRt (a : Article) : Int :=
  match a.reading_time_minutes with
  | some n => if n = 0 then 5 else n
  | none => 5

/-- Greedy time-budget selection: keep an article when the running total
stays within the budget. -/
def budgetSelect (budget : Int) : Int → List Article → List Article
  | _, [] => []
  | total, a :: rest =>
    if total + budgetRt a ≤ budget then a :: budgetSelect budget (total + budgetRt a) rest
    else budgetSelect budget total rest

/-- Python slice l[:m] for a possibly negative m. -/
def pySliceTo (m : Int) (l : List α) : List α :=
  if 0 ≤ m then l.take m.toNat
  else l.take (l.length - min l.length (-m).toNat)

/-- _execute_search from app/services/interrogation.py.  The full-text search
boundary is an oracle from a term to row ids (at most 50 per term, the query
LIMIT) or a raised error, which the source catches and skips. -/
def _execute_search (fts : String → Except String (List Nat))
    (s : InterrogationState) (plan : QueryPlan) : List Article :=
  let candidate_ids :=
    plan.search_terms.foldl
      (fun acc term =>
        match fts term with
        | .error _ => acc
        | .ok rows => (rows.take 50).foldl addUnique acc)
      []
  let candidate_ids :=
    if candidate_ids.isEmpty then
      ((pySort relDescNullsLast (s.articles.filter (fun a => a.status == "enriched"))).take
        50).map (fun a => a.id)
    else candidate_ids
  if candidate_ids.isEmpty then []
  else
    let base := s.articles.filter (fun a => candidate_ids.contains a.id)
    let tagged :=
      if plan.tag_filters ≠ [] then
        base.filter (fun a =>
          s.article_tags.any (fun l =>
            l.article_id == a.id &&
              s.tags.any (fun t => t.id == l.tag_id && plan.tag_filters.contains t.name)))
      else base
    let typed :=
      if plan.content_types ≠ [] then
        tagged.filter (fun a => plan.content_types.contains a.content_type)
      else tagged
    let unique := dedupById typed []
    let sorted := sortArticles plan.sort_by unique
    let afterBudget :=
      match plan.time_budget_minutes with
      | some b => if b ≠ 0 then budgetSelect b 0 sorted else sorted
      | none => sorted
    pySliceTo plan.max_articles afterBudget

/-- Resolved per-article projection in the returned sections. -/
structure SectionArticleData where
  id : Nat
  title : String
  source : String
  reading_time_minutes : Option Int
deriving Repr, DecidableEq

structure SectionData where
  title : String
  articles_data : List SectionArticleData
  notes : List String
deriving Repr, DecidableEq

/-- The template-friendly result dict of process_query. -/
structure QueryResult where
  title : String
  description : String
  sections : List SectionData
  discussion_prompts : List String
  total_reading_time : Int
  reading_list_id : Option Nat
deriving Repr, DecidableEq

/-- _fallback_result from app/services/interrogation.py: log the failure and
return the uniform could-not-be-processed shape. -/
def _fallback_result (s : InterrogationState) (query : String) (user_id : Option Nat)
    (error : String) : InterrogationState × QueryResult :=
  ({ s with logs := s.logs ++ [{ user_id := user_id, query := query,
                                 result_error := some error }] },
   { title := "Query could not be processed", description := error, sections := [],
     discussion_prompts := [], total_reading_time := 0, reading_list_id := none })

/-- Reading-list item rows persisted for one synthesis: one row per cited id
per section, position the enumerate index, note aligned by index; ids outside
the retrieved candidate set create no row. -/
def readingListItemRows (rlid : Nat) (articles : List Article)
    (secs : List SynthSection) : List ReadingListItem :=
  secs.flatMap (fun sec =>
    sec.article_ids.enum.filterMap (fun q =>
      if articles.any (fun a => a.id == q.2) then
        some { reading_list_id := rlid, article_id := q.2, section_label := sec.title,
               position := q.1, notes := sec.notes.get? q.1 }
      else none))

/-- process_query from app/services/interrogation.py: plan, retrieve,
synthesize; each phase failure takes the logged fallback, and full success
persists the reading list, its items and the audit log. -/
def process_query (planOutcome : Except String (Option QueryPlan))
    (fts : String → Except String (List Nat))
    (synthOutcome : Except String (Option SynthResult))
    (s : InterrogationState) (query : String) (user_id : Option Nat) :
    InterrogationState × QueryResult :=
  match call_claude_structured planOutcome with
  | none => _fallback_result s query user_id "Could not parse query"
  | some plan =>
    let articles := _execute_search fts s plan
    if articles.isEmpty then _fallback_result s query user_id "No matching articles found"
    else
      match call_claude_structured synthOutcome with
      | none => _fallback_result s query user_id "Could not generate reading list"
      | some synthesis =>
        let rlid := s.next_reading_list_id
        let rl : ReadingList :=
          { id := rlid, title := synthesis.title, description := synthesis.description,
            query := query,
            discussion_prompts := String.intercalate "\n" synthesis.discussion_prompts,
            total_reading_time := synthesis.total_reading_time, created_by := user_id }
        let items := readingListItemRows rlid articles synthesis.sections
        let log : InterrogationLog :=
          { user_id := user_id, query := query, query_plan := some plan,
            result_synthesis := some synthesis, reading_list_id := some rlid }
        let sections_data := synthesis.sections.map (fun sec =>
          { title := sec.title,
            articles_data := sec.article_ids.filterMap (fun aid =>
              (articles.find? (fun a => a.id == aid)).map (fun a =>
                { id := a.id, title := a.title, source := a.source,
                  reading_time_minutes := a.reading_time_minutes })),
            notes := sec.notes : SectionData })
        ({ s with
           reading_lists := s.reading_lists ++ [rl],
           reading_list_items := s.reading_list_items ++ items,
           logs := s.logs ++ [log],
           next_reading_list_id := rlid + 1 },
         { title := synthesis.title, description := synthesis.description,
           sections := sections_data,
           discussion_prompts := synthesis.discussion_prompts,
           total_reading_time := synthesis.total_reading_time,
           reading_list_id := some rlid })

/-! ## Lookup helpers used by the theorems -/

/-- First article with the given id. -/
def articleById (articles : List Article) (aid : Nat) : Option Article :=
  articles.find? (fun x => x.id == aid)

/-- First content record for the given article id. -/
def contentByArticle (contents : List ArticleContent) (aid : Nat) : Option ArticleContent :=
  contents.find? (fun c => c.article_id == aid)

/-- Reading-time sum in the words of the time-budget claim: each selected
article contributes its reading time, five minutes when unset. -/
def claimedReadingTimeSum (l : List Article) : Int :=
  (l.map (fun a => a.reading_time_minutes.getD 5)).sum

/-! ## Concrete sample values used by witness theorems -/

def wArticleFF : Article :=
  { id := 1, url := "https://x.com/a", url_hash := "h", title := "t",
    status := "fetch_failed" }

def wEnrichState : EnrichState := ⟨[wArticleFF], [], [], [], 0⟩

def wFetchState : FetchState := ⟨[wArticleFF], [], []⟩

def wEnrichResult : EnrichResult :=
  { summary := "sum", key_findings := "kf", tags := [], relevance_score := 1/2,
    content_type := "article", word_count := 100 }

def wOracleOk : EnrichPrompt → Except String (Option EnrichResult) :=
  fun _ => .ok (some wEnrichResult)

def wHttp404 : String → HttpOutcome := fun _ => .resp 404 ""

def wArticleEnr : Article :=
  { id := 1, url := "https://x.com/a", url_hash := "h", title := "t",
    relevance_score := some 1, reading_time_minutes := some 5,
    status := "enriched", created_at := 3 }

def wInterrogationState : InterrogationState := ⟨[wArticleEnr], [], [], [], [], [], 1⟩

def wPlanBudget (b : Option Int) : QueryPlan :=
  { search_terms := ["x"], time_budget_minutes := b }

def wFts : String → Except String (List Nat) := fun _ => .ok [1]

def wDigestState : DigestState := ⟨[wArticleEnr], [], [], [], 1, 1⟩

def wDigestResponse : DigestResponse :=
  { title := "T", executive_summary := "E", trend_analysis := "Tr",
    sections := [{ title := "S", narrative := "N", article_ids := [1, 99],
                   article_highlights := ["h1", "h2"] }],
    discussion_questions := ["q"], action_items := [] }

def wSynthResult : SynthResult :=
  { title := "T", description := "D",
    sections := [{ title := "S", article_ids := [1, 99], notes := ["n1", "n2"] }],
    discussion_prompts := ["p"], total_reading_time := 5 }

end AIC

namespace AIC

/-! ## Theorems -/

/-- C9: estimate_reading_time satisfies estimate(0) == 1, estimate(-5) == 1,
and for every positive word count w, estimate(w) == max(1, round(w / 238))
with round the Python round (half to even) of the exact quotient. -/
theorem C9_reading_time :
    estimate_reading_time 0 = 1 ∧ estimate_reading_time (-5) = 1 ∧
      ∀ w : Int, 0 < w →
        estimate_reading_time w = max 1 (pyRound ((w : ℚ) / 238)) := by
  refine ⟨by decide, by decide, ?_⟩
  intro w hw
  have hnot : ¬ w ≤ 0 := by omega
  simp [estimate_reading_time, WPM, hnot]

/-- Witness for C9 at w = 500: the positive-branch formula evaluates to 2. -/
theorem C9_reading_time_witness :
    estimate_reading_time 500 = max 1 (pyRound ((500 : ℚ) / 238)) :=
  C9_reading_time.2.2 500 (by decide)

/-- Tag materialization never touches the article, content, list. -/
theorem addTagLink_contents (aid : Nat) (s : EnrichState) (td : EnrichTagData) :
    (addTagLink aid s td).contents = s.contents ∧ (addTagLink aid s td).articles = s.articles := by
  unfold addTagLink
  cases h : s.tags.find? (fun t => t.name == td.name && t.category == td.category) <;>
    simp <;> split <;> simp

theorem foldl_addTagLink_contents (aid : Nat) (tds : List EnrichTagData) (s : EnrichState) :
    (tds.foldl (addTagLink aid) s).contents = s.contents := by
  induction tds generalizing s with
  | nil => rfl
  | cons t ts ih => simpa [List.foldl_cons, (addTagLink_contents aid s t).1] using ih (addTagLink aid s t)

/-- One enrichment step never changes the content records. -/
theorem enrich_article_contents (oracle : EnrichPrompt → Except String (Option EnrichResult))
    (s : EnrichState) (a : Article) :
    (enrich_article oracle s a).1.contents = s.contents := by
  unfold enrich_article
  cases h : call_claude_structured (oracle (promptFor s a)) with
  | none => rfl
  | some r => simp [foldl_addTagLink_contents]

/-- The prompt choice reads the state only through its content records. -/
theorem promptFor_congr (s₁ s₂ : EnrichState) (a : Article) (h : s₁.contents = s₂.contents) :
    promptFor s₁ a = promptFor s₂ a := by
  simp only [promptFor, hasFullText, enrichContentRecord, h]

/-- C7: when the language-model call made by enrich_article returns absent,
the article status is set to error and no other article field is changed (the
record update touches status only), and no tag or tag link is created. -/
theorem C7_model_failure_minimal_change
    (oracle : EnrichPrompt → Except String (Option EnrichResult))
    (s : EnrichState) (article : Article)
    (h : call_claude_structured (oracle (promptFor s article)) = none) :
    (enrich_article oracle s article).2 = false ∧
    (enrich_article oracle s article).1.articles
      = updateArticle s.articles { article with status := "error" } ∧
    (enrich_article oracle s article).1.tags = s.tags ∧
    (enrich_article oracle s article).1.article_tags = s.article_tags ∧
    (enrich_article oracle s article).1.contents = s.contents := by
  unfold enrich_article
  rw [h]
  exact ⟨rfl, rfl, rfl, rfl, rfl⟩

/-- Witness for C7 at a concrete article and an oracle whose structured call
yields no output. -/
theorem C7_model_failure_minimal_change_witness :
    (enrich_article (fun _ => Except.ok none) ⟨[], [], [], [], 0⟩
        ⟨1, "u", "h", "t", "s", none, "article", none, none, none, none, none,
         "fetch_failed", 0, false⟩).2 = false ∧
    (enrich_article (fun _ => Except.ok none) ⟨[], [], [], [], 0⟩
        ⟨1, "u", "h", "t", "s", none, "article", none, none, none, none, none,
         "fetch_failed", 0, false⟩).1.articles
      = updateArticle []
          { (⟨1, "u", "h", "t", "s", none, "article", none, none, none, none, none,
             "fetch_failed", 0, false⟩ : Article) with status := "error" } ∧
    (enrich_article (fun _ => Except.ok none) ⟨[], [], [], [], 0⟩
        ⟨1, "u", "h", "t", "s", none, "article", none, none, none, none, none,
         "fetch_failed", 0, false⟩).1.tags = [] ∧
    (enrich_article (fun _ => Except.ok none) ⟨[], [], [], [], 0⟩
        ⟨1, "u", "h", "t", "s", none, "article", none, none, none, none, none,
         "fetch_failed", 0, false⟩).1.article_tags = [] ∧
    (enrich_article (fun _ => Except.ok none) ⟨[], [], [], [], 0⟩
        ⟨1, "u", "h", "t", "s", none, "article", none, none, none, none, none,
         "fetch_failed", 0, false⟩).1.contents = [] :=
  C7_model_failure_minimal_change (fun _ => Except.ok none) ⟨[], [], [], [], 0⟩ _ rfl

/-- Lengths of the success and failure sublists add up to the whole. -/
theorem filter_isSome_isNone_length (l : List α) (f : α → Option β) :
    (l.filter (fun a => (f a).isSome)).length
      + (l.filter (fun a => (f a).isNone)).length = l.length := by
  induction l with
  | nil => simp
  | cons a rest ih =>
    cases h : f a <;> simp [List.filter_cons, h] <;> omega

/-- Generalized accumulator lemma for the enrichment batch loop: every item
is processed, and each item counts as a success or an error solely according
to its own structured-call outcome (computed against the initial state, which
is sound because enrichment never changes content records). -/
theorem enrich_batch_loop (oracle : EnrichPrompt → Except String (Option EnrichResult))
    (s : EnrichState) :
    ∀ (l : List Article) (st : EnrichState) (acc : BatchStats),
      st.contents = s.contents →
      (l.foldl
        (fun acc a =>
          let p := enrich_article oracle acc.1 a
          if p.2 then (p.1, { acc.2 with success := acc.2.success + 1 })
          else (p.1, { acc.2 with error := acc.2.error + 1 }))
        (st, acc)).2.total = acc.total ∧
      (l.foldl
        (fun acc a =>
          let p := enrich_article oracle acc.1 a
          if p.2 then (p.1, { acc.2 with success := acc.2.success + 1 })
          else (p.1, { acc.2 with error := acc.2.error + 1 }))
        (st, acc)).2.success = acc.success +
        (l.filter (fun a => (call_claude_structured (oracle (promptFor s a))).isSome)).length ∧
      (l.foldl
        (fun acc a =>
          let p := enrich_article oracle acc.1 a
          if p.2 then (p.1, { acc.2 with success := acc.2.success + 1 })
          else (p.1, { acc.2 with error := acc.2.error + 1 }))
        (st, acc)).2.error = acc.error +
        (l.filter (fun a => (call_claude_structured (oracle (promptFor s a))).isNone)).length := by
  intro l
  induction l with
  | nil => intro st acc h; simp
  | cons a rest ih =>
    intro st acc h
    have hp : promptFor st a = promptFor s a := promptFor_congr st s a h
    have hc : (enrich_article oracle st a).1.contents = s.contents := by
      rw [enrich_article_contents, h]
    simp only [List.foldl_cons]
    cases hres : call_claude_structured (oracle (promptFor s a)) with
    | none =>
      have hfalse : (enrich_article oracle st a).2 = false := by
        unfold enrich_article
        rw [hp, hres]
      have key := ih (enrich_article oracle st a).1 { acc with error := acc.error + 1 } hc
      rcases (by simpa [hfalse] using key) with ⟨h1, h2, h3⟩
      refine ⟨by simpa [hfalse] using h1, ?_, ?_⟩
      · simpa [hfalse, List.filter_cons, hres] using h2
      · rw [List.filter_cons]
        simp only [hres, Option.isNone_none, if_pos]
        simp only [hfalse, if_neg Bool.false_ne_true] at h3 ⊢
        rw [h3]
        simp only [List.length_cons]
        omega
    | some r =>
      have htrue : (enrich_article oracle st a).2 = true := by
        unfold enrich_article
        rw [hp, hres]
      have key := ih (enrich_article oracle st a).1 { acc with success := acc.success + 1 } hc
      rcases (by simpa [htrue] using key) with ⟨h1, h2, h3⟩
      refine ⟨by simpa [htrue] using h1, ?_, ?_⟩
      · rw [List.filter_cons]
        simp only [hres, Option.isSome_some, if_pos]
        simp only [htrue, if_pos] at h2 ⊢
        rw [h2]
        simp only [List.length_cons]
        omega
      · simpa [htrue, List.filter_cons, hres] using h3

/-- C3: enrich_pending_articles always processes the whole selected batch and
returns aggregate counts: total is the batch length, each item is counted as
a success or a failure purely by the outcome of its own structured call (so a
failure, including a caught exception inside the call boundary, never aborts
the remaining items), and success plus error equals total. -/
theorem C3_enrich_batch_isolation
    (oracle : EnrichPrompt → Except String (Option EnrichResult))
    (s : EnrichState) (batch_size : Nat) :
    (enrich_pending_articles oracle s batch_size).2.total
        = (selectEnrichBatch s batch_size).length ∧
    (enrich_pending_articles oracle s batch_size).2.success
        = ((selectEnrichBatch s batch_size).filter
            (fun a => (call_claude_structured (oracle (promptFor s a))).isSome)).length ∧
    (enrich_pending_articles oracle s batch_size).2.error
        = ((selectEnrichBatch s batch_size).filter
            (fun a => (call_claude_structured (oracle (promptFor s a))).isNone)).length ∧
    (enrich_pending_articles oracle s batch_size).2.success
        + (enrich_pending_articles oracle s batch_size).2.error
        = (enrich_pending_articles oracle s batch_size).2.total := by
  have key := enrich_batch_loop oracle s (selectEnrichBatch s batch_size) s
    { total := (selectEnrichBatch s batch_size).length, success := 0, error := 0 } rfl
  rcases key with ⟨h1, h2, h3⟩
  refine ⟨h1, by simpa using h2, by simpa using h3, ?_⟩
  show _ + _ = _
  rw [show (enrich_pending_articles oracle s batch_size).2.total
        = (selectEnrichBatch s batch_size).length from h1,
     show (enrich_pending_articles oracle s batch_size).2.success
        = 0 + ((selectEnrichBatch s batch_size).filter
            (fun a => (call_claude_structured (oracle (promptFor s a))).isSome)).length from h2,
     show (enrich_pending_articles oracle s batch_size).2.error
        = 0 + ((selectEnrichBatch s batch_size).filter
            (fun a => (call_claude_structured (oracle (promptFor s a))).isNone)).length from h3]
  simpa using filter_isSome_isNone_length (selectEnrichBatch s batch_size)
    (fun a => call_claude_structured (oracle (promptFor s a)))

/-- Elements of an article update are the replacement or untouched originals. -/
theorem mem_updateArticle (arts : List Article) (b : Article) :
    ∀ x ∈ updateArticle arts b, x = b ∨ (x ∈ arts ∧ x.id ≠ b.id) := by
  intro x hx
  unfold updateArticle at hx
  rcases List.mem_map.mp hx with ⟨y, hy, hxy⟩
  by_cases h : y.id = b.id
  · left; rw [← hxy]; simp [h]
  · right
    rw [← hxy]
    simp only [if_neg h]
    exact ⟨hy, h⟩

/-- Truthiness of an optional string unfolded. -/
theorem truthyStr_iff (o : Option String) :
    truthyStr o = true ↔ ∃ t, o = some t ∧ t ≠ "" := by
  cases o <;> simp [truthyStr]

/-- Tag materialization never touches the articles list. -/
theorem foldl_addTagLink_articles (aid : Nat) (tds : List EnrichTagData) (s : EnrichState) :
    (tds.foldl (addTagLink aid) s).articles = s.articles := by
  induction tds generalizing s with
  | nil => rfl
  | cons t ts ih => simpa [List.foldl_cons, (addTagLink_contents aid s t).2] using ih (addTagLink aid s t)

/-- C8: an article in status fetch_failed passes the enrichment batch filter
exactly like a fetched one; the full-text prompt is chosen precisely when a
content record exists with fetch_status success or partial and non-empty
text, and otherwise the metadata-only prompt is used; a non-200 fetch moves
the article to fetch_failed (not error); and enriching such an article with a
successful structured call returns true and leaves it enriched. -/
theorem C8_fetch_failed_enrichable :
    (∀ (s : EnrichState) (a : Article), a ∈ s.articles → a.status = "fetch_failed" →
       a ∈ s.articles.filter (fun x => x.status == "fetched" || x.status == "fetch_failed")) ∧
    (∀ (s : EnrichState) (a : Article), hasFullText s a = false →
       promptFor s a = .metadataOnly a.title a.url a.source a.content_type
         (promptDate a.published_date)) ∧
    (∀ (s : EnrichState) (a : Article),
       hasFullText s a = true ↔ ∃ c, enrichContentRecord s a = some c ∧
         (c.fetch_status = "success" ∨ c.fetch_status = "partial") ∧
         ∃ t, c.full_text = some t ∧ t ≠ "") ∧
    (∀ (http : String → HttpOutcome) extract meta now (s : FetchState) (a : Article) code html,
       http a.url = HttpOutcome.resp code html → code ≠ 200 →
       (fetch_article_content http extract meta now s a).2 = false ∧
       (fetch_article_content http extract meta now s a).1.articles
         = updateArticle s.articles { a with status := "fetch_failed" }) ∧
    (∀ (oracle : EnrichPrompt → Except String (Option EnrichResult))
       (s : EnrichState) (a : Article) r, oracle (promptFor s a) = .ok (some r) →
       (enrich_article oracle s a).2 = true ∧
       ∀ x ∈ (enrich_article oracle s a).1.articles, x.id = a.id → x.status = "enriched") := by
  refine ⟨?_, ?_, ?_, ?_, ?_⟩
  · intro s a ha hst
    refine List.mem_filter.mpr ⟨ha, ?_⟩
    simp [hst]
  · intro s a h
    unfold promptFor
    rw [h]
    simp
  · intro s a
    unfold hasFullText
    cases h : enrichContentRecord s a with
    | none => simp
    | some c =>
      simp only [Bool.and_eq_true, Bool.or_eq_true, beq_iff_eq, truthyStr_iff]
      constructor
      · rintro ⟨h1, t, h2, h3⟩
        exact ⟨c, rfl, h1, t, h2, h3⟩
      · rintro ⟨c2, hc2, h1, t, h2, h3⟩
        cases hc2
        exact ⟨h1, t, h2, h3⟩
  · intro http extract meta now s a code html hr hcode
    unfold fetch_article_content
    rw [hr]
    simp [hcode, fetchPut]
  · intro oracle s a r hres
    have h2 : (enrich_article oracle s a).2 = true := by
      unfold enrich_article call_claude_structured
      rw [hres]
    refine ⟨h2, ?_⟩
    intro x hx hid
    have harts : (enrich_article oracle s a).1.articles
        = updateArticle s.articles
            { a with
              summary := some r.summary,
              key_findings := some r.key_findings,
              relevance_score := some r.relevance_score,
              content_type := r.content_type,
              status := "enriched",
              word_count := some (if hasFullText s a = true ∧
                  (match (enrichContentRecord s a).bind (fun c => c.word_count) with
                   | some w => w ≠ 0
                   | none => false) = true
                then (((enrichContentRecord s a).bind (fun c => c.word_count)).getD 0 : Int)
                else r.word_count),
              reading_time_minutes := some (estimate_reading_time
                (if hasFullText s a = true ∧
                    (match (enrichContentRecord s a).bind (fun c => c.word_count) with
                     | some w => w ≠ 0
                     | none => false) = true
                  then (((enrichContentRecord s a).bind (fun c => c.word_count)).getD 0 : Int)
                  else r.word_count)) } := by
      unfold enrich_article call_claude_structured
      rw [hres]
      simp only []
      rw [foldl_addTagLink_articles]
    rw [harts] at hx
    rcases mem_updateArticle _ _ x hx with h | ⟨_, hne⟩
    · rw [h]
    · exact absurd hid hne

/-- Witness for C8: a concrete fetch_failed article is in the batch filter,
gets the metadata-only prompt, a concrete 404 fetch lands in fetch_failed,
and a successful structured call enriches it. -/
theorem C8_fetch_failed_enrichable_witness :
    wArticleFF ∈ wEnrichState.articles.filter
        (fun x => x.status == "fetched" || x.status == "fetch_failed") ∧
    promptFor wEnrichState wArticleFF
      = .metadataOnly wArticleFF.title wArticleFF.url wArticleFF.source
          wArticleFF.content_type (promptDate wArticleFF.published_date) ∧
    ((fetch_article_content wHttp404 (fun _ => none) (fun _ => none) 0 wFetchState
        wArticleFF).2 = false ∧
      (fetch_article_content wHttp404 (fun _ => none) (fun _ => none) 0 wFetchState
        wArticleFF).1.articles
        = updateArticle wFetchState.articles { wArticleFF with status := "fetch_failed" }) ∧
    ((enrich_article wOracleOk wEnrichState wArticleFF).2 = true ∧
      ∀ x ∈ (enrich_article wOracleOk wEnrichState wArticleFF).1.articles,
        x.id = wArticleFF.id → x.status = "enriched") :=
  ⟨C8_fetch_failed_enrichable.1 wEnrichState wArticleFF (by decide) (by decide),
   C8_fetch_failed_enrichable.2.1 wEnrichState wArticleFF (by decide),
   C8_fetch_failed_enrichable.2.2.2.1 wHttp404 (fun _ => none) (fun _ => none) 0 wFetchState
     wArticleFF 404 "" rfl (by decide),
   C8_fetch_failed_enrichable.2.2.2.2 wOracleOk wEnrichState wArticleFF wEnrichResult rfl⟩

/-- A found article record has the searched id. -/
theorem articleById_updateArticle (arts : List Article) (b : Article)
    (h : ∃ x ∈ arts, x.id = b.id) :
    articleById (updateArticle arts b) b.id = some b := by
  induction arts with
  | nil => rcases h with ⟨x, hx, _⟩; cases hx
  | cons y rest ih =>
    by_cases hy : y.id = b.id
    · show List.find? _ (List.map _ (y :: rest)) = some b
      rw [List.map_cons, if_pos hy, List.find?_cons]
      simp
    · rcases h with ⟨x, hx, hxid⟩
      rcases List.mem_cons.mp hx with rfl | hx2
      · exact absurd hxid hy
      · show List.find? _ (List.map _ (y :: rest)) = some b
        rw [List.map_cons, if_neg hy, List.find?_cons]
        have hbeq : (y.id == b.id) = false := by simpa using hy
        rw [hbeq]
        exact ih ⟨x, hx2, hxid⟩

/-- Updating an existing content record makes it the lookup result. -/
theorem contentByArticle_updateContent (l : List ArticleContent) (c : ArticleContent)
    (h : ∃ x ∈ l, x.article_id = c.article_id) :
    contentByArticle (updateContent l c) c.article_id = some c := by
  induction l with
  | nil => rcases h with ⟨x, hx, _⟩; cases hx
  | cons y rest ih =>
    by_cases hy : y.article_id = c.article_id
    · show List.find? _ (List.map _ (y :: rest)) = some c
      rw [List.map_cons, if_pos hy, List.find?_cons]
      simp
    · rcases h with ⟨x, hx, hxid⟩
      rcases List.mem_cons.mp hx with rfl | hx2
      · exact absurd hxid hy
      · show List.find? _ (List.map _ (y :: rest)) = some c
        rw [List.map_cons, if_neg hy, List.find?_cons]
        have hbeq : (y.article_id == c.article_id) = false := by simpa using hy
        rw [hbeq]
        exact ih ⟨x, hx2, hxid⟩

/-- Appending a fresh content record makes it the lookup result. -/
theorem contentByArticle_append (l : List ArticleContent) (c : ArticleContent)
    (h : l.any (fun x => x.article_id == c.article_id) = false) :
    contentByArticle (l ++ [c]) c.article_id = some c := by
  induction l with
  | nil => simp [contentByArticle, List.find?]
  | cons y rest ih =>
    simp only [List.any_cons, Bool.or_eq_false_iff] at h
    simpa [contentByArticle, List.find?, h.1] using ih h.2

/-- The base content record of a fetch carries the article id. -/
theorem fetch_base_content_id (s : FetchState) (a : Article) :
    (match s.contents.find? (fun c => c.article_id == a.id) with
     | some c => c
     | none => { article_id := a.id, fetch_status := "pending" } :
     ArticleContent).article_id = a.id := by
  cases hf : s.contents.find? (fun c => c.article_id == a.id) with
  | none => rfl
  | some c =>
    have := List.find?_some hf
    simpa [beq_iff_eq] using this

/-- Lookup after the get-or-create write of fetch_article_content. -/
theorem contentByArticle_fetchPut (s : FetchState) (aid : Nat) (c : ArticleContent)
    (a : Article) (hc : c.article_id = aid) :
    contentByArticle (fetchPut s aid c a).contents aid = some c := by
  show contentByArticle
    (if s.contents.any (fun x => x.article_id == aid) then updateContent s.contents c
     else s.contents ++ [c]) aid = some c
  by_cases h : s.contents.any (fun x => x.article_id == aid) = true
  · rw [if_pos h]
    rcases List.any_eq_true.mp h with ⟨x, hx, hxid⟩
    have hex : ∃ x ∈ s.contents, x.article_id = c.article_id :=
      ⟨x, hx, by rw [hc]; exact beq_iff_eq.mp hxid⟩
    have := contentByArticle_updateContent s.contents c hex
    rwa [hc] at this
  · rw [if_neg h]
    have hfalse : s.contents.any (fun x => x.article_id == aid) = false := by
      revert h
      cases s.contents.any (fun x => x.article_id == aid) <;> simp
    have := contentByArticle_append s.contents c (by rwa [hc])
    rwa [hc] at this

/-- The failure-branch record keeps the article id and classifies by the
paywall flag. -/
theorem fetchFailContent_fields (base : ArticleContent) (pw : Bool) (now : Nat) :
    (fetchFailContent base pw now).article_id = base.article_id ∧
    (fetchFailContent base pw now).fetch_status = (if pw then "paywall" else "failed") := by
  cases pw <;> simp [fetchFailContent]

/-- The success-branch record keeps the article id. -/
theorem fetchSuccessContent_article_id (meta : Option FetchMetadata) (now : Nat)
    (base : ArticleContent) (html t : String) :
    (fetchSuccessContent meta now base html t).article_id = base.article_id := by
  cases meta <;> simp only [fetchSuccessContent] <;> split_ifs <;> rfl

/-- The success-branch record classifies partial exactly on paywall flag and
a word count under 200, else success. -/
theorem fetchSuccessContent_fetch_status (meta : Option FetchMetadata) (now : Nat)
    (base : ArticleContent) (html t : String) :
    (fetchSuccessContent meta now base html t).fetch_status
      = (if paywallFlag html = true ∧ pyWordCount t < 200 then "partial" else "success") := by
  cases meta <;> simp only [fetchSuccessContent] <;> split_ifs <;> simp_all

/-- The success-branch article update keeps the id and lands in fetched. -/
theorem fetchSuccessArticle_fields (a : Article) (t : String) :
    (fetchSuccessArticle a t).id = a.id ∧ (fetchSuccessArticle a t).status = "fetched" := by
  simp only [fetchSuccessArticle]
  split_ifs <;> exact ⟨rfl, rfl⟩

/-- C6: on an HTTP 200 fetch, absent or sub-100-character (after stripping)
extracted text is classified paywall when a paywall phrase occurs in the raw
HTML and failed otherwise, moving the article to fetch_failed; text of at
least 100 stripped characters is classified partial exactly when the paywall
flag is set and the extracted word count is under 200, else success, moving
the article to fetched. -/
theorem C6_fetch_classification
    (http : String → HttpOutcome) (extract : String → Option String)
    (meta : String → Option FetchMetadata) (now : Nat)
    (s : FetchState) (a : Article) (html : String)
    (hr : http a.url = HttpOutcome.resp 200 html)
    (ha : a ∈ s.articles) :
    ((match extract html with
      | none => True
      | some t => t = "" ∨ (pyStrip t).data.length < 100) →
      (fetch_article_content http extract meta now s a).2 = false ∧
      (contentByArticle (fetch_article_content http extract meta now s a).1.contents a.id).map
          (fun c => c.fetch_status)
        = some (if paywallFlag html then "paywall" else "failed") ∧
      (articleById (fetch_article_content http extract meta now s a).1.articles a.id).map
          (fun x => x.status) = some "fetch_failed") ∧
    (∀ t, extract html = some t → t ≠ "" → ¬ (pyStrip t).data.length < 100 →
      (fetch_article_content http extract meta now s a).2 = true ∧
      (contentByArticle (fetch_article_content http extract meta now s a).1.contents a.id).map
          (fun c => c.fetch_status)
        = some (if paywallFlag html = true ∧ pyWordCount t < 200 then "partial" else "success") ∧
      (articleById (fetch_article_content http extract meta now s a).1.articles a.id).map
          (fun x => x.status) = some "fetched") := by
  have hcid : (fetchBaseContent s a).article_id = a.id := by
    unfold fetchBaseContent
    cases hf : s.contents.find? (fun c => c.article_id == a.id) with
    | none => rfl
    | some c =>
      have := List.find?_some hf
      simpa [beq_iff_eq] using this
  have hex_art : ∃ x ∈ s.articles, x.id = a.id := ⟨a, ha, rfl⟩
  constructor
  · intro htooshort
    have hb : extractTooShort (extract html) = true := by
      unfold extractTooShort
      cases hext2 : extract html with
      | none => rfl
      | some t =>
        rw [hext2] at htooshort
        exact decide_eq_true htooshort
    have heq : fetch_article_content http extract meta now s a
        = (fetchPut s a.id (fetchFailContent (fetchBaseContent s a) (paywallFlag html) now)
            { a with status := "fetch_failed" }, false) := by
      unfold fetch_article_content
      rw [hr]
      simp only []
      rw [if_neg (by simp : ¬ ((200 : Nat) ≠ 200)), if_pos hb]
    rw [heq]
    have hfail := fetchFailContent_fields (fetchBaseContent s a) (paywallFlag html) now
    refine ⟨rfl, ?_, ?_⟩
    · rw [contentByArticle_fetchPut s a.id _ _ (by rw [hfail.1, hcid])]
      simp only [Option.map]
      rw [hfail.2]
    · show (articleById (updateArticle s.articles { a with status := "fetch_failed" }) a.id).map
        (fun x => x.status) = some "fetch_failed"
      have harticle : articleById (updateArticle s.articles { a with status := "fetch_failed" })
          a.id = some { a with status := "fetch_failed" } :=
        articleById_updateArticle s.articles { a with status := "fetch_failed" } hex_art
      rw [harticle]
      rfl
  · intro t hext hne hlen
    have hb : extractTooShort (extract html) = false := by
      rw [hext]
      unfold extractTooShort
      apply decide_eq_false
      push_neg
      exact ⟨hne, by omega⟩
    have heq : fetch_article_content http extract meta now s a
        = ({ fetchPut s a.id
               (fetchSuccessContent (meta html) now (fetchBaseContent s a) html
                 ((extract html).getD ""))
               (fetchSuccessArticle a ((extract html).getD "")) with
             authors := fetchSuccessAuthors (meta html) s.authors a.id }, true) := by
      unfold fetch_article_content
      rw [hr]
      simp only []
      rw [if_neg (by simp : ¬ ((200 : Nat) ≠ 200)), if_neg (by rw [hb]; exact Bool.false_ne_true)]
    rw [heq]
    rw [hext]
    simp only [Option.getD_some]
    have hsart := fetchSuccessArticle_fields a t
    refine ⟨by trivial, ?_, ?_⟩
    · show (contentByArticle
        (fetchPut s a.id (fetchSuccessContent (meta html) now (fetchBaseContent s a) html t)
          (fetchSuccessArticle a t)).contents a.id).map (fun c => c.fetch_status) = _
      rw [contentByArticle_fetchPut s a.id _ _
        (by rw [fetchSuccessContent_article_id, hcid])]
      simp only [Option.map]
      rw [fetchSuccessContent_fetch_status]
    · show (articleById
        (fetchPut s a.id (fetchSuccessContent (meta html) now (fetchBaseContent s a) html t)
          (fetchSuccessArticle a t)).articles a.id).map (fun x => x.status) = _
      show (articleById (updateArticle s.articles (fetchSuccessArticle a t)) a.id).map
        (fun x => x.status) = _
      have harticle : articleById (updateArticle s.articles (fetchSuccessArticle a t))
          (fetchSuccessArticle a t).id = some (fetchSuccessArticle a t) :=
        articleById_updateArticle s.articles (fetchSuccessArticle a t)
          (by rw [hsart.1]; exact hex_art)
      rw [hsart.1] at harticle
      rw [harticle]
      simp only [Option.map]
      rw [hsart.2]

/-- Witness for C6: a concrete 200 response whose HTML matches a paywall
phrase and whose extraction is absent classifies the content as paywall and
the article as fetch_failed. -/
theorem C6_fetch_classification_witness :
    (fetch_article_content (fun _ => HttpOutcome.resp 200 "<p>paywall</p>") (fun _ => none)
      (fun _ => none) 0 wFetchState wArticleFF).2 = false ∧
    (contentByArticle (fetch_article_content (fun _ => HttpOutcome.resp 200 "<p>paywall</p>")
      (fun _ => none) (fun _ => none) 0 wFetchState wArticleFF).1.contents wArticleFF.id).map
        (fun c => c.fetch_status)
      = some (if paywallFlag "<p>paywall</p>" then "paywall" else "failed") ∧
    (articleById (fetch_article_content (fun _ => HttpOutcome.resp 200 "<p>paywall</p>")
      (fun _ => none) (fun _ => none) 0 wFetchState wArticleFF).1.articles wArticleFF.id).map
        (fun x => x.status) = some "fetch_failed" :=
  (C6_fetch_classification (fun _ => HttpOutcome.resp 200 "<p>paywall</p>") (fun _ => none)
    (fun _ => none) 0 wFetchState wArticleFF "<p>paywall</p>" rfl (by decide)).1 trivial

/-- Membership in the digest link rows forces a candidate article id. -/
theorem digestArticleRows_article_id (base : Nat) (candidateIds : List Nat)
    (secs : List DigestRespSection) (da : DigestArticle)
    (h : da ∈ digestArticleRows base candidateIds secs) :
    candidateIds.contains da.article_id = true := by
  unfold digestArticleRows at h
  rcases List.mem_flatMap.mp h with ⟨p, _, hq⟩
  rcases List.mem_filterMap.mp hq with ⟨q, _, hfm⟩
  by_cases hc : candidateIds.contains q.2 = true
  · rw [if_pos hc] at hfm
    cases hfm
    exact hc
  · rw [if_neg hc] at hfm
    cases hfm

/-- Membership in the reading-list item rows forces a retrieved article id. -/
theorem readingListItemRows_article_id (rlid : Nat) (articles : List Article)
    (secs : List SynthSection) (it : ReadingListItem)
    (h : it ∈ readingListItemRows rlid articles secs) :
    ∃ a ∈ articles, a.id = it.article_id := by
  unfold readingListItemRows at h
  rcases List.mem_flatMap.mp h with ⟨sec, _, hq⟩
  rcases List.mem_filterMap.mp hq with ⟨q, _, hfm⟩
  by_cases hc : articles.any (fun a => a.id == q.2) = true
  · rw [if_pos hc] at hfm
    cases hfm
    rcases List.any_eq_true.mp hc with ⟨a, ha, hid⟩
    exact ⟨a, ha, beq_iff_eq.mp hid⟩
  · rw [if_neg hc] at hfm
    cases hfm

/-- C2: every digest section-article link created by generate_digest cites an
article of the gathered candidate set, and every reading-list item created by
process_query cites an article of the retrieved candidate set; a cited id
outside the candidate set produces no persisted row. -/
theorem C2_cited_ids_within_candidates :
    (∀ (outcome : Except String (Option DigestResponse)) (s : DigestState)
       (ps pe : Nat) (dt : String) (da : DigestArticle),
       da ∈ (generate_digest outcome s ps pe dt).1.digest_articles →
       da ∉ s.digest_articles →
       da.article_id ∈ (_gather_articles s ps pe).map (fun a => a.id)) ∧
    (∀ (planOutcome : Except String (Option QueryPlan))
       (fts : String → Except String (List Nat))
       (synthOutcome : Except String (Option SynthResult))
       (s : InterrogationState) (q : String) (uid : Option Nat) (it : ReadingListItem),
       it ∈ (process_query planOutcome fts synthOutcome s q uid).1.reading_list_items →
       it ∉ s.reading_list_items →
       ∃ plan, call_claude_structured planOutcome = some plan ∧
         it.article_id ∈ (_execute_search fts s plan).map (fun a => a.id)) := by
  constructor
  · intro outcome s ps pe dt da hda hnot
    unfold generate_digest at hda
    by_cases hemp : (_gather_articles s ps pe).isEmpty
    · rw [if_pos hemp] at hda
      exact absurd hda hnot
    · rw [if_neg hemp] at hda
      cases hc : call_claude_structured outcome with
      | none =>
        rw [hc] at hda
        exact absurd hda hnot
      | some r =>
        rw [hc] at hda
        simp only [] at hda
        rcases List.mem_append.mp hda with h | h
        · exact absurd h hnot
        · have := digestArticleRows_article_id _ _ _ da h
          have hmem : da.article_id ∈ (_gather_articles s ps pe).map (fun a => a.id) := by
            have helem := List.contains_iff_exists_mem_beq.mp this
            rcases helem with ⟨x, hx, hbeq⟩
            rw [beq_iff_eq.mp hbeq]
            exact hx
          exact hmem
  · intro planOutcome fts synthOutcome s q uid it hit hnot
    unfold process_query at hit
    cases hp : call_claude_structured planOutcome with
    | none =>
      rw [hp] at hit
      exact absurd hit hnot
    | some plan =>
      rw [hp] at hit
      simp only [] at hit
      by_cases hemp : (_execute_search fts s plan).isEmpty
      · rw [if_pos hemp] at hit
        exact absurd hit hnot
      · rw [if_neg hemp] at hit
        cases hs : call_claude_structured synthOutcome with
        | none =>
          rw [hs] at hit
          exact absurd hit hnot
        | some sy =>
          rw [hs] at hit
          simp only [] at hit
          rcases List.mem_append.mp hit with h | h
          · exact absurd h hnot
          · rcases readingListItemRows_article_id _ _ _ it h with ⟨a, ha, hid⟩
            exact ⟨plan, rfl, List.mem_map.mpr ⟨a, ha, hid⟩⟩

/-- Witness for C2: a concrete digest response and a concrete synthesis both
citing ids 1 and 99 against a store whose only candidate is article 1 create
rows citing article 1 only. -/
theorem C2_cited_ids_within_candidates_witness :
    (⟨1, 1, some "h1", 0⟩ : DigestArticle).article_id
        ∈ (_gather_articles wDigestState 0 10).map (fun a => a.id) ∧
    ∃ plan, call_claude_structured (Except.ok (some (wPlanBudget none))) = some plan ∧
      (⟨1, 1, "S", 0, some "n1"⟩ : ReadingListItem).article_id
        ∈ (_execute_search wFts wInterrogationState plan).map (fun a => a.id) :=
  ⟨C2_cited_ids_within_candidates.1 (Except.ok (some wDigestResponse)) wDigestState 0 10
      "manual" ⟨1, 1, some "h1", 0⟩ (by decide) (by decide),
   C2_cited_ids_within_candidates.2 (Except.ok (some (wPlanBudget none))) wFts
      (Except.ok (some wSynthResult)) wInterrogationState "q" none
      ⟨1, 1, "S", 0, some "n1"⟩ (by decide) (by decide)⟩

/-- The reading time the claim counts never exceeds the one the greedy loop
accumulates (a stored zero counts as five in the loop but zero in the claim). -/
theorem claimRt_le_budgetRt (a : Article) : a.reading_time_minutes.getD 5 ≤ budgetRt a := by
  unfold budgetRt
  cases h : a.reading_time_minutes with
  | none => simp
  | some n =>
    simp only [Option.getD_some]
    by_cases hn : n = 0
    · rw [if_pos hn, hn]; omega
    · rw [if_neg hn]

/-- Every prefix of the greedy selection keeps the accumulated loop total
within the budget. -/
theorem budgetSelect_prefix_le (b : Int) :
    ∀ (l : List Article) (t : Int), t ≤ b → ∀ (k : Nat),
      t + (((budgetSelect b t l).take k).map budgetRt).sum ≤ b := by
  intro l
  induction l with
  | nil => intro t ht k; simpa [budgetSelect] using ht
  | cons a rest ih =>
    intro t ht k
    unfold budgetSelect
    by_cases h2 : t + budgetRt a ≤ b
    · rw [if_pos h2]
      cases k with
      | zero => simpa using ht
      | succ k =>
        have := ih (t + budgetRt a) h2 k
        simp only [List.take_succ_cons, List.map_cons, List.sum_cons]
        omega
    · rw [if_neg h2]
      exact ih t ht k

/-- The claimed sum is bounded by the loop sum, termwise. -/
theorem claimSum_le_codeSum (l : List Article) :
    claimedReadingTimeSum l ≤ (l.map budgetRt).sum := by
  induction l with
  | nil => simp [claimedReadingTimeSum]
  | cons a rest ih =>
    unfold claimedReadingTimeSum at ih ⊢
    simp only [List.map_cons, List.sum_cons]
    have := claimRt_le_budgetRt a
    omega

/-- A Python slice from the start is a take. -/
theorem pySliceTo_eq_take (m : Int) (l : List α) : ∃ k, pySliceTo m l = l.take k := by
  unfold pySliceTo
  by_cases h : 0 ≤ m
  · exact ⟨m.toNat, by rw [if_pos h]⟩
  · exact ⟨l.length - min l.length (-m).toNat, by rw [if_neg h]⟩

/-- Core of the budget bound: any slice of a greedy selection started at zero
keeps the claimed sum within a positive budget. -/
theorem budget_core (sorted : List Article) (m : Int) (b : Int) (hpos : 0 < b) :
    claimedReadingTimeSum (pySliceTo m (budgetSelect b 0 sorted)) ≤ b := by
  rcases pySliceTo_eq_take m (budgetSelect b 0 sorted) with ⟨k, hk⟩
  rw [hk]
  have h1 := claimSum_le_codeSum ((budgetSelect b 0 sorted).take k)
  have h2 := budgetSelect_prefix_le b sorted 0 (by omega) k
  omega

/-- Either the retrieval is empty or it is a slice of the greedy selection;
in both cases a positive budget bounds the claimed reading-time sum. -/
theorem claimSum_empty_or_slice_bound (c : Prop) [Decidable c] (X : List Article)
    (m b : Int) (hpos : 0 < b) :
    claimedReadingTimeSum (if c then [] else pySliceTo m (budgetSelect b 0 X)) ≤ b := by
  split
  · simp only [claimedReadingTimeSum, List.map_nil, List.sum_nil]
    omega
  · exact budget_core X m b hpos

/-- C5 (amended): whenever the plan carries a positive time budget, the
articles selected by the retrieval phase satisfy that the sum of their
reading times, five minutes when unset, stays within the budget; a budget of
zero is falsy in the source guard and imposes no constraint at all. -/
theorem C5_time_budget_amended (fts : String → Except String (List Nat))
    (s : InterrogationState) (plan : QueryPlan) (b : Int)
    (hb : plan.time_budget_minutes = some b) (hpos : 0 < b) :
    claimedReadingTimeSum (_execute_search fts s plan) ≤ b := by
  unfold _execute_search
  simp only []
  rw [hb]
  simp only []
  rw [if_pos (show b ≠ 0 by omega)]
  exact claimSum_empty_or_slice_bound _ _ _ b hpos

/-- Witness for C5 at a concrete store and a budget of three: the selection
is empty, its claimed sum zero. -/
theorem C5_time_budget_amended_witness :
    claimedReadingTimeSum
      (_execute_search wFts wInterrogationState (wPlanBudget (some 3))) ≤ 3 :=
  C5_time_budget_amended wFts wInterrogationState (wPlanBudget (some 3)) 3 rfl (by decide)

/-- Counterexample to C5 as stated: with a budget of zero the guard is falsy,
no budget filtering happens, and the single five-minute article is selected,
so the claimed inequality fails. -/
theorem C5_time_budget_counterexample :
    (wPlanBudget (some 0)).time_budget_minutes = some 0 ∧
    ¬ claimedReadingTimeSum
        (_execute_search wFts wInterrogationState (wPlanBudget (some 0))) ≤ 0 := by
  decide

set_option maxHeartbeats 4000000 in
/-- C4: running a search job whose citations are the tracking-parameter
variant and the clean form of the same URL against an empty store reports two
candidates found, creates exactly one pending article (the first raw URL),
and records the execution as completed: the second candidate is a dedup hit
because both URLs share one dedup key. -/
theorem C4_discovery_dedup_run :
    (run_search_job
        (fun _ => some ⟨"", ["https://a.com/x?utm_source=fb", "https://a.com/x"]⟩) 0
        ⟨[], 1⟩ ⟨1, "j", "q", true⟩).2.articles_found = 2 ∧
    (run_search_job
        (fun _ => some ⟨"", ["https://a.com/x?utm_source=fb", "https://a.com/x"]⟩) 0
        ⟨[], 1⟩ ⟨1, "j", "q", true⟩).2.articles_new = 1 ∧
    (run_search_job
        (fun _ => some ⟨"", ["https://a.com/x?utm_source=fb", "https://a.com/x"]⟩) 0
        ⟨[], 1⟩ ⟨1, "j", "q", true⟩).2.status = "completed" ∧
    (run_search_job
        (fun _ => some ⟨"", ["https://a.com/x?utm_source=fb", "https://a.com/x"]⟩) 0
        ⟨[], 1⟩ ⟨1, "j", "q", true⟩).1.articles.map (fun a => (a.url, a.status))
      = [("https://a.com/x?utm_source=fb", "pending")] ∧
    url_hash "https://a.com/x?utm_source=fb" = url_hash "https://a.com/x" := by
  decide

/-- Counterexample to C10 as stated: 443 is not the default port of the http
scheme, yet normalize_url drops it (the source drops 80 and 443 regardless of
scheme). -/
theorem C10_port_counterexample :
    normalize_url "http://x.com:443/a" = some "http://x.com/a" ∧
    ¬ ((':' :: natToDigits 443) <:+: "http://x.com/a".data) := by
  decide

/-- C10 (amended): normalize_url drops an explicit port exactly when it is 0,
80 or 443, irrespective of the scheme (0 because the port is falsy, 80 and
443 because both sit in the drop tuple); any other explicit port is kept and
its colon-digits text appears in the normalized result. -/
theorem C10_port_amended (u : String) (P : ParseResult) (p : Nat)
    (hP : urlparseE (pyStrip u) = some P)
    (hport : pyPortE P.netloc = some (some p)) :
    ((p = 0 ∨ p = 80 ∨ p = 443) →
       normalize_url u
         = some (urlunparse (normScheme P) (normHost P) (normPath P) "" (normQueryStr P) "")) ∧
    (¬ (p = 0 ∨ p = 80 ∨ p = 443) →
       normPortStr (some p) = ":" ++ (⟨natToDigits p⟩ : String) ∧
       ∃ v, normalize_url u = some v ∧ (':' :: natToDigits p) <:+: v.data) := by
  have hnorm : normalize_url u
      = some (urlunparse (normScheme P) (normHost P ++ normPortStr (some p)) (normPath P) ""
          (normQueryStr P) "") := by
    unfold normalize_url
    rw [hP]
    simp only []
    rw [hport]
  have infL : ∀ (x : List Char) (z y : String), x <:+: y.data → x <:+: (z ++ y).data := by
    intro x z y h
    have hd : (z ++ y).data = z.data ++ y.data := rfl
    rw [hd]
    exact h.trans (List.suffix_append _ _).isInfix
  have infR : ∀ (x : List Char) (y z : String), x <:+: y.data → x <:+: (y ++ z).data := by
    intro x y z h
    have hd : (y ++ z).data = y.data ++ z.data := rfl
    rw [hd]
    exact h.trans (List.prefix_append _ _).isInfix
  constructor
  · intro hdrop
    rw [hnorm]
    have hps : normPortStr (some p) = "" := by
      unfold normPortStr
      simp only []
      rw [if_neg (by tauto)]
    rw [hps]
    rw [String.append_empty]
  · intro hkeep
    have hps : normPortStr (some p) = ":" ++ (⟨natToDigits p⟩ : String) := by
      unfold normPortStr
      simp only []
      rw [if_pos (by tauto)]
    refine ⟨hps, _, hnorm, ?_⟩
    rw [hps]
    have hdnet : (normHost P ++ (":" ++ (⟨natToDigits p⟩ : String))).data
        = (normHost P).data ++ (':' :: natToDigits p) := rfl
    have hneEmpty : normHost P ++ (":" ++ (⟨natToDigits p⟩ : String)) ≠ "" := by
      intro hcontra
      have h0 : (normHost P ++ (":" ++ (⟨natToDigits p⟩ : String))).data = [] := by
        rw [hcontra]
      rw [hdnet] at h0
      cases h2 : (normHost P).data <;> rw [h2] at h0 <;> simp at h0
    have hinf_net : (':' :: natToDigits p)
        <:+: (normHost P ++ (":" ++ (⟨natToDigits p⟩ : String))).data := by
      rw [hdnet]
      exact (List.suffix_append _ _).isInfix
    unfold urlunparse urlunsplit
    rw [if_neg (by simp : ¬ ("" : String) ≠ "")]
    rw [if_pos (Or.inl hneEmpty)]
    rw [if_neg (by simp : ¬ ("" : String) ≠ "")]
    split <;> (try split) <;> (try split) <;>
      first
        | exact infR _ _ _ (infR _ _ _ (infL _ _ _ (infR _ _ _ (infL _ _ _ hinf_net))))
        | exact infR _ _ _ (infR _ _ _ (infR _ _ _ (infL _ _ _ hinf_net)))
        | exact infL _ _ _ (infR _ _ _ (infL _ _ _ hinf_net))
        | exact infR _ _ _ (infL _ _ _ hinf_net)

/-- Witness for C10 at a concrete URL with port 8080: the port text survives
normalization. -/
theorem C10_port_amended_witness :
    normPortStr (some 8080) = ":" ++ (⟨natToDigits 8080⟩ : String) ∧
    ∃ v, normalize_url "https://x.com:8080/a" = some v ∧
      (':' :: natToDigits 8080) <:+: v.data :=
  (C10_port_amended "https://x.com:8080/a" ⟨"https", "x.com:8080", "/a", "", "", ""⟩ 8080
    (by decide) (by decide)).2 (by decide)

end AIC

/-! ## C1: idempotence of normalize_url -/

namespace AIC

theorem char_toNat_ofNat (n : Nat) (h : n < 0xD800) : (Char.ofNat n).toNat = n := by
  unfold Char.ofNat
  rw [dif_pos (Or.inl h)]
  rfl

theorem char_le_iff (a b : Char) : (a ≤ b) ↔ a.toNat ≤ b.toNat := Iff.rfl

theorem char_eq_iff_toNat (a b : Char) : a = b ↔ a.toNat = b.toNat :=
  ⟨fun h => h ▸ rfl, fun h => Char.ext (UInt32.ext h)⟩

theorem pyLowerChar_toNat (c : Char) :
    (pyLowerChar c).toNat = if 65 ≤ c.toNat ∧ c.toNat ≤ 90 then c.toNat + 32 else c.toNat := by
  have h65 : ('A' : Char).toNat = 65 := by decide
  have h90 : ('Z' : Char).toNat = 90 := by decide
  have hiff : ('A' ≤ c ∧ c ≤ 'Z') ↔ (65 ≤ c.toNat ∧ c.toNat ≤ 90) := by
    rw [char_le_iff, char_le_iff, h65, h90]
  unfold pyLowerChar
  by_cases h : 65 ≤ c.toNat ∧ c.toNat ≤ 90
  · rw [if_pos (hiff.2 h), if_pos h]
    exact char_toNat_ofNat _ (by omega)
  · rw [if_neg (fun hc => h (hiff.1 hc)), if_neg h]

theorem pyLowerChar_idem (c : Char) : pyLowerChar (pyLowerChar c) = pyLowerChar c := by
  rw [char_eq_iff_toNat, pyLowerChar_toNat, pyLowerChar_toNat]
  split_ifs <;> omega

theorem pyLowerChar_eq_iff (c : Char) (d : Char) (hd : d.toNat < 65 ∨ 90 < d.toNat) :
    pyLowerChar c = d ↔ (c = d ∨ (65 ≤ c.toNat ∧ c.toNat ≤ 90 ∧ c.toNat + 32 = d.toNat)) := by
  rw [char_eq_iff_toNat, char_eq_iff_toNat, pyLowerChar_toNat]
  by_cases h : 65 ≤ c.toNat ∧ c.toNat ≤ 90
  · rw [if_pos h]
    constructor
    · intro he; exact Or.inr ⟨h.1, h.2, he⟩
    · intro he
      rcases he with he | he
      · omega
      · omega
  · rw [if_neg h]
    constructor
    · intro he; exact Or.inl he
    · intro he
      rcases he with he | he
      · exact he
      · omega

theorem pyLower_map_idem (l : List Char) :
    (l.map pyLowerChar).map pyLowerChar = l.map pyLowerChar := by
  rw [List.map_map]
  apply List.map_congr_left
  intro c _
  exact pyLowerChar_idem c

end AIC

namespace AIC

theorem isDigit_iff (c : Char) : c.isDigit = true ↔ 48 ≤ c.toNat ∧ c.toNat ≤ 57 := by
  unfold Char.isDigit
  rw [Bool.and_eq_true, decide_eq_true_iff, decide_eq_true_iff]
  exact Iff.rfl

theorem natDigitsAux_zero (fuel : Nat) : natDigitsAux fuel 0 = [] := by
  cases fuel <;> rfl

theorem natDigitsAux_digit_lt (fuel : Nat) : ∀ n, ∀ d ∈ natDigitsAux fuel n, d < 10 := by
  induction fuel with
  | zero => intro n d hd; simp [natDigitsAux] at hd
  | succ f ih =>
    intro n d hd
    match n with
    | 0 => simp [natDigitsAux] at hd
    | m + 1 =>
      have he : natDigitsAux (f + 1) (m + 1) = (m + 1) % 10 :: natDigitsAux f ((m + 1) / 10) := rfl
      rw [he] at hd
      rcases List.mem_cons.mp hd with h | h
      · omega
      · exact ih _ d h

theorem foldl_natDigitsAux (fuel : Nat) : ∀ n acc, n ≤ fuel → 0 < n →
    ((natDigitsAux fuel n).map (fun d => Char.ofNat (48 + d))).reverse.foldl
      (fun a c => a * 10 + (c.toNat - 48)) acc
      = acc * 10 ^ (natDigitsAux fuel n).length + n := by
  induction fuel with
  | zero => intro n acc h hn; omega
  | succ f ih =>
    intro n acc h hn
    match n, hn with
    | m + 1, _ =>
      have he : natDigitsAux (f + 1) (m + 1) = (m + 1) % 10 :: natDigitsAux f ((m + 1) / 10) := rfl
      rw [he]
      have hchar : (Char.ofNat (48 + (m + 1) % 10)).toNat = 48 + (m + 1) % 10 :=
        char_toNat_ofNat _ (by omega)
      rw [List.map_cons, List.reverse_cons, List.foldl_append]
      by_cases hq : (m + 1) / 10 = 0
      · rw [hq, natDigitsAux_zero]
        simp only [List.map_nil, List.reverse_nil, List.foldl_nil, List.foldl_cons, List.length_cons,
          List.length_nil, hchar]
        have : m + 1 < 10 := by omega
        simp only [pow_succ, pow_zero]
        omega
      · have hle : (m + 1) / 10 ≤ f := by
          have : (m + 1) / 10 < m + 1 := Nat.div_lt_self (by omega) (by omega)
          omega
        rw [ih _ acc hle (by omega)]
        simp only [List.foldl_cons, List.foldl_nil, List.length_cons, hchar]
        rw [pow_succ]
        have hdm := Nat.div_add_mod (m + 1) 10
        set k := 10 ^ (natDigitsAux f ((m + 1) / 10)).length
        have hma : acc * (k * 10) = acc * k * 10 := by ring
        omega

theorem natToDigits_ne_nil (n : Nat) : natToDigits n ≠ [] := by
  unfold natToDigits
  by_cases h : n = 0
  · rw [if_pos h]; simp
  · rw [if_neg h]
    match n, h with
    | m + 1, _ =>
      have he : natDigitsAux (m + 1) (m + 1) = (m + 1) % 10 :: natDigitsAux m ((m + 1) / 10) := rfl
      rw [he]
      simp

theorem natToDigits_mem_range (n : Nat) :
    ∀ c ∈ natToDigits n, 48 ≤ c.toNat ∧ c.toNat ≤ 57 := by
  unfold natToDigits
  by_cases h : n = 0
  · rw [if_pos h]
    intro c hc
    simp only [List.mem_singleton] at hc
    subst hc
    decide
  · rw [if_neg h]
    intro c hc
    rw [List.mem_reverse] at hc
    rcases List.mem_map.mp hc with ⟨d, hd, hcd⟩
    have hlt : d < 10 := natDigitsAux_digit_lt n n d hd
    subst hcd
    rw [char_toNat_ofNat _ (by omega)]
    omega

theorem parseDigits_natToDigits (n : Nat) : parseDigits (natToDigits n) = some n := by
  unfold parseDigits
  rw [if_neg (by simp [natToDigits_ne_nil n])]
  rw [if_pos ?hall]
  case hall =>
    rw [List.all_eq_true]
    intro c hc
    exact (isDigit_iff c).2 (natToDigits_mem_range n c hc)
  congr 1
  by_cases h : n = 0
  · subst h; rfl
  · unfold natToDigits
    rw [if_neg h]
    rw [foldl_natDigitsAux n n 0 le_rfl (by omega)]
    simp

end AIC

namespace AIC

theorem char_valid_nat (c : Char) : c.toNat < 0xD800 ∨ (0xDFFF < c.toNat ∧ c.toNat < 0x110000) :=
  c.valid

theorem char_toNat_ofNat_valid (n : Nat)
    (h : n < 0xD800 ∨ (0xDFFF < n ∧ n < 0x110000)) : (Char.ofNat n).toNat = n := by
  unfold Char.ofNat
  rw [dif_pos (show n.isValidChar from h)]
  rfl

theorem char_ofNat_toNat (c : Char) : Char.ofNat c.toNat = c := by
  rw [char_eq_iff_toNat]
  exact char_toNat_ofNat_valid _ (char_valid_nat c)

theorem contByte_true (b : Nat) (h1 : 0x80 ≤ b) (h2 : b ≤ 0xBF) : contByte b = true := by
  simp [contByte]
  omega

theorem utf8Decode_ascii (b : Nat) (h : b < 0x80) (rest : List Nat) :
    utf8Decode (b :: rest) = Char.ofNat b :: utf8Decode rest := by
  obtain _ | ⟨r1, _ | ⟨r2, _ | ⟨r3, rs⟩⟩⟩ := rest
  · conv_lhs => rw [utf8Decode]
    rw [if_pos h]
    rfl
  · conv_lhs => rw [utf8Decode]
    rw [if_pos h]
  · conv_lhs => rw [utf8Decode]
    rw [if_pos h]
  · conv_lhs => rw [utf8Decode]
    rw [if_pos h]

theorem utf8Decode_two (b b2 : Nat) (hb : 0xC2 ≤ b) (hlt : b < 0xE0)
    (hc : contByte b2 = true) (rest : List Nat) :
    utf8Decode (b :: b2 :: rest)
      = Char.ofNat ((b - 0xC0) * 64 + (b2 - 0x80)) :: utf8Decode rest := by
  obtain _ | ⟨r1, _ | ⟨r2, rs⟩⟩ := rest
  · conv_lhs => rw [utf8Decode]
    rw [if_neg (by omega), if_neg (by omega), if_pos (by omega), if_pos hc]
    rfl
  · conv_lhs => rw [utf8Decode]
    rw [if_neg (by omega), if_neg (by omega), if_pos (by omega), if_pos hc]
  · conv_lhs => rw [utf8Decode]
    rw [if_neg (by omega), if_neg (by omega), if_pos (by omega), if_pos hc]

theorem utf8Decode_three (b b2 b3 : Nat) (hb : 0xE0 ≤ b) (hlt : b < 0xF0)
    (h2 : byte2ok3 b b2 = true) (h3 : contByte b3 = true) (rest : List Nat) :
    utf8Decode (b :: b2 :: b3 :: rest)
      = Char.ofNat ((b - 0xE0) * 4096 + (b2 - 0x80) * 64 + (b3 - 0x80)) :: utf8Decode rest := by
  obtain _ | ⟨r1, rs⟩ := rest
  · conv_lhs => rw [utf8Decode]
    rw [if_neg (by omega), if_neg (by omega), if_neg (by omega), if_pos (by omega),
      if_pos h2, if_pos h3]
    rfl
  · conv_lhs => rw [utf8Decode]
    rw [if_neg (by omega), if_neg (by omega), if_neg (by omega), if_pos (by omega),
      if_pos h2, if_pos h3]

theorem utf8Decode_four (b b2 b3 b4 : Nat) (hb : 0xF0 ≤ b) (hlt : b < 0xF5)
    (h2 : byte2ok4 b b2 = true) (h3 : contByte b3 = true) (h4 : contByte b4 = true)
    (rest : List Nat) :
    utf8Decode (b :: b2 :: b3 :: b4 :: rest)
      = Char.ofNat ((b - 0xF0) * 262144 + (b2 - 0x80) * 4096 + (b3 - 0x80) * 64 + (b4 - 0x80))
          :: utf8Decode rest := by
  conv_lhs => rw [utf8Decode]
  rw [if_neg (by omega), if_neg (by omega), if_neg (by omega), if_neg (by omega),
    if_pos (by omega), if_pos h2, if_pos h3, if_pos h4]

theorem byte2ok3_of_range (b b2 : Nat)
    (h : (b = 0xE0 ∧ 0xA0 ≤ b2 ∧ b2 ≤ 0xBF) ∨ (b = 0xED ∧ 0x80 ≤ b2 ∧ b2 ≤ 0x9F) ∨
      (b ≠ 0xE0 ∧ b ≠ 0xED ∧ 0x80 ≤ b2 ∧ b2 ≤ 0xBF)) :
    byte2ok3 b b2 = true := by
  unfold byte2ok3
  rcases h with ⟨he, h1, h2⟩ | ⟨he, h1, h2⟩ | ⟨he1, he2, h1, h2⟩
  · rw [if_pos he]
    simp only [decide_eq_true_eq]
    omega
  · rw [if_neg (by omega), if_pos he]
    simp only [decide_eq_true_eq]
    omega
  · rw [if_neg he1, if_neg he2]
    exact contByte_true _ h1 h2

theorem byte2ok4_of_range (b b2 : Nat)
    (h : (b = 0xF0 ∧ 0x90 ≤ b2 ∧ b2 ≤ 0xBF) ∨ (b = 0xF4 ∧ 0x80 ≤ b2 ∧ b2 ≤ 0x8F) ∨
      (b ≠ 0xF0 ∧ b ≠ 0xF4 ∧ 0x80 ≤ b2 ∧ b2 ≤ 0xBF)) :
    byte2ok4 b b2 = true := by
  unfold byte2ok4
  rcases h with ⟨he, h1, h2⟩ | ⟨he, h1, h2⟩ | ⟨he1, he2, h1, h2⟩
  · rw [if_pos he]
    simp only [decide_eq_true_eq]
    omega
  · rw [if_neg (by omega), if_pos he]
    simp only [decide_eq_true_eq]
    omega
  · rw [if_neg he1, if_neg he2]
    exact contByte_true _ h1 h2

theorem utf8Decode_encodeChar (c : Char) (rest : List Nat) :
    utf8Decode (utf8EncodeChar c ++ rest) = c :: utf8Decode rest := by
  have hval := char_valid_nat c
  unfold utf8EncodeChar
  by_cases h1 : c.toNat < 0x80
  · rw [if_pos h1]
    rw [List.cons_append, List.nil_append, utf8Decode_ascii _ h1, char_ofNat_toNat]
  · rw [if_neg h1]
    by_cases h2 : c.toNat < 0x800
    · rw [if_pos h2]
      simp only [List.cons_append, List.nil_append]
      rw [utf8Decode_two _ _ (by omega) (by omega) (contByte_true _ (by omega) (by omega))]
      have hv : (0xC0 + c.toNat / 64 - 0xC0) * 64 + (0x80 + c.toNat % 64 - 0x80) = c.toNat := by
        omega
      rw [hv, char_ofNat_toNat]
    · rw [if_neg h2]
      by_cases h3 : c.toNat < 0x10000
      · rw [if_pos h3]
        simp only [List.cons_append, List.nil_append]
        have hok3 : byte2ok3 (0xE0 + c.toNat / 4096) (0x80 + c.toNat / 64 % 64) = true := by
          apply byte2ok3_of_range
          by_cases he0 : 0xE0 + c.toNat / 4096 = 0xE0
          · exact Or.inl ⟨he0, by omega, by omega⟩
          · by_cases hed : 0xE0 + c.toNat / 4096 = 0xED
            · refine Or.inr (Or.inl ⟨hed, by omega, ?_⟩)
              rcases hval with hval | hval
              · omega
              · omega
            · exact Or.inr (Or.inr ⟨he0, hed, by omega, by omega⟩)
        rw [utf8Decode_three _ _ _ (by omega) (by omega) hok3
          (contByte_true _ (by omega) (by omega))]
        have hv : (0xE0 + c.toNat / 4096 - 0xE0) * 4096 + (0x80 + c.toNat / 64 % 64 - 0x80) * 64
            + (0x80 + c.toNat % 64 - 0x80) = c.toNat := by
          omega
        rw [hv, char_ofNat_toNat]
      · rw [if_neg h3]
        have hub : c.toNat < 0x110000 := by
          rcases hval with hval | hval <;> omega
        simp only [List.cons_append, List.nil_append]
        have hok4 : byte2ok4 (0xF0 + c.toNat / 262144) (0x80 + c.toNat / 4096 % 64) = true := by
          apply byte2ok4_of_range
          by_cases hf0 : 0xF0 + c.toNat / 262144 = 0xF0
          · exact Or.inl ⟨hf0, by omega, by omega⟩
          · by_cases hf4 : 0xF0 + c.toNat / 262144 = 0xF4
            · exact Or.inr (Or.inl ⟨hf4, by omega, by omega⟩)
            · exact Or.inr (Or.inr ⟨hf0, hf4, by omega, by omega⟩)
        rw [utf8Decode_four _ _ _ _ (by omega) (by omega) hok4
          (contByte_true _ (by omega) (by omega)) (contByte_true _ (by omega) (by omega))]
        have hv : (0xF0 + c.toNat / 262144 - 0xF0) * 262144
            + (0x80 + c.toNat / 4096 % 64 - 0x80) * 4096
            + (0x80 + c.toNat / 64 % 64 - 0x80) * 64 + (0x80 + c.toNat % 64 - 0x80) = c.toNat := by
          omega
        rw [hv, char_ofNat_toNat]

theorem utf8Decode_encode (l : List Char) : utf8Decode (utf8Encode l) = l := by
  induction l with
  | nil => rfl
  | cons c cs ih =>
    show utf8Decode (utf8EncodeChar c ++ utf8Encode cs) = c :: cs
    rw [utf8Decode_encodeChar, ih]

end AIC

namespace AIC

theorem hexDigitList_spec :
    ∀ c ∈ (['0','1','2','3','4','5','6','7','8','9','A','B','C','D','E','F'] : List Char),
      ((48 ≤ c.toNat ∧ c.toNat ≤ 57) ∨ (65 ≤ c.toNat ∧ c.toNat ≤ 70)) ∧ c ≠ '+' ∧ c ≠ '%' := by
  decide

theorem hexUpperChar_mem (n : Nat) :
    hexUpperChar n ∈ (['0','1','2','3','4','5','6','7','8','9','A','B','C','D','E','F'] : List Char) := by
  unfold hexUpperChar
  by_cases h : n < 16
  · interval_cases n <;> decide
  · rw [List.getD_eq_default]
    · decide
    · simp only [List.length_cons, List.length_nil]
      omega

theorem hexVal_hexUpperChar (n : Nat) (h : n < 16) : hexVal (hexUpperChar n) = some n := by
  interval_cases n <;> decide

theorem utf8EncodeChar_lt (c : Char) : ∀ b ∈ utf8EncodeChar c, b < 256 := by
  have hval := char_valid_nat c
  have hub : c.toNat < 0x110000 := by rcases hval with hval | hval <;> omega
  intro b hb
  simp only [utf8EncodeChar] at hb
  split_ifs at hb <;> simp only [List.mem_cons, List.mem_singleton, List.not_mem_nil] at hb <;>
    rcases hb with hb | hb <;> first
      | omega
      | (rcases hb with hb | hb <;> first
          | omega
          | (rcases hb with hb | hb <;> first
              | omega
              | (rcases hb with hb | hb <;> first | omega | exact absurd hb (by simp))))

theorem utf8Encode_lt (l : List Char) : ∀ b ∈ utf8Encode l, b < 256 := by
  intro b hb
  unfold utf8Encode at hb
  rcases List.mem_flatMap.mp hb with ⟨c, _, hbc⟩
  exact utf8EncodeChar_lt c b hbc

theorem unquoteTokens_cons_ne (c : Char) (h : c ≠ '%') (rest : List Char) :
    unquoteTokens (c :: rest)
      = (if c.toNat ≥ 0x80 then Sum.inr c else Sum.inl c.toNat) :: unquoteTokens rest := by
  rw [unquoteTokens] <;> (intros; apply h; assumption)

theorem unquoteTokens_pct_hex (a b : Char) (ha : hexVal a = some (na : Nat))
    (hb : hexVal b = some (nb : Nat)) (rest : List Char) :
    unquoteTokens ('%' :: a :: b :: rest) = Sum.inl (na * 16 + nb) :: unquoteTokens rest := by
  rw [unquoteTokens, ha, hb]

theorem replacedQuote_eq (b : Nat) (h : b < 256) :
    pyReplaceCharL '+' [' '] (quotePlusByte b)
      = if b = 32 then [' ']
        else if alwaysSafeByte b then [Char.ofNat b]
        else ['%', hexUpperChar (b / 16), hexUpperChar (b % 16)] := by
  unfold quotePlusByte
  by_cases h32 : b = 32
  · rw [if_pos h32, if_pos h32]
    rfl
  · rw [if_neg h32, if_neg h32]
    by_cases hsafe : alwaysSafeByte b
    · rw [if_pos hsafe]
      have hb43 : b ≠ 43 := by
        intro he
        subst he
        simp [alwaysSafeByte] at hsafe
      have hne : Char.ofNat b ≠ '+' := by
        rw [Ne, char_eq_iff_toNat, char_toNat_ofNat _ (by omega)]
        intro he
        exact hb43 (by simpa using he)
      unfold pyReplaceCharL
      rw [List.flatMap_cons, List.flatMap_nil, if_neg hne, List.append_nil]
    · rw [if_neg hsafe]
      have h1 := hexDigitList_spec _ (hexUpperChar_mem (b / 16))
      have h2 := hexDigitList_spec _ (hexUpperChar_mem (b % 16))
      unfold pyReplaceCharL
      rw [List.flatMap_cons, List.flatMap_cons, List.flatMap_cons, List.flatMap_nil]
      rw [if_neg (by decide), if_neg h1.2.1, if_neg h2.2.1]
      rfl

theorem unquoteTokens_quotedBytes (bs : List Nat) (h : ∀ b ∈ bs, b < 256) :
    unquoteTokens (bs.flatMap (fun b => pyReplaceCharL '+' [' '] (quotePlusByte b)))
      = bs.map Sum.inl := by
  induction bs with
  | nil => rfl
  | cons b rest ih =>
    have hb : b < 256 := h b (List.mem_cons_self b rest)
    have hrest : ∀ x ∈ rest, x < 256 := fun x hx => h x (List.mem_cons_of_mem b hx)
    rw [List.flatMap_cons, replacedQuote_eq b hb, List.map_cons]
    by_cases h32 : b = 32
    · rw [if_pos h32, List.cons_append, List.nil_append]
      rw [unquoteTokens_cons_ne _ (by decide), if_neg (by decide), ih hrest, h32]
      rfl
    · rw [if_neg h32]
      by_cases hsafe : alwaysSafeByte b
      · rw [if_pos hsafe]
        have hbr : 33 ≤ b ∧ b ≤ 126 ∧ b ≠ 37 := by
          simp only [alwaysSafeByte, Bool.or_eq_true, decide_eq_true_eq] at hsafe
          refine ⟨by omega, by omega, by omega⟩
        have htn : (Char.ofNat b).toNat = b := char_toNat_ofNat _ (by omega)
        rw [List.cons_append, List.nil_append]
        rw [unquoteTokens_cons_ne _ ?hne, if_neg (by omega), ih hrest, htn]
        case hne =>
          rw [Ne, char_eq_iff_toNat, htn]
          intro he
          exact hbr.2.2 (by simpa using he)
      · rw [if_neg hsafe]
        simp only [List.cons_append, List.nil_append]
        rw [unquoteTokens_pct_hex _ _ (hexVal_hexUpperChar _ (by omega))
          (hexVal_hexUpperChar _ (by omega)), ih hrest]
        have hv : b / 16 * 16 + b % 16 = b := by omega
        rw [hv]

theorem decodeTokensGo_inl (bs : List Nat) : ∀ acc,
    decodeTokensGo acc (bs.map Sum.inl) = utf8Decode (acc.reverse ++ bs) := by
  induction bs with
  | nil =>
    intro acc
    rw [List.map_nil, decodeTokensGo, List.append_nil]
  | cons b rest ih =>
    intro acc
    rw [List.map_cons, decodeTokensGo, ih (b :: acc)]
    rw [List.reverse_cons, List.append_assoc, List.cons_append, List.nil_append]

theorem pyUnquotePlus_quote_plus (s : String) :
    pyUnquotePlus (quote_plus s).data = s.data := by
  show pyUnquote (pyReplaceCharL '+' [' '] ((utf8Encode s.data).flatMap quotePlusByte)) = s.data
  have hassoc : pyReplaceCharL '+' [' '] ((utf8Encode s.data).flatMap quotePlusByte)
      = (utf8Encode s.data).flatMap (fun b => pyReplaceCharL '+' [' '] (quotePlusByte b)) := by
    unfold pyReplaceCharL
    rw [List.flatMap_assoc]
  rw [hassoc]
  unfold pyUnquote
  rw [unquoteTokens_quotedBytes _ (utf8Encode_lt s.data), decodeTokensGo_inl _ []]
  rw [List.reverse_nil, List.nil_append]
  exact utf8Decode_encode s.data

end AIC

namespace AIC

theorem pySplitCharL_no_sep (c : Char) (t : List Char) (h : c ∉ t) :
    pySplitCharL c t = [t] := by
  induction t with
  | nil => rfl
  | cons x xs ih =>
    have hx : x ≠ c := fun he => h (he ▸ List.mem_cons_self x xs)
    have hxs : c ∉ xs := fun hm => h (List.mem_cons_of_mem x hm)
    rw [pySplitCharL]
    simp only [if_neg hx]
    rw [ih hxs]

theorem pySplitCharL_append_sep (c : Char) (t r : List Char) (h : c ∉ t) :
    pySplitCharL c (t ++ c :: r) = t :: pySplitCharL c r := by
  induction t with
  | nil =>
    rw [List.nil_append, pySplitCharL]
    simp
  | cons x xs ih =>
    have hx : x ≠ c := fun he => h (he ▸ List.mem_cons_self x xs)
    have hxs : c ∉ xs := fun hm => h (List.mem_cons_of_mem x hm)
    rw [List.cons_append, pySplitCharL]
    simp only [if_neg hx]
    rw [ih hxs]

theorem intercalate_cons_cons (c : Char) (t t2 : List Char) (rest : List (List Char)) :
    List.intercalate [c] (t :: t2 :: rest) = t ++ c :: List.intercalate [c] (t2 :: rest) := by
  simp [List.intercalate, List.intersperse]

theorem pySplitCharL_intercalate (c : Char) (ts : List (List Char)) (hne : ts ≠ [])
    (h : ∀ t ∈ ts, c ∉ t) : pySplitCharL c (List.intercalate [c] ts) = ts := by
  induction ts with
  | nil => exact absurd rfl hne
  | cons t rest ih =>
    match rest with
    | [] =>
      have : List.intercalate [c] [t] = t := by simp [List.intercalate, List.intersperse]
      rw [this, pySplitCharL_no_sep c t (h t (List.mem_cons_self t []))]
    | t2 :: rest2 =>
      rw [intercalate_cons_cons, pySplitCharL_append_sep c t _ (h t (List.mem_cons_self t _))]
      rw [ih (by simp) (fun x hx => h x (List.mem_cons_of_mem t hx))]

theorem filterMap_congr_some (f : α → Option β) (g : α → β) (l : List α)
    (h : ∀ x ∈ l, f x = some (g x)) : l.filterMap f = l.map g := by
  induction l with
  | nil => rfl
  | cons x xs ih =>
    rw [List.filterMap_cons, h x (List.mem_cons_self x xs), List.map_cons,
      ih (fun y hy => h y (List.mem_cons_of_mem x hy))]

theorem quote_plus_char_class (s : String) :
    ∀ c ∈ (quote_plus s).data, 33 ≤ c.toNat ∧ c.toNat ≤ 126 ∧ c.toNat ≠ 35 ∧ c.toNat ≠ 38 ∧
      c.toNat ≠ 61 ∧ c.toNat ≠ 63 := by
  intro c hc
  unfold quote_plus at hc
  simp only [String.data] at hc
  rcases List.mem_flatMap.mp hc with ⟨b, hb, hcb⟩
  have hblt : b < 256 := utf8Encode_lt s.data b hb
  unfold quotePlusByte at hcb
  by_cases h32 : b = 32
  · rw [if_pos h32] at hcb
    simp only [List.mem_singleton] at hcb
    subst hcb
    decide
  · rw [if_neg h32] at hcb
    by_cases hsafe : alwaysSafeByte b
    · rw [if_pos hsafe] at hcb
      simp only [List.mem_singleton] at hcb
      subst hcb
      simp only [alwaysSafeByte, Bool.or_eq_true, decide_eq_true_eq] at hsafe
      rw [char_toNat_ofNat _ (by omega)]
      omega
    · rw [if_neg hsafe] at hcb
      simp only [List.mem_cons, List.mem_singleton, List.not_mem_nil, or_false] at hcb
      rcases hcb with hcb | hcb | hcb
      · subst hcb
        decide
      · have hs := hexDigitList_spec _ (hexUpperChar_mem (b / 16))
        subst hcb
        rcases hs.1 with hr | hr <;> omega
      · have hs := hexDigitList_spec _ (hexUpperChar_mem (b % 16))
        subst hcb
        rcases hs.1 with hr | hr <;> omega

theorem utf8EncodeChar_ne_nil (c : Char) : utf8EncodeChar c ≠ [] := by
  simp only [utf8EncodeChar]
  split_ifs <;> simp

theorem quotePlusByte_ne_nil (b : Nat) : quotePlusByte b ≠ [] := by
  unfold quotePlusByte
  split_ifs <;> simp

theorem string_data_ne_nil (s : String) (h : s ≠ "") : s.data ≠ [] := by
  intro he
  apply h
  cases s
  simp only at he
  subst he
  rfl

theorem quote_plus_ne_empty (s : String) (h : s.data ≠ []) : (quote_plus s).data ≠ [] := by
  unfold quote_plus
  simp only [String.data]
  match hs : s.data, h with
  | c :: cs, _ =>
    match he : utf8EncodeChar c, utf8EncodeChar_ne_nil c with
    | b :: bs, _ =>
      rw [utf8Encode, List.flatMap_cons, he, List.cons_append, List.flatMap_cons]
      intro hnil
      rcases List.append_eq_nil.mp hnil with ⟨h3, _⟩
      exact quotePlusByte_ne_nil b h3

end AIC

namespace AIC

theorem pyPartitionL_not_found (c : Char) (l : List Char) (h : c ∉ l) :
    pyPartitionL c l = (l, false, []) := by
  induction l with
  | nil => rfl
  | cons x xs ih =>
    have hx : x ≠ c := fun he => h (he ▸ List.mem_cons_self x xs)
    rw [pyPartitionL]
    simp only [if_neg hx, ih (fun hm => h (List.mem_cons_of_mem x hm))]

theorem pyPartitionL_found (c : Char) (a b : List Char) (h : c ∉ a) :
    pyPartitionL c (a ++ c :: b) = (a, true, b) := by
  induction a with
  | nil =>
    rw [List.nil_append, pyPartitionL]
    simp
  | cons x xs ih =>
    have hx : x ≠ c := fun he => h (he ▸ List.mem_cons_self x xs)
    rw [List.cons_append, pyPartitionL]
    simp only [if_neg hx, ih (fun hm => h (List.mem_cons_of_mem x hm))]

theorem pySplitOnceL_found (c : Char) (a b : List Char) (h : c ∉ a) :
    pySplitOnceL c (a ++ c :: b) = [a, b] := by
  unfold pySplitOnceL
  rw [pyPartitionL_found c a b h]
  simp

theorem filterMap_flatMap (l : List α) (f : α → List β) (g : β → Option γ) :
    (l.flatMap f).filterMap g = l.flatMap (fun a => (f a).filterMap g) := by
  induction l with
  | nil => rfl
  | cons x xs ih => rw [List.flatMap_cons, List.flatMap_cons, List.filterMap_append, ih]

theorem char_ne_of_toNat_ne (c d : Char) (h : c.toNat ≠ d.toNat) : c ≠ d := by
  intro he
  exact h (by rw [he])

theorem quote_plus_no_eq_sign (s : String) : ('=' : Char) ∉ (quote_plus s).data := by
  intro hm
  have he : ('=' : Char).toNat = 61 := by decide
  have := quote_plus_char_class s _ hm
  omega

theorem quote_plus_no_amp (s : String) : ('&' : Char) ∉ (quote_plus s).data := by
  intro hm
  have he : ('&' : Char).toNat = 38 := by decide
  have := quote_plus_char_class s _ hm
  omega

theorem flatMap_congr_mem (l : List α) (f g : α → List β) (h : ∀ a ∈ l, f a = g a) :
    l.flatMap f = l.flatMap g := by
  induction l with
  | nil => rfl
  | cons x xs ih =>
    rw [List.flatMap_cons, List.flatMap_cons, h x (List.mem_cons_self x xs),
      ih (fun a ha => h a (List.mem_cons_of_mem x ha))]

theorem parse_qsl_urlencode (G : List (String × List String))
    (hval : ∀ g ∈ G, ∀ v ∈ g.2, v ≠ "") (hne : ∀ g ∈ G, g.2 ≠ []) :
    parse_qsl (urlencodeSeq G) = G.flatMap (fun g => g.2.map (fun v => (g.1, v))) := by
  by_cases hG : G = []
  · subst hG
    rfl
  · unfold parse_qsl urlencodeSeq
    simp only [String.data]
    have htok : pySplitCharL '&' (List.intercalate ['&'] (G.flatMap (fun g =>
        g.2.map (fun v => (quote_plus g.1).data ++ '=' :: (quote_plus v).data))))
        = G.flatMap (fun g => g.2.map (fun v => (quote_plus g.1).data ++ '=' :: (quote_plus v).data)) := by
      apply pySplitCharL_intercalate
      · match G, hG with
        | g :: rest, _ =>
          match hg2 : g.2, hne g (List.mem_cons_self g rest) with
          | v :: vs, _ =>
            rw [List.flatMap_cons, hg2, List.map_cons, List.cons_append]
            simp
      · intro t ht hc
        rcases List.mem_flatMap.mp ht with ⟨g, hg, htg⟩
        rcases List.mem_map.mp htg with ⟨v, hv, hveq⟩
        subst hveq
        rcases List.mem_append.mp hc with hc | hc
        · exact quote_plus_no_amp g.1 hc
        · rcases List.mem_cons.mp hc with hc | hc
          · exact absurd hc (by decide)
          · exact quote_plus_no_amp v hc
    rw [htok, filterMap_flatMap]
    apply flatMap_congr_mem
    intro g hg
    rw [List.filterMap_map]
    apply filterMap_congr_some
    intro v hv
    simp only [Function.comp]
    rw [if_neg (by cases hqk : (quote_plus g.1).data <;> simp)]
    rw [pySplitOnceL_found ('=' : Char) _ _ (quote_plus_no_eq_sign g.1)]
    simp only []
    rw [if_neg ?hvne]
    case hvne =>
      simp only [List.isEmpty_iff]
      exact quote_plus_ne_empty v (string_data_ne_nil v (hval g hg v hv))
    rw [pyUnquotePlus_quote_plus, pyUnquotePlus_quote_plus]

end AIC

namespace AIC

theorem addToGroups_fresh (n v : String) (acc : List (String × List String))
    (h : ∀ g ∈ acc, g.1 ≠ n) : addToGroups n v acc = acc ++ [(n, [v])] := by
  induction acc with
  | nil => rfl
  | cons g gs ih =>
    obtain ⟨k, vs⟩ := g
    rw [addToGroups, if_neg (h (k, vs) (List.mem_cons_self _ _)), List.cons_append,
      ih (fun a ha => h a (List.mem_cons_of_mem _ ha))]

theorem addToGroups_append_match (n v : String) (acc tail : List (String × List String))
    (vs : List String) (h : ∀ g ∈ acc, g.1 ≠ n) :
    addToGroups n v (acc ++ (n, vs) :: tail) = acc ++ (n, vs ++ [v]) :: tail := by
  induction acc with
  | nil => rw [List.nil_append, addToGroups, if_pos rfl, List.nil_append]
  | cons g gs ih =>
    obtain ⟨k, vsg⟩ := g
    rw [List.cons_append, addToGroups, if_neg (h (k, vsg) (List.mem_cons_self _ _)),
      ih (fun a ha => h a (List.mem_cons_of_mem _ ha)), List.cons_append]

theorem foldl_addToGroups_group (n : String) (vs : List String) :
    ∀ (acc : List (String × List String)) (cur : List String), (∀ g ∈ acc, g.1 ≠ n) →
      vs.foldl (fun a v => addToGroups n v a) (acc ++ [(n, cur)]) = acc ++ [(n, cur ++ vs)] := by
  induction vs with
  | nil =>
    intro acc cur h
    rw [List.foldl_nil, List.append_nil]
  | cons v vs2 ih =>
    intro acc cur h
    rw [List.foldl_cons, addToGroups_append_match n v acc [] cur h, ih acc (cur ++ [v]) h,
      List.append_assoc, List.singleton_append]

theorem foldl_addToGroups_flat (G : List (String × List String)) :
    ∀ acc, (∀ g ∈ G, g.2 ≠ []) → (∀ g ∈ G, ∀ a ∈ acc, a.1 ≠ g.1) →
      List.Pairwise (fun a b => a.1 ≠ b.1) G →
      (G.flatMap (fun g => g.2.map (fun v => (g.1, v)))).foldl
        (fun acc p => addToGroups p.1 p.2 acc) acc = acc ++ G := by
  induction G with
  | nil =>
    intro acc _ _ _
    rw [List.flatMap_nil, List.foldl_nil, List.append_nil]
  | cons g rest ih =>
    intro acc hne hdis hpw
    obtain ⟨n, vs⟩ := g
    rw [List.flatMap_cons, List.foldl_append, List.foldl_map]
    simp only []
    have hfresh : ∀ a ∈ acc, a.1 ≠ n := fun a ha => hdis (n, vs) (List.mem_cons_self _ _) a ha
    match vs, hne _ (List.mem_cons_self _ _) with
    | v0 :: vs2, _ =>
      rw [List.foldl_cons, addToGroups_fresh n v0 acc hfresh,
        foldl_addToGroups_group n vs2 acc [v0] hfresh]
      have hstep : ∀ g2 ∈ rest, ∀ a ∈ acc ++ [(n, [v0] ++ vs2)], a.1 ≠ g2.1 := by
        intro g2 hg2 a ha
        rcases List.mem_append.mp ha with ha | ha
        · exact hdis g2 (List.mem_cons_of_mem _ hg2) a ha
        · rcases List.mem_singleton.mp ha with rfl
          exact (List.pairwise_cons.mp hpw).1 g2 hg2
      rw [ih _ (fun g2 hg2 => hne g2 (List.mem_cons_of_mem _ hg2)) hstep
        (List.pairwise_cons.mp hpw).2, List.append_assoc, List.singleton_append,
        List.singleton_append]

end AIC

namespace AIC

theorem itemLe_total (a b : String × List String) : itemLe a b = true ∨ itemLe b a = true := by
  unfold itemLe
  rcases lt_trichotomy a.1 b.1 with h | h | h
  · left
    rw [Bool.or_eq_true, decide_eq_true_iff]
    exact Or.inl h
  · left
    rw [Bool.or_eq_true]
    right
    rw [decide_eq_true_iff]
    exact h
  · right
    rw [Bool.or_eq_true, decide_eq_true_iff]
    exact Or.inl h

theorem itemLe_trans (a b c : String × List String) (h1 : itemLe a b = true)
    (h2 : itemLe b c = true) : itemLe a c = true := by
  unfold itemLe at *
  rw [Bool.or_eq_true, decide_eq_true_iff, decide_eq_true_iff] at *
  rcases h1 with h1 | h1 <;> rcases h2 with h2 | h2
  · exact Or.inl (lt_trans h1 h2)
  · exact Or.inl (h2 ▸ h1)
  · exact Or.inl (h1 ▸ h2)
  · exact Or.inr (h1.trans h2)

theorem mem_stableInsert (le : α → α → Bool) (x : α) (l : List α) (y : α) :
    y ∈ stableInsert le x l ↔ y = x ∨ y ∈ l := by
  induction l with
  | nil => simp [stableInsert]
  | cons z zs ih =>
    rw [stableInsert]
    by_cases hle : le z x
    · rw [if_pos hle]
      simp only [List.mem_cons, ih]
      tauto
    · rw [if_neg hle]
      simp only [List.mem_cons]

theorem stableInsert_perm (le : α → α → Bool) (x : α) (l : List α) :
    (stableInsert le x l).Perm (x :: l) := by
  induction l with
  | nil => exact List.Perm.refl _
  | cons y ys ih =>
    rw [stableInsert]
    by_cases hle : le y x
    · rw [if_pos hle]
      exact (ih.cons y).trans (List.Perm.swap x y ys)
    · rw [if_neg hle]

theorem stableInsert_pairwise (le : α → α → Bool)
    (htot : ∀ a b, le a b = true ∨ le b a = true)
    (htrans : ∀ a b c, le a b = true → le b c = true → le a c = true)
    (x : α) (l : List α) (hp : List.Pairwise (fun a b => le a b = true) l) :
    List.Pairwise (fun a b => le a b = true) (stableInsert le x l) := by
  induction l with
  | nil => simp [stableInsert]
  | cons y ys ih =>
    rw [stableInsert]
    rcases List.pairwise_cons.mp hp with ⟨hy, hys⟩
    by_cases hle : le y x
    · rw [if_pos hle]
      rw [List.pairwise_cons]
      refine ⟨?_, ih hys⟩
      intro z hz
      rcases (mem_stableInsert le x ys z).mp hz with rfl | hz
      · exact hle
      · exact hy z hz
    · rw [if_neg hle]
      have hxy : le x y = true := by
        rcases htot x y with h | h
        · exact h
        · exact absurd h hle
      rw [List.pairwise_cons]
      refine ⟨?_, hp⟩
      intro z hz
      rcases List.mem_cons.mp hz with rfl | hz
      · exact hxy
      · exact htrans x y z hxy (hy z hz)

theorem foldl_stableInsert_perm (le : α → α → Bool) (l : List α) :
    ∀ acc, (l.foldl (fun acc x => stableInsert le x acc) acc).Perm (acc ++ l) := by
  induction l with
  | nil =>
    intro acc
    rw [List.foldl_nil, List.append_nil]
  | cons x xs ih =>
    intro acc
    rw [List.foldl_cons]
    refine (ih _).trans ?_
    refine ((stableInsert_perm le x acc).append_right xs).trans ?_
    rw [List.cons_append]
    exact List.perm_middle.symm

theorem pySort_perm (le : α → α → Bool) (l : List α) : (pySort le l).Perm l := by
  have := foldl_stableInsert_perm le l []
  rw [List.nil_append] at this
  exact this

theorem pySort_pairwise (le : α → α → Bool)
    (htot : ∀ a b, le a b = true ∨ le b a = true)
    (htrans : ∀ a b c, le a b = true → le b c = true → le a c = true)
    (l : List α) : List.Pairwise (fun a b => le a b = true) (pySort le l) := by
  unfold pySort
  have hgen : ∀ (l2 : List α) (acc : List α), List.Pairwise (fun a b => le a b = true) acc →
      List.Pairwise (fun a b => le a b = true)
        (l2.foldl (fun acc x => stableInsert le x acc) acc) := by
    intro l2
    induction l2 with
    | nil => intro acc h; exact h
    | cons x xs ih =>
      intro acc h
      rw [List.foldl_cons]
      exact ih _ (stableInsert_pairwise le htot htrans x acc h)
  exact hgen l [] List.Pairwise.nil

theorem stableInsert_all_le (le : α → α → Bool) (x : α) (l : List α)
    (h : ∀ y ∈ l, le y x = true) : stableInsert le x l = l ++ [x] := by
  induction l with
  | nil => rfl
  | cons y ys ih =>
    rw [stableInsert, if_pos (h y (List.mem_cons_self y ys)),
      ih (fun z hz => h z (List.mem_cons_of_mem y hz)), List.cons_append]

theorem pySort_of_pairwise (le : α → α → Bool) (l : List α)
    (hp : List.Pairwise (fun a b => le a b = true) l) : pySort le l = l := by
  unfold pySort
  have hgen : ∀ (l2 : List α) (acc : List α), List.Pairwise (fun a b => le a b = true) l2 →
      (∀ a ∈ acc, ∀ x ∈ l2, le a x = true) →
      l2.foldl (fun acc x => stableInsert le x acc) acc = acc ++ l2 := by
    intro l2
    induction l2 with
    | nil =>
      intro acc _ _
      rw [List.foldl_nil, List.append_nil]
    | cons x xs ih =>
      intro acc hpw hacc
      rw [List.foldl_cons, stableInsert_all_le le x acc
        (fun y hy => hacc y hy x (List.mem_cons_self x xs))]
      rw [ih (acc ++ [x]) (List.pairwise_cons.mp hpw).2 ?hnew, List.append_assoc,
        List.singleton_append]
      case hnew =>
        intro a ha z hz
        rcases List.mem_append.mp ha with ha | ha
        · exact hacc a ha z (List.mem_cons_of_mem x hz)
        · rcases List.mem_singleton.mp ha with rfl
          exact (List.pairwise_cons.mp hpw).1 z hz
  exact hgen l [] hp (by intro a ha; exact absurd ha (List.not_mem_nil a))

end AIC

namespace AIC

theorem utf8Decode_ne_nil : ∀ l : List Nat, l ≠ [] → utf8Decode l ≠ [] := by
  intro l hl
  match l with
  | [b] =>
    rw [utf8Decode]
    split_ifs <;> simp
  | [b, b2] =>
    rw [utf8Decode]
    split_ifs <;> simp
  | [b, b2, b3] =>
    rw [utf8Decode]
    split_ifs <;> simp
  | b :: b2 :: b3 :: b4 :: bs =>
    rw [utf8Decode]
    split_ifs <;> simp

theorem unquoteTokens_ne_nil : ∀ l : List Char, l ≠ [] → unquoteTokens l ≠ [] := by
  intro l hl
  match l with
  | c :: rest =>
    by_cases hc : c = '%'
    · subst hc
      match rest with
      | [] =>
        rw [unquoteTokens]
        simp
      | [a] =>
        rw [unquoteTokens]
        simp
      | a :: b :: r =>
        rw [unquoteTokens]
        cases hexVal a <;> cases hexVal b <;> simp
    · rw [unquoteTokens_cons_ne c hc]
      simp

theorem decodeTokensGo_ne_nil : ∀ (ts : List (Sum Nat Char)) (acc : List Nat),
    acc ≠ [] ∨ ts ≠ [] → decodeTokensGo acc ts ≠ [] := by
  intro ts
  induction ts with
  | nil =>
    intro acc h
    rw [decodeTokensGo]
    rcases h with h | h
    · apply utf8Decode_ne_nil
      simpa using h
    · exact absurd rfl h
  | cons t ts2 ih =>
    intro acc h
    match t with
    | Sum.inl b =>
      rw [decodeTokensGo]
      exact ih (b :: acc) (Or.inl (by simp))
    | Sum.inr c =>
      rw [decodeTokensGo]
      simp

theorem pyReplaceCharL_ne_nil (old : Char) (new : List Char) (hnew : new ≠ [])
    (l : List Char) (h : l ≠ []) : pyReplaceCharL old new l ≠ [] := by
  match l with
  | c :: rest =>
    unfold pyReplaceCharL
    rw [List.flatMap_cons]
    intro hnil
    rcases List.append_eq_nil.mp hnil with ⟨h1, _⟩
    by_cases hc : c = old
    · rw [if_pos hc] at h1
      exact hnew h1
    · rw [if_neg hc] at h1
      simp at h1

theorem pyUnquotePlus_ne_nil (l : List Char) (h : l ≠ []) : pyUnquotePlus l ≠ [] := by
  unfold pyUnquotePlus pyUnquote
  apply decodeTokensGo_ne_nil
  exact Or.inr (unquoteTokens_ne_nil _ (pyReplaceCharL_ne_nil '+' [' '] (by simp) l h))

theorem parse_qsl_values_ne (qs : String) : ∀ p ∈ parse_qsl qs, p.2 ≠ "" := by
  intro p hp
  unfold parse_qsl at hp
  rcases List.mem_filterMap.mp hp with ⟨t, _, hft⟩
  by_cases he : t.isEmpty
  · rw [if_pos he] at hft
    cases hft
  · rw [if_neg he] at hft
    rcases hsp : pySplitOnceL '=' t with _ | ⟨n, _ | ⟨v, _ | ⟨w, ws⟩⟩⟩ <;> rw [hsp] at hft
    · cases hft
    · cases hft
    · simp only [] at hft
      by_cases hv : v.isEmpty
      · rw [if_pos hv] at hft
        cases hft
      · rw [if_neg hv] at hft
        have hpv : p.2 = (⟨pyUnquotePlus v⟩ : String) := by
          rw [← Option.some_inj.mp hft]
        rw [hpv]
        intro hcon
        apply pyUnquotePlus_ne_nil v
        · intro hvnil
          apply hv
          rw [hvnil]
          rfl
        · have : (⟨pyUnquotePlus v⟩ : String).data = ("" : String).data := by rw [hcon]
          simpa using this
    · cases hft

theorem addToGroups_keys (n : String) (v : String) (acc : List (String × List String)) :
    (addToGroups n v acc).map Prod.fst
      = if n ∈ acc.map Prod.fst then acc.map Prod.fst else acc.map Prod.fst ++ [n] := by
  induction acc with
  | nil => simp [addToGroups]
  | cons g rest ih =>
    obtain ⟨k, vs⟩ := g
    rw [addToGroups]
    by_cases hk : k = n
    · rw [if_pos hk, List.map_cons, List.map_cons, if_pos (by simp [hk])]
    · rw [if_neg hk, List.map_cons, List.map_cons, ih]
      by_cases hmem : n ∈ rest.map Prod.fst
      · rw [if_pos hmem, if_pos (by simp [hmem])]
      · rw [if_neg hmem, if_neg ?hno, List.cons_append]
        case hno =>
          simp only [List.mem_cons]
          push_neg
          exact ⟨fun hnk => hk hnk.symm, hmem⟩

theorem addToGroups_mem_char (n : String) (v : String) (acc : List (String × List String)) :
    ∀ g ∈ addToGroups n v acc,
      g ∈ acc ∨ g = (n, [v]) ∨ ∃ g0 ∈ acc, g.2 = g0.2 ++ [v] := by
  induction acc with
  | nil =>
    intro g hg
    simp [addToGroups] at hg
    exact Or.inr (Or.inl (by simp [hg]))
  | cons g0 rest ih =>
    obtain ⟨k, vs⟩ := g0
    intro g hg
    rw [addToGroups] at hg
    by_cases hk : k = n
    · rw [if_pos hk] at hg
      rcases List.mem_cons.mp hg with rfl | hg
      · exact Or.inr (Or.inr ⟨(k, vs), List.mem_cons_self _ _, by simp⟩)
      · exact Or.inl (List.mem_cons_of_mem _ hg)
    · rw [if_neg hk] at hg
      rcases List.mem_cons.mp hg with rfl | hg
      · exact Or.inl (List.mem_cons_self _ _)
      · rcases ih g hg with h | h | ⟨g2, hg2, hgv⟩
        · exact Or.inl (List.mem_cons_of_mem _ h)
        · exact Or.inr (Or.inl h)
        · exact Or.inr (Or.inr ⟨g2, List.mem_cons_of_mem _ hg2, hgv⟩)

theorem foldl_addToGroups_inv (ps : List (String × String)) :
    ∀ acc : List (String × List String), (∀ p ∈ ps, p.2 ≠ "") →
      ((acc.map Prod.fst).Nodup ∧ ∀ g ∈ acc, g.2 ≠ [] ∧ ∀ s ∈ g.2, s ≠ "") →
      (((ps.foldl (fun acc p => addToGroups p.1 p.2 acc) acc).map Prod.fst).Nodup ∧
        ∀ g ∈ ps.foldl (fun acc p => addToGroups p.1 p.2 acc) acc,
          g.2 ≠ [] ∧ ∀ s ∈ g.2, s ≠ "") := by
  induction ps with
  | nil =>
    intro acc _ h
    exact h
  | cons p rest ih =>
    intro acc hps ⟨hnd, hvals⟩
    rw [List.foldl_cons]
    apply ih _ (fun q hq => hps q (List.mem_cons_of_mem p hq))
    constructor
    · rw [addToGroups_keys]
      by_cases hmem : p.1 ∈ acc.map Prod.fst
      · rw [if_pos hmem]
        exact hnd
      · rw [if_neg hmem]
        rw [List.nodup_append]
        exact ⟨hnd, List.nodup_singleton _, by simpa using hmem⟩
    · intro g hg
      rcases addToGroups_mem_char p.1 p.2 acc g hg with h | h | ⟨g0, hg0, hgv⟩
      · exact hvals g h
      · subst h
        refine ⟨by simp, ?_⟩
        intro s hs
        rcases List.mem_singleton.mp hs with rfl
        exact hps p (List.mem_cons_self p rest)
      · rw [hgv]
        refine ⟨by simp, ?_⟩
        intro s hs
        rcases List.mem_append.mp hs with hs | hs
        · exact (hvals g0 hg0).2 s hs
        · rcases List.mem_singleton.mp hs with rfl
          exact hps p (List.mem_cons_self p rest)

theorem parse_qs_inv (qs : String) :
    ((parse_qs qs).map Prod.fst).Nodup ∧
      ∀ g ∈ parse_qs qs, g.2 ≠ [] ∧ ∀ s ∈ g.2, s ≠ "" := by
  unfold parse_qs
  exact foldl_addToGroups_inv (parse_qsl qs) [] (parse_qsl_values_ne qs)
    ⟨List.nodup_nil, by intro g hg; exact absurd hg (List.not_mem_nil g)⟩

theorem normalizeQueryGroups_invariants (q : String) :
    ((normalizeQueryGroups q).map Prod.fst).Nodup ∧
      (∀ g ∈ normalizeQueryGroups q, g.2 ≠ [] ∧ ∀ s ∈ g.2, s ≠ "") ∧
      List.Pairwise (fun a b => itemLe a b = true) (normalizeQueryGroups q) ∧
      ∀ g ∈ normalizeQueryGroups q, TRACKING_PARAMS.contains (pyLower g.1) = false := by
  obtain ⟨hnd, hvals⟩ := parse_qs_inv q
  have hperm : (pySort itemLe (parse_qs q)).Perm (parse_qs q) := pySort_perm _ _
  have hndsort : ((pySort itemLe (parse_qs q)).map Prod.fst).Nodup :=
    (hperm.map Prod.fst).nodup_iff.mpr hnd
  have hsub : List.Sublist (normalizeQueryGroups q) (pySort itemLe (parse_qs q)) := by
    unfold normalizeQueryGroups
    exact List.filter_sublist _
  refine ⟨?_, ?_, ?_, ?_⟩
  · exact List.Nodup.sublist (hsub.map Prod.fst) hndsort
  · intro g hg
    exact hvals g (hperm.mem_iff.mp (hsub.mem hg))
  · exact List.Pairwise.sublist hsub (pySort_pairwise itemLe itemLe_total itemLe_trans _)
  · intro g hg
    unfold normalizeQueryGroups at hg
    have := List.of_mem_filter hg
    simpa using this

theorem normalizeQueryGroups_idem (q : String) :
    normalizeQueryGroups (urlencodeSeq (normalizeQueryGroups q)) = normalizeQueryGroups q := by
  obtain ⟨hnd, hvals, hpw, hpred⟩ := normalizeQueryGroups_invariants q
  have h1 : parse_qs (urlencodeSeq (normalizeQueryGroups q)) = normalizeQueryGroups q := by
    unfold parse_qs
    rw [parse_qsl_urlencode _ (fun g hg => (hvals g hg).2) (fun g hg => (hvals g hg).1)]
    have hpwne : List.Pairwise (fun a b => a.1 ≠ b.1) (normalizeQueryGroups q) := by
      rw [← List.pairwise_map (f := Prod.fst)]
      exact hnd
    have := foldl_addToGroups_flat (normalizeQueryGroups q) []
      (fun g hg => (hvals g hg).1)
      (by intro g _ a ha; exact absurd ha (List.not_mem_nil a)) hpwne
    rw [this, List.nil_append]
  show (pySort itemLe (parse_qs (urlencodeSeq (normalizeQueryGroups q)))).filter _
      = normalizeQueryGroups q
  rw [h1, pySort_of_pairwise itemLe _ hpw]
  apply List.filter_eq_self.mpr
  intro g hg
  simp only [Bool.not_eq_true']
  exact hpred g hg

end AIC

namespace AIC

theorem pyPartitionL_spec (c : Char) (l : List Char) :
    ((pyPartitionL c l).2.1 = true →
      l = (pyPartitionL c l).1 ++ c :: (pyPartitionL c l).2.2 ∧ c ∉ (pyPartitionL c l).1) ∧
    ((pyPartitionL c l).2.1 = false →
      (pyPartitionL c l).1 = l ∧ (pyPartitionL c l).2.2 = [] ∧ c ∉ l) := by
  induction l with
  | nil => simp [pyPartitionL]
  | cons x rest ih =>
    rw [pyPartitionL]
    by_cases hx : x = c
    · rw [if_pos hx]
      subst hx
      exact ⟨fun _ => ⟨rfl, List.not_mem_nil x⟩, fun h => by cases h⟩
    · rw [if_neg hx]
      simp only []
      constructor
      · intro hf
        obtain ⟨h1, h2⟩ := ih.1 hf
        constructor
        · rw [List.cons_append, ← h1]
        · intro hm
          rcases List.mem_cons.mp hm with he | hm
          · exact hx he.symm
          · exact h2 hm
      · intro hf
        obtain ⟨h1, h2, h3⟩ := ih.2 hf
        refine ⟨by rw [h1], h2, ?_⟩
        intro hm
        rcases List.mem_cons.mp hm with he | hm
        · exact hx he.symm
        · exact h3 hm

theorem pyPartitionL_found_iff (c : Char) (l : List Char) :
    (pyPartitionL c l).2.1 = true ↔ c ∈ l := by
  constructor
  · intro h
    rw [((pyPartitionL_spec c l).1 h).1]
    simp
  · intro hm
    by_contra hf
    exact ((pyPartitionL_spec c l).2 (Bool.not_eq_true _ ▸ hf)).2.2 hm

theorem pyRpartitionL_spec (c : Char) (l : List Char) :
    ((pyRpartitionL c l).2.1 = true →
      l = (pyRpartitionL c l).1 ++ c :: (pyRpartitionL c l).2.2 ∧ c ∉ (pyRpartitionL c l).2.2) ∧
    ((pyRpartitionL c l).2.1 = false →
      (pyRpartitionL c l).1 = l ∧ (pyRpartitionL c l).2.2 = [] ∧ c ∉ l) := by
  induction l with
  | nil => simp [pyRpartitionL]
  | cons x rest ih =>
    rcases hrp : pyRpartitionL c rest with ⟨a, f, b⟩
    rw [hrp] at ih
    rw [pyRpartitionL, hrp]
    simp only [] at ih ⊢
    by_cases hf : f = true
    · rw [if_pos hf]
      simp only []
      obtain ⟨h1, h2⟩ := ih.1 hf
      refine ⟨fun _ => ⟨?_, h2⟩, fun h => by cases h⟩
      rw [List.cons_append, ← h1]
    · have hf2 : f = false := by
        cases f
        · rfl
        · exact absurd rfl hf
      rw [if_neg hf]
      obtain ⟨h1, h2, h3⟩ := ih.2 hf2
      by_cases hx : x = c
      · rw [if_pos hx]
        simp only []
        constructor
        · intro hdummy
          refine ⟨?_, h3⟩
          subst hx
          rw [List.nil_append]
        · intro h
          cases h
      · rw [if_neg hx]
        simp only []
        constructor
        · intro h
          cases h
        · intro hdummy
          refine ⟨?_, h2, ?_⟩
          · rw [h1]
          · intro hm
            rcases List.mem_cons.mp hm with he | hm
            · exact hx he.symm
            · exact h3 hm

theorem pyRpartitionL_found_iff (c : Char) (l : List Char) :
    (pyRpartitionL c l).2.1 = true ↔ c ∈ l := by
  constructor
  · intro h
    rw [((pyRpartitionL_spec c l).1 h).1]
    simp
  · intro hm
    by_contra hf
    exact ((pyRpartitionL_spec c l).2 (Bool.not_eq_true _ ▸ hf)).2.2 hm

theorem pyLstripL_no_strip (cs : List Char) (c : Char) (l : List Char)
    (h : charIn cs c = false) : pyLstripL cs (c :: l) = c :: l := by
  rw [pyLstripL, if_neg (by rw [h]; exact Bool.false_ne_true)]

theorem pyRstripL_no_strip (cs : List Char) :
    ∀ (l : List Char) (c : Char), l.getLast? = some c → charIn cs c = false →
      pyRstripL cs l = l := by
  intro l
  induction l with
  | nil =>
    intro c h _
    cases h
  | cons x rest ih =>
    intro c h hns
    match rest with
    | [] =>
      simp only [List.getLast?_singleton, Option.some_inj] at h
      subst h
      rw [pyRstripL]
      simp only [pyRstripL]
      rw [if_neg (by rw [hns]; exact Bool.false_ne_true)]
    | y :: rest2 =>
      have hlast : (y :: rest2).getLast? = some c := by
        rw [← h, List.getLast?_cons_cons]
      rw [pyRstripL, ih c hlast hns]

theorem pyRstripL_cons_keep (cs : List Char) (c : Char) (l : List Char)
    (h : pyRstripL cs l = l) (hne : l ≠ []) : pyRstripL cs (c :: l) = c :: l := by
  rw [pyRstripL, h]
  match l, hne with
  | y :: rest, _ => rfl

theorem removeUnsafe_eq_self (l : List Char)
    (h : ∀ c ∈ l, c ≠ '\t' ∧ c ≠ '\r' ∧ c ≠ '\n') : removeUnsafe l = l := by
  apply List.filter_eq_self.mpr
  intro c hc
  obtain ⟨h1, h2, h3⟩ := h c hc
  simp [h1, h2, h3]

theorem charIn_ofNat_map_false (ns : List Nat) (c : Char) (hval : ∀ n ∈ ns, n < 0xD800)
    (h : c.toNat ∉ ns) : charIn (ns.map Char.ofNat) c = false := by
  unfold charIn
  by_contra hcon
  rw [Bool.not_eq_false] at hcon
  have hmem : c ∈ ns.map Char.ofNat := List.mem_of_elem_eq_true hcon
  rcases List.mem_map.mp hmem with ⟨k, hk, hck⟩
  apply h
  rw [← hck, char_toNat_ofNat k (hval k hk)]
  exact hk

theorem lstripC0_no_strip (c : Char) (l : List Char) (h : 33 ≤ c.toNat) :
    lstripC0 (c :: l) = c :: l := by
  unfold lstripC0
  apply pyLstripL_no_strip
  apply charIn_ofNat_map_false
  · intro n hn
    rw [List.mem_range] at hn
    omega
  · rw [List.mem_range]
    omega

theorem not_ws_of_range (c : Char) (h1 : 33 ≤ c.toNat) (h2 : c.toNat ≤ 126) :
    charIn pyWhitespace c = false := by
  unfold pyWhitespace
  apply charIn_ofNat_map_false
  · intro n hn
    simp only [List.mem_cons, List.not_mem_nil, or_false] at hn
    omega
  · intro hmem
    simp only [List.mem_cons, List.not_mem_nil, or_false] at hmem
    omega

end AIC

namespace AIC

theorem isAlpha_iff (c : Char) :
    c.isAlpha = true ↔ (65 ≤ c.toNat ∧ c.toNat ≤ 90) ∨ (97 ≤ c.toNat ∧ c.toNat ≤ 122) := by
  unfold Char.isAlpha Char.isUpper Char.isLower
  rw [Bool.or_eq_true, Bool.and_eq_true, Bool.and_eq_true]
  simp only [decide_eq_true_iff]
  exact Iff.rfl

theorem isDigit_iff_nat (c : Char) :
    c.isDigit = true ↔ 48 ≤ c.toNat ∧ c.toNat ≤ 57 := isDigit_iff c

theorem char_eq_lit (c d : Char) (n : Nat) (hd : d.toNat = n) : c = d ↔ c.toNat = n := by
  rw [char_eq_iff_toNat, hd]

theorem schemeChar_iff (c : Char) :
    schemeChar c = true ↔ ((65 ≤ c.toNat ∧ c.toNat ≤ 90) ∨ (97 ≤ c.toNat ∧ c.toNat ≤ 122) ∨
      (48 ≤ c.toNat ∧ c.toNat ≤ 57) ∨ c.toNat = 43 ∨ c.toNat = 45 ∨ c.toNat = 46) := by
  unfold schemeChar
  rw [Bool.or_eq_true, Bool.or_eq_true, Bool.or_eq_true, Bool.or_eq_true]
  simp only [decide_eq_true_iff]
  rw [isAlpha_iff, isDigit_iff, char_eq_lit c '+' 43 (by decide), char_eq_lit c '-' 45 (by decide),
    char_eq_lit c '.' 46 (by decide)]
  tauto

theorem pyFindCharL_append (c : Char) (a b : List Char) (h : c ∉ a) :
    pyFindCharL c (a ++ c :: b) = (a.length : Int) := by
  induction a with
  | nil =>
    rw [List.nil_append, pyFindCharL, if_pos rfl]
    rfl
  | cons x xs ih =>
    have hx : x ≠ c := fun he => h (he ▸ List.mem_cons_self x xs)
    rw [List.cons_append, pyFindCharL]
    simp only [if_neg hx]
    rw [ih (fun hm => h (List.mem_cons_of_mem x hm))]
    rw [if_neg (by omega)]
    simp only [List.length_cons]
    push_cast
    ring

theorem drop_append_cons (a b : List Char) (c : Char) :
    (a ++ c :: b).drop (a.length + 1) = b := by
  have h1 : a ++ c :: b = (a ++ [c]) ++ b := by
    rw [List.append_assoc, List.singleton_append]
  rw [h1]
  have h2 : a.length + 1 = (a ++ [c]).length := by
    simp
  rw [h2, List.drop_left]

theorem splitSchemeL_canonical (S : String) (rest : List Char)
    (hd : Char) (tl : List Char) (hS : S.data = hd :: tl)
    (hhd : hd.isAlpha = true) (htl : tl.all schemeChar = true)
    (hSl : S.data.map pyLowerChar = S.data) :
    splitSchemeL (S.data ++ ':' :: rest) = (S, rest) := by
  have hnc : (':' : Char) ∉ S.data := by
    rw [hS]
    intro hm
    rcases List.mem_cons.mp hm with he | hm
    · rw [isAlpha_iff] at hhd
      have : (':' : Char).toNat = 58 := by decide
      rw [char_eq_iff_toNat] at he
      omega
    · have := (schemeChar_iff _).mp (List.all_eq_true.mp htl _ hm)
      have h58 : (':' : Char).toNat = 58 := by decide
      omega
  simp only [splitSchemeL]
  rw [pyFindCharL_append ':' S.data rest hnc]
  rw [if_pos (by rw [hS]; simp only [List.length_cons]; omega)]
  have htn : ((S.data.length : Int)).toNat = S.data.length := Int.toNat_natCast _
  rw [htn, List.take_left]
  rw [hS]
  simp only []
  rw [if_pos ⟨hhd, htl⟩]
  rw [← hS, hSl]
  rw [drop_append_cons]

theorem splitnetlocL_append (a b : List Char)
    (ha : ∀ c ∈ a, c ≠ '/' ∧ c ≠ '?' ∧ c ≠ '#')
    (hb : b = [] ∨ ∃ c r, b = c :: r ∧ (c = '/' ∨ c = '?' ∨ c = '#')) :
    splitnetlocL (a ++ b) = (a, b) := by
  induction a with
  | nil =>
    rw [List.nil_append]
    rcases hb with rfl | ⟨c, r, rfl, hc⟩
    · rfl
    · rw [splitnetlocL, if_pos hc]
  | cons x xs ih =>
    obtain ⟨h1, h2, h3⟩ := ha x (List.mem_cons_self x xs)
    rw [List.cons_append, splitnetlocL,
      if_neg (by push_neg; exact ⟨h1, h2, h3⟩)]
    rw [ih (fun c hc => ha c (List.mem_cons_of_mem x hc))]

theorem contains_false_not_mem (l : List Char) (c : Char) (h : l.contains c = false) :
    c ∉ l := by
  intro hm
  have h2 := List.elem_eq_true_of_mem hm
  rw [show l.contains c = List.elem c l from rfl, h2] at h
  cases h

theorem contains_true_of_mem (l : List Char) (c : Char) (h : c ∈ l) : l.contains c = true :=
  List.elem_eq_true_of_mem h

theorem contains_false_of_not_mem (l : List Char) (c : Char) (h : c ∉ l) :
    l.contains c = false := by
  cases hc : l.contains c
  · rfl
  · exact absurd (List.mem_of_elem_eq_true hc) h

theorem lastSegment_slash_cons (l : List Char) :
    lastSegment ('/' :: l) = lastSegment l := by
  rcases hrp : pyRpartitionL '/' l with ⟨a, f, b⟩
  have hcons : pyRpartitionL '/' ('/' :: l)
      = if f = true then ('/' :: a, true, b) else ([], true, l) := by
    rw [pyRpartitionL, hrp]
    simp only []
    cases f
    · simp
    · simp
  unfold lastSegment
  rw [hcons, hrp]
  cases f <;> simp

theorem splitparamsL_clean (l : List Char) (h : (lastSegment l).contains ';' = false) :
    splitparamsL l = (l, []) := by
  unfold splitparamsL
  by_cases hsemi : l.contains ';'
  · rw [if_pos hsemi]
    by_cases hslash : l.contains '/'
    · rw [if_pos hslash]
      have hfound : (pyRpartitionL '/' l).2.1 = true := by
        rw [pyRpartitionL_found_iff]
        exact List.mem_of_elem_eq_true hslash
      have hseg : lastSegment l = (pyRpartitionL '/' l).2.2 := by
        unfold lastSegment
        rcases hrp : pyRpartitionL '/' l with ⟨a, f, b⟩
        rw [hrp] at hfound
        simp only [] at hfound ⊢
        rw [if_pos hfound]
      rcases hrp : pyRpartitionL '/' l with ⟨a, f, b⟩
      simp only []
      have hnof : (pyPartitionL ';' b).2.1 = false := by
        rw [← Bool.not_eq_true, pyPartitionL_found_iff]
        intro hm
        have hbseg : b = lastSegment l := by rw [hseg, hrp]
        rw [hbseg] at hm
        exact contains_false_not_mem _ _ h hm
      rcases hpp : pyPartitionL ';' b with ⟨a2, f2, b2⟩
      rw [hpp] at hnof
      simp only [] at hnof ⊢
      rw [hnof]
      simp only [Bool.false_eq_true, if_false]
    · rw [if_neg hslash]
      have hl : lastSegment l = l := by
        unfold lastSegment
        have hnf : (pyRpartitionL '/' l).2.1 = false := by
          rw [← Bool.not_eq_true, pyRpartitionL_found_iff]
          intro hm
          exact hslash (contains_true_of_mem _ _ hm)
        rcases hrp : pyRpartitionL '/' l with ⟨a, f, b⟩
        rw [hrp] at hnf
        simp only [] at hnf ⊢
        rw [hnf]
        simp only [Bool.false_eq_true, if_false]
      rw [hl] at h
      rw [h] at hsemi
      cases hsemi
  · rw [if_neg hsemi]

end AIC

namespace AIC

theorem string_append_data (s t : String) : (s ++ t).data = s.data ++ t.data := rfl

theorem pyHostinfo_rebuild (H : String) (pt : List Char)
    (hH1 : ('@' : Char) ∉ H.data) (hH2 : ((':' : Char)) ∉ H.data)
    (hH3 : (('[' : Char)) ∉ H.data)
    (hpt : pt = [] ∨ ∃ ds, pt = ':' :: ds ∧ (('@' : Char) ∉ ds) ∧ ((':' : Char) ∉ ds) ∧
      (('[' : Char) ∉ ds)) :
    pyHostinfo ⟨H.data ++ pt⟩ = (H.data, pt.tail) := by
  unfold pyHostinfo
  have hat : ('@' : Char) ∉ H.data ++ pt := by
    intro hm
    rcases List.mem_append.mp hm with hm | hm
    · exact hH1 hm
    · rcases hpt with rfl | ⟨ds, rfl, hds, _, _⟩
      · exact absurd hm (List.not_mem_nil _)
      · rcases List.mem_cons.mp hm with he | hm
        · cases he
        · exact hds hm
  have hbr : ('[' : Char) ∉ H.data ++ pt := by
    intro hm
    rcases List.mem_append.mp hm with hm | hm
    · exact hH3 hm
    · rcases hpt with rfl | ⟨ds, rfl, _, _, hds3⟩
      · exact absurd hm (List.not_mem_nil _)
      · rcases List.mem_cons.mp hm with he | hm
        · cases he
        · exact hds3 hm
  have hnf : (pyRpartitionL '@' (H.data ++ pt)).2.1 = false := by
    rw [← Bool.not_eq_true, pyRpartitionL_found_iff]
    exact hat
  rcases hrp : pyRpartitionL '@' (H.data ++ pt) with ⟨a, f, b⟩
  rw [hrp] at hnf
  simp only [] at hnf ⊢
  subst hnf
  simp only [Bool.false_eq_true, if_false]
  have hbf : (pyPartitionL '[' (H.data ++ pt)).2.1 = false := by
    rw [← Bool.not_eq_true, pyPartitionL_found_iff]
    exact hbr
  rcases hbp : pyPartitionL '[' (H.data ++ pt) with ⟨c1, ob, c2⟩
  rw [hbp] at hbf
  simp only [] at hbf ⊢
  subst hbf
  simp only [Bool.false_eq_true, if_false]
  rcases hpt with rfl | ⟨ds, rfl, _, hds2, _⟩
  · rw [List.append_nil]
    have hnp : (pyPartitionL ':' H.data).2.1 = false := by
      rw [← Bool.not_eq_true, pyPartitionL_found_iff]
      exact hH2
    obtain ⟨h1, h2, _⟩ := (pyPartitionL_spec ':' H.data).2 hnp
    rcases hpp : pyPartitionL ':' H.data with ⟨a2, f2, b2⟩
    rw [hpp] at h1 h2
    simp only [] at h1 h2 ⊢
    rw [h1, h2]
    rfl
  · rw [pyPartitionL_found ':' H.data ds hH2]
    rfl

theorem pyHostname_rebuild (H : String) (pt : List Char)
    (hH1 : ('@' : Char) ∉ H.data) (hH2 : (':' : Char) ∉ H.data)
    (hH3 : (('[' : Char)) ∉ H.data)
    (hHl : H.data.map pyLowerChar = H.data)
    (hpt : pt = [] ∨ ∃ ds, pt = ':' :: ds ∧ (('@' : Char) ∉ ds) ∧ ((':' : Char) ∉ ds) ∧
      (('[' : Char) ∉ ds)) :
    pyHostname ⟨H.data ++ pt⟩ = H := by
  unfold pyHostname
  rw [pyHostinfo_rebuild H pt hH1 hH2 hH3 hpt]
  simp only []
  by_cases hHe : H.data = []
  · rw [if_pos (by rw [hHe]; rfl)]
    cases H
    simp only [] at hHe
    rw [hHe]
  · rw [if_neg (by simpa using hHe)]
    by_cases hpct : ('%' : Char) ∈ H.data
    · have hfound : (pyPartitionL '%' H.data).2.1 = true := (pyPartitionL_found_iff _ _).mpr hpct
      obtain ⟨hsplit, hnopre⟩ := (pyPartitionL_spec '%' H.data).1 hfound
      rcases hpp : pyPartitionL '%' H.data with ⟨pre, f, zone⟩
      rw [hpp] at hfound hsplit hnopre
      simp only [] at hfound hsplit hnopre ⊢
      rw [hfound]
      simp only [if_pos rfl]
      have hHl2 := hHl
      rw [hsplit, List.map_append, List.map_cons] at hHl2
      have hlow : pyLowerChar '%' = '%' := by decide
      rw [hlow] at hHl2
      obtain ⟨hpre, _⟩ := List.append_inj hHl2 (by rw [List.length_map])
      rw [hpre, ← hsplit]
      cases H
      rfl
    · have hnf : (pyPartitionL '%' H.data).2.1 = false := by
        rw [← Bool.not_eq_true, pyPartitionL_found_iff]
        exact hpct
      obtain ⟨h1, _, _⟩ := (pyPartitionL_spec '%' H.data).2 hnf
      rcases hpp : pyPartitionL '%' H.data with ⟨pre, f, zone⟩
      rw [hpp] at h1 hnf
      simp only [] at h1 hnf ⊢
      rw [hnf]
      simp only [Bool.false_eq_true, if_false]
      rw [h1, hHl]

theorem hostport_rebuild (H : String) (port : Option Nat)
    (hH1 : ('@' : Char) ∉ H.data) (hH2 : (':' : Char) ∉ H.data)
    (hH3 : (('[' : Char)) ∉ H.data)
    (hHl : H.data.map pyLowerChar = H.data)
    (hple : ∀ pp, port = some pp → pp ≤ 65535) :
    ∃ port2 : Option Nat,
      pyPortE (H ++ normPortStr port) = some port2 ∧ normPortStr port2 = normPortStr port ∧
      pyHostname (H ++ normPortStr port) = H := by
  have hdigits : ∀ pp : Nat, (('@' : Char) ∉ natToDigits pp) ∧ ((':' : Char) ∉ natToDigits pp) ∧
      (('[' : Char) ∉ natToDigits pp) := by
    intro pp
    refine ⟨?_, ?_, ?_⟩
    · intro hm
      have := natToDigits_mem_range pp _ hm
      have h64 : ('@' : Char).toNat = 64 := by decide
      omega
    · intro hm
      have := natToDigits_mem_range pp _ hm
      have h58 : (':' : Char).toNat = 58 := by decide
      omega
    · intro hm
      have := natToDigits_mem_range pp _ hm
      have h91 : (('[' : Char)).toNat = 91 := by decide
      omega
  have hmain : ∀ pt : List Char,
      (pt = [] ∨ ∃ ds, pt = ':' :: ds ∧ (('@' : Char) ∉ ds) ∧ ((':' : Char) ∉ ds) ∧
        (('[' : Char) ∉ ds)) →
      pyHostname ⟨H.data ++ pt⟩ = H :=
    fun pt hpt => pyHostname_rebuild H pt hH1 hH2 hH3 hHl hpt
  cases port with
  | none =>
    have happ0 : H ++ "" = (⟨H.data ++ []⟩ : String) := by
      cases H
      rfl
    refine ⟨none, ?_, rfl, ?_⟩
    · show pyPortE (H ++ "") = some none
      rw [happ0]
      simp only [pyPortE]
      rw [pyHostinfo_rebuild H [] hH1 hH2 hH3 (Or.inl rfl)]
      rfl
    · show pyHostname (H ++ "") = H
      rw [happ0]
      exact hmain [] (Or.inl rfl)
  | some pp =>
    by_cases hk : pp ≠ 0 ∧ pp ≠ 80 ∧ pp ≠ 443
    · have hpt : normPortStr (some pp) = ":" ++ (⟨natToDigits pp⟩ : String) := by
        simp only [normPortStr]
        rw [if_pos hk]
      have hptd : (normPortStr (some pp)).data = ':' :: natToDigits pp := by
        rw [hpt]
        rfl
      have hshape : (normPortStr (some pp)).data = [] ∨
          ∃ ds, (normPortStr (some pp)).data = ':' :: ds ∧ (('@' : Char) ∉ ds) ∧
            ((':' : Char) ∉ ds) ∧ (('[' : Char) ∉ ds) :=
        Or.inr ⟨natToDigits pp, hptd, (hdigits pp).1, (hdigits pp).2.1, (hdigits pp).2.2⟩
      have happ : H ++ normPortStr (some pp) = (⟨H.data ++ (normPortStr (some pp)).data⟩ : String) := by
        cases H
        rfl
      refine ⟨some pp, ?_, rfl, ?_⟩
      · rw [happ]
        simp only [pyPortE]
        rw [pyHostinfo_rebuild H _ hH1 hH2 hH3 hshape, hptd]
        simp only [List.tail_cons]
        rw [if_neg (by simp [natToDigits_ne_nil pp]), parseDigits_natToDigits]
        simp only []
        rw [if_pos (hple pp rfl)]
      · rw [happ]
        exact hmain _ hshape
    · have hpt0 : normPortStr (some pp) = "" := by
        simp only [normPortStr]
        rw [if_neg hk]
      have happ0 : H ++ "" = (⟨H.data ++ []⟩ : String) := by
        cases H
        rfl
      refine ⟨none, ?_, ?_, ?_⟩
      · rw [hpt0]
        show pyPortE (H ++ "") = some none
        rw [happ0]
        simp only [pyPortE]
        rw [pyHostinfo_rebuild H [] hH1 hH2 hH3 (Or.inl rfl)]
        rfl
      · rw [hpt0]
        rfl
      · rw [hpt0]
        rw [happ0]
        exact hmain [] (Or.inl rfl)

end AIC

namespace AIC

theorem schemeChar_good (c : Char) (h : schemeChar c = true) :
    c ≠ '\t' ∧ c ≠ '\r' ∧ c ≠ '\n' := by
  rw [schemeChar_iff] at h
  refine ⟨?_, ?_, ?_⟩
  · intro he
    rw [char_eq_lit c _ 9 (by decide)] at he
    omega
  · intro he
    rw [char_eq_lit c _ 13 (by decide)] at he
    omega
  · intro he
    rw [char_eq_lit c _ 10 (by decide)] at he
    omega

theorem alpha_good (c : Char) (h : c.isAlpha = true) :
    charIn pyWhitespace c = false ∧ 33 ≤ c.toNat ∧
      c ≠ '\t' ∧ c ≠ '\r' ∧ c ≠ '\n' := by
  rw [isAlpha_iff] at h
  refine ⟨not_ws_of_range c (by omega) (by omega), by omega, ?_, ?_, ?_⟩
  · intro he
    rw [char_eq_lit c _ 9 (by decide)] at he
    omega
  · intro he
    rw [char_eq_lit c _ 13 (by decide)] at he
    omega
  · intro he
    rw [char_eq_lit c _ 10 (by decide)] at he
    omega

theorem range_good (c : Char) (h1 : 33 ≤ c.toNat) (h2 : c.toNat ≤ 126) :
    c ≠ '\t' ∧ c ≠ '\r' ∧ c ≠ '\n' := by
  refine ⟨?_, ?_, ?_⟩
  · intro he
    rw [char_eq_lit c _ 9 (by decide)] at he
    omega
  · intro he
    rw [char_eq_lit c _ 13 (by decide)] at he
    omega
  · intro he
    rw [char_eq_lit c _ 10 (by decide)] at he
    omega

theorem pyStrip_id_of (v : String) (hd2 : Char) (rest : List Char) (hv : v.data = hd2 :: rest)
    (hhd : charIn pyWhitespace hd2 = false)
    (hlast : ∀ c, v.data.getLast? = some c → charIn pyWhitespace c = false) :
    pyStrip v = v := by
  have h1 : pyLstripL pyWhitespace v.data = v.data := by
    rw [hv]
    exact pyLstripL_no_strip _ _ _ hhd
  have h2 : pyRstripL pyWhitespace v.data = v.data := by
    rcases hgl : v.data.getLast? with _ | c
    · rw [List.getLast?_eq_none_iff] at hgl
      rw [hgl] at hv
      cases hv
    · exact pyRstripL_no_strip _ _ _ hgl (hlast c hgl)
  unfold pyStrip pyStripL
  rw [h1, h2]

theorem clean_id_of (l : List Char) (hd2 : Char) (rest : List Char) (hl : l = hd2 :: rest)
    (hhd : 33 ≤ hd2.toNat) (hall : ∀ c ∈ l, c ≠ '\t' ∧ c ≠ '\r' ∧ c ≠ '\n') :
    removeUnsafe (lstripC0 l) = l := by
  rw [hl, lstripC0_no_strip _ _ hhd, ← hl, removeUnsafe_eq_self l hall]

end AIC

namespace AIC

theorem urlsplitE_canonical_noNetloc (S path Q : String)
    (hd2 : Char) (tl : List Char) (hS : S.data = hd2 :: tl)
    (hhd : hd2.isAlpha = true) (htl : tl.all schemeChar = true)
    (hSl : S.data.map pyLowerChar = S.data)
    (hpathNE : path.data ≠ [])
    (hpathC : ∀ c ∈ path.data, c ≠ '\t' ∧ c ≠ '\r' ∧ c ≠ '\n' ∧ c ≠ '?' ∧ c ≠ '#')
    (htake2 : path.data.take 2 ≠ ['/', '/'])
    (hQc : ∀ c ∈ Q.data, 33 ≤ c.toNat ∧ c.toNat ≤ 126 ∧ c.toNat ≠ 35) :
    urlsplitE ⟨S.data ++ ':' :: (path.data ++ (if Q.data = [] then [] else '?' :: Q.data))⟩
      = some ⟨S, "", path, Q, ""⟩ := by
  have hq35 : ∀ c ∈ Q.data, c ≠ '#' := by
    intro c hc
    intro he
    have := (hQc c hc).2.2
    rw [char_eq_iff_toNat] at he
    have h35 : ('#' : Char).toNat = 35 := by decide
    omega
  have hbody : ∀ c ∈ path.data ++ (if Q.data = [] then [] else '?' :: Q.data),
      c ≠ '\t' ∧ c ≠ '\r' ∧ c ≠ '\n' := by
    intro c hc
    rcases List.mem_append.mp hc with hc | hc
    · obtain ⟨h1, h2, h3, _, _⟩ := hpathC c hc
      exact ⟨h1, h2, h3⟩
    · by_cases hQ : Q.data = []
      · rw [if_pos hQ] at hc
        exact absurd hc (List.not_mem_nil c)
      · rw [if_neg hQ] at hc
        rcases List.mem_cons.mp hc with rfl | hc
        · exact by decide
        · obtain ⟨h1, h2, _⟩ := hQc c hc
          exact range_good c h1 h2
  have hclean : removeUnsafe (lstripC0
      (S.data ++ ':' :: (path.data ++ (if Q.data = [] then [] else '?' :: Q.data))))
      = S.data ++ ':' :: (path.data ++ (if Q.data = [] then [] else '?' :: Q.data)) := by
    apply clean_id_of _ hd2 (tl ++ ':' :: (path.data ++ _))
    · rw [hS, List.cons_append]
    · exact (alpha_good hd2 hhd).2.1
    · intro c hc
      rcases List.mem_append.mp hc with hc | hc
      · rw [hS] at hc
        rcases List.mem_cons.mp hc with rfl | hc
        · obtain ⟨_, _, h3, h4, h5⟩ := alpha_good c hhd
          exact ⟨h3, h4, h5⟩
        · exact schemeChar_good c (List.all_eq_true.mp htl c hc)
      · rcases List.mem_cons.mp hc with rfl | hc
        · exact by decide
        · exact hbody c hc
  have hns : (':' :: (path.data ++ (if Q.data = [] then [] else '?' :: Q.data))) =
      ':' :: (path.data ++ (if Q.data = [] then [] else '?' :: Q.data)) := rfl
  simp only [urlsplitE]
  rw [hclean]
  rw [splitSchemeL_canonical S _ hd2 tl hS hhd htl hSl]
  simp only []
  have htk : (path.data ++ (if Q.data = [] then [] else '?' :: Q.data)).take 2 ≠ ['/', '/'] := by
    match hp : path.data, hpathNE with
    | [c], _ =>
      by_cases hQ : Q.data = []
      · rw [if_pos hQ]
        simp only [List.append_nil]
        intro hcon
        cases hcon
      · rw [if_neg hQ]
        simp only [List.singleton_append, List.take_succ_cons, List.take_succ_cons,
          List.take_zero]
        intro hcon
        injection hcon with h1 h2
        injection h2 with h3 h4
        exact absurd h3 (by decide)
    | c1 :: c2 :: rest, _ =>
      rw [hp] at htake2
      simp only [List.cons_append]
      intro hcon
      apply htake2
      simp only [List.take_succ_cons, List.take_zero] at hcon ⊢
      injection hcon with h1 h2
      injection h2 with h3 _
      rw [h1, h3]
  rw [if_neg htk]
  simp only []
  rw [if_pos (show bracketCheckOk [] = true from rfl)]
  have hnp : ('#' : Char) ∉ path.data ++ (if Q.data = [] then [] else '?' :: Q.data) := by
    intro hm
    rcases List.mem_append.mp hm with hm | hm
    · exact (hpathC _ hm).2.2.2.2 rfl
    · by_cases hQ : Q.data = []
      · rw [if_pos hQ] at hm
        exact absurd hm (List.not_mem_nil _)
      · rw [if_neg hQ] at hm
        rcases List.mem_cons.mp hm with he | hm
        · cases he
        · exact hq35 _ hm rfl
  rw [pyPartitionL_not_found '#' _ hnp]
  simp only []
  have hnq : ('?' : Char) ∉ path.data := fun hm => (hpathC _ hm).2.2.2.1 rfl
  by_cases hQ : Q.data = []
  · rw [if_pos hQ]
    rw [List.append_nil, pyPartitionL_not_found '?' _ hnq]
    simp only []
    have hQe : Q = "" := by
      cases Q
      simp only [] at hQ
      rw [hQ]
    rw [hQe]
  · rw [if_neg hQ]
    rw [pyPartitionL_found '?' _ _ hnq]

end AIC

namespace AIC

theorem string_ext (a b : String) (h : a.data = b.data) : a = b := by
  cases a
  cases b
  simp only [] at h
  rw [h]

theorem getLast?_skip (x : Char) (l : List Char) (h : l ≠ []) :
    (x :: l).getLast? = l.getLast? := by
  rw [show x :: l = [x] ++ l from rfl]
  exact List.getLast?_append_of_ne_nil [x] h

theorem normalize_canonical_noNetloc (S path Q : String)
    (hd2 : Char) (tl : List Char) (hS : S.data = hd2 :: tl)
    (hhd : hd2.isAlpha = true) (htl : tl.all schemeChar = true)
    (hSl : S.data.map pyLowerChar = S.data)
    (hnun : uses_netloc.contains S = false)
    (hpathNE : path.data ≠ [])
    (hpathC : ∀ c ∈ path.data, c ≠ '\t' ∧ c ≠ '\r' ∧ c ≠ '\n' ∧ c ≠ '?' ∧ c ≠ '#')
    (hpathRS : path = "/" ∨ pyRstripL ['/'] path.data = path.data)
    (hseg : (lastSegment path.data).contains ';' = false)
    (htake2 : path.data.take 2 ≠ ['/', '/'])
    (hlastws : Q.data ≠ [] ∨ ∀ c, path.data.getLast? = some c → charIn pyWhitespace c = false)
    (hQc : ∀ c ∈ Q.data, 33 ≤ c.toNat ∧ c.toNat ≤ 126 ∧ c.toNat ≠ 35)
    (hQidem : urlencodeSeq (normalizeQueryGroups Q) = Q) :
    normalize_url (urlunparse S "" path "" Q "") = some (urlunparse S "" path "" Q "") := by
  have hSne : S ≠ "" := by
    intro h
    rw [h] at hS
    cases hS
  have hveq : urlunparse S "" path "" Q ""
      = (⟨S.data ++ ':' :: (path.data ++ (if Q.data = [] then [] else '?' :: Q.data))⟩ : String) := by
    apply string_ext
    unfold urlunparse urlunsplit
    rw [if_neg (by simp)]
    by_cases hQ : Q.data = []
    · have hQe : Q = "" := string_ext Q "" (by rw [hQ])
      rw [if_neg (by rw [hQe]; simp)]
      rw [if_pos hSne]
      rw [if_neg ?hcond]
      case hcond =>
        intro hor
        rcases hor with h | ⟨_, hc, _⟩
        · exact h rfl
        · rw [hnun] at hc
          cases hc
      rw [if_neg (by simp)]
      rw [if_pos hQ]
      rw [string_append_data, string_append_data]
      simp only [List.append_assoc, List.singleton_append, List.append_nil]
    · have hQne : Q ≠ "" := by
        intro h
        rw [h] at hQ
        exact hQ rfl
      rw [if_pos hQne]
      rw [if_pos hSne]
      rw [if_neg ?hcond2]
      case hcond2 =>
        intro hor
        rcases hor with h | ⟨_, hc, _⟩
        · exact h rfl
        · rw [hnun] at hc
          cases hc
      rw [if_neg (by simp)]
      rw [if_neg hQ]
      rw [string_append_data, string_append_data, string_append_data, string_append_data]
      simp [List.append_assoc, List.singleton_append]
  have hbodylast : ∀ c, (urlunparse S "" path "" Q "").data.getLast? = some c →
      charIn pyWhitespace c = false := by
    intro c hc
    rw [hveq] at hc
    simp only [] at hc
    by_cases hQ : Q.data = []
    · rw [if_pos hQ, List.append_nil] at hc
      rw [List.getLast?_append_of_ne_nil S.data (by simp [hpathNE]), getLast?_skip _ _ hpathNE] at hc
      rcases hlastws with h | h
      · exact absurd hQ h
      · exact h c hc
    · rw [if_neg hQ] at hc
      have hne2 : path.data ++ '?' :: Q.data ≠ [] := by simp
      rw [List.getLast?_append_of_ne_nil S.data (by simp), getLast?_skip _ _ hne2,
        List.getLast?_append_of_ne_nil path.data (by simp), getLast?_skip _ _ hQ] at hc
      have hcm : c ∈ Q.data := List.mem_of_mem_getLast? hc
      obtain ⟨h1, h2, _⟩ := hQc c hcm
      exact not_ws_of_range c h1 h2
  have hstrip : pyStrip (urlunparse S "" path "" Q "") = urlunparse S "" path "" Q "" := by
    apply pyStrip_id_of _ hd2 (tl ++ ':' :: (path.data ++ (if Q.data = [] then [] else '?' :: Q.data)))
    · rw [hveq]
      simp only []
      rw [hS, List.cons_append]
    · exact (alpha_good hd2 hhd).1
    · exact hbodylast
  have hparse : urlparseE (pyStrip (urlunparse S "" path "" Q ""))
      = some ⟨S, "", path, "", Q, ""⟩ := by
    rw [hstrip, hveq]
    unfold urlparseE
    rw [urlsplitE_canonical_noNetloc S path Q hd2 tl hS hhd htl hSl hpathNE hpathC htake2 hQc]
    simp only [Option.map_some']
    by_cases hup : uses_params.contains S = true
    · rw [if_pos hup]
      rw [splitparamsL_clean path.data hseg]
    · rw [if_neg (by simpa using hup)]
  show (match urlparseE (pyStrip (urlunparse S "" path "" Q "")) with
    | none => none
    | some parsed =>
      match pyPortE parsed.netloc with
      | none => none
      | some port =>
        some (urlunparse (normScheme parsed) (normHost parsed ++ normPortStr port)
          (normPath parsed) "" (normQueryStr parsed) "")) = _
  rw [hparse]
  simp only []
  have hport0 : pyPortE "" = some none := rfl
  rw [hport0]
  simp only []
  have hnsch : normScheme ⟨S, "", path, "", Q, ""⟩ = S := by
    unfold normScheme
    have hl : pyLower S = S := by
      apply string_ext
      exact hSl
    simp only []
    rw [hl, if_neg hSne]
  have hnh : normHost ⟨S, "", path, "", Q, ""⟩ = "" := rfl
  have hnp : normPath ⟨S, "", path, "", Q, ""⟩ = path := by
    unfold normPath
    simp only []
    rcases hpathRS with hp | hp
    · rw [hp]
      rfl
    · have hr : pyRstrip ['/'] path = path := by
        apply string_ext
        exact hp
      rw [hr, if_neg ?hne]
      case hne =>
        intro h
        rw [h] at hpathNE
        exact hpathNE rfl
  have hnq : normQueryStr ⟨S, "", path, "", Q, ""⟩ = Q := by
    unfold normQueryStr
    simp only []
    exact hQidem
  rw [hnsch, hnh, hnp, hnq]
  rfl

end AIC

namespace AIC

theorem urlsplitE_canonical_netloc (S N pstr Q : String)
    (hd2 : Char) (tl : List Char) (hS : S.data = hd2 :: tl)
    (hhd : hd2.isAlpha = true) (htl : tl.all schemeChar = true)
    (hSl : S.data.map pyLowerChar = S.data)
    (hNc : ∀ c ∈ N.data, c ≠ '\t' ∧ c ≠ '\r' ∧ c ≠ '\n' ∧ c ≠ '/' ∧ c ≠ '?' ∧ c ≠ '#' ∧
      c ≠ '[' ∧ c ≠ ']')
    (pr : List Char) (hp : pstr.data = '/' :: pr)
    (hpC : ∀ c ∈ pstr.data, c ≠ '\t' ∧ c ≠ '\r' ∧ c ≠ '\n' ∧ c ≠ '?' ∧ c ≠ '#')
    (hQc : ∀ c ∈ Q.data, 33 ≤ c.toNat ∧ c.toNat ≤ 126 ∧ c.toNat ≠ 35) :
    urlsplitE ⟨S.data ++ ':' :: '/' :: '/' ::
        (N.data ++ (pstr.data ++ (if Q.data = [] then [] else '?' :: Q.data)))⟩
      = some ⟨S, N, pstr, Q, ""⟩ := by
  have hq35 : ∀ c ∈ Q.data, c ≠ '#' := by
    intro c hc he
    have := (hQc c hc).2.2
    rw [char_eq_iff_toNat] at he
    have h35 : ('#' : Char).toNat = 35 := by decide
    omega
  have hqgood : ∀ c ∈ (if Q.data = [] then [] else '?' :: Q.data),
      c ≠ '\t' ∧ c ≠ '\r' ∧ c ≠ '\n' := by
    intro c hc
    by_cases hQ : Q.data = []
    · rw [if_pos hQ] at hc
      exact absurd hc (List.not_mem_nil c)
    · rw [if_neg hQ] at hc
      rcases List.mem_cons.mp hc with rfl | hc
      · exact by decide
      · obtain ⟨h1, h2, _⟩ := hQc c hc
        exact range_good c h1 h2
  have hclean : removeUnsafe (lstripC0 (S.data ++ ':' :: '/' :: '/' ::
      (N.data ++ (pstr.data ++ (if Q.data = [] then [] else '?' :: Q.data)))))
      = S.data ++ ':' :: '/' :: '/' ::
        (N.data ++ (pstr.data ++ (if Q.data = [] then [] else '?' :: Q.data))) := by
    apply clean_id_of _ hd2 (tl ++ ':' :: '/' :: '/' :: (N.data ++ (pstr.data ++ _)))
    · rw [hS, List.cons_append]
    · exact (alpha_good hd2 hhd).2.1
    · intro c hc
      rcases List.mem_append.mp hc with hc | hc
      · rw [hS] at hc
        rcases List.mem_cons.mp hc with rfl | hc
        · obtain ⟨_, _, h3, h4, h5⟩ := alpha_good c hhd
          exact ⟨h3, h4, h5⟩
        · exact schemeChar_good c (List.all_eq_true.mp htl c hc)
      · rcases List.mem_cons.mp hc with rfl | hc
        · exact by decide
        · rcases List.mem_cons.mp hc with rfl | hc
          · exact by decide
          · rcases List.mem_cons.mp hc with rfl | hc
            · exact by decide
            · rcases List.mem_append.mp hc with hc | hc
              · obtain ⟨h1, h2, h3, _⟩ := hNc c hc
                exact ⟨h1, h2, h3⟩
              · rcases List.mem_append.mp hc with hc | hc
                · obtain ⟨h1, h2, h3, _⟩ := hpC c hc
                  exact ⟨h1, h2, h3⟩
                · exact hqgood c hc
  simp only [urlsplitE]
  rw [hclean]
  rw [splitSchemeL_canonical S _ hd2 tl hS hhd htl hSl]
  simp only []
  have htk : List.take 2 ('/' :: '/' ::
      (N.data ++ (pstr.data ++ (if Q.data = [] then [] else '?' :: Q.data)))) = ['/', '/'] := rfl
  rw [if_pos htk]
  have hdrop : ('/' :: '/' ::
      (N.data ++ (pstr.data ++ (if Q.data = [] then [] else '?' :: Q.data)))).drop 2
      = N.data ++ (pstr.data ++ (if Q.data = [] then [] else '?' :: Q.data)) := rfl
  rw [hdrop]
  rw [splitnetlocL_append N.data _ ?hano ?hbshape]
  case hano =>
    intro c hc
    obtain ⟨_, _, _, h4, h5, h6, _, _⟩ := hNc c hc
    exact ⟨h4, h5, h6⟩
  case hbshape =>
    right
    refine ⟨'/', pr ++ (if Q.data = [] then [] else '?' :: Q.data), ?_, Or.inl rfl⟩
    rw [hp, List.cons_append]
  simp only []
  rw [if_pos ?hbr]
  case hbr =>
    have h1 : N.data.contains '[' = false :=
      contains_false_of_not_mem _ _ (fun hm => (hNc _ hm).2.2.2.2.2.2.1 rfl)
    have h2 : N.data.contains ']' = false :=
      contains_false_of_not_mem _ _ (fun hm => (hNc _ hm).2.2.2.2.2.2.2 rfl)
    unfold bracketCheckOk
    rw [h1, h2]
    rfl
  have hnp : ('#' : Char) ∉ pstr.data ++ (if Q.data = [] then [] else '?' :: Q.data) := by
    intro hm
    rcases List.mem_append.mp hm with hm | hm
    · exact (hpC _ hm).2.2.2.2 rfl
    · by_cases hQ : Q.data = []
      · rw [if_pos hQ] at hm
        exact absurd hm (List.not_mem_nil _)
      · rw [if_neg hQ] at hm
        rcases List.mem_cons.mp hm with he | hm
        · cases he
        · exact hq35 _ hm rfl
  rw [pyPartitionL_not_found '#' _ hnp]
  simp only []
  have hnq : ('?' : Char) ∉ pstr.data := fun hm => (hpC _ hm).2.2.2.1 rfl
  by_cases hQ : Q.data = []
  · rw [if_pos hQ]
    rw [List.append_nil, pyPartitionL_not_found '?' _ hnq]
    simp only []
    have hQe : Q = "" := string_ext Q "" (by rw [hQ])
    rw [hQe]
  · rw [if_neg hQ]
    rw [pyPartitionL_found '?' _ _ hnq]

theorem urlunparse_netloc_data (S N pp Q : String) (hSne : S ≠ "")
    (hcondP : N ≠ "" ∨ (S ≠ "" ∧ uses_netloc.contains S = true ∧ pp.data.take 2 ≠ ['/', '/'])) :
    urlunparse S N pp "" Q ""
      = (⟨S.data ++ ':' :: '/' :: '/' :: (N.data ++
          ((if pp ≠ "" ∧ pp.data.take 1 ≠ ['/'] then "/" ++ pp else pp).data
            ++ (if Q.data = [] then [] else '?' :: Q.data)))⟩ : String) := by
  apply string_ext
  have hcolon : (":" : String).data = [':'] := rfl
  have hslash2 : ("//" : String).data = ['/', '/'] := rfl
  have hqm : ("?" : String).data = ['?'] := rfl
  have hslash1 : ("/" : String).data = ['/'] := rfl
  unfold urlunparse urlunsplit
  rw [if_neg (by simp)]
  by_cases hQ : Q.data = []
  · have hQe : Q = "" := string_ext Q "" (by rw [hQ])
    rw [if_neg (by rw [hQe]; simp)]
    rw [if_pos hSne]
    rw [if_pos ?hc1]
    case hc1 =>
      rw [if_neg (show ¬(("" : String) ≠ "") by simp)]
      exact hcondP
    rw [if_neg (show ¬(("" : String) ≠ "") by simp)]
    rw [if_pos hQ]
    rw [string_append_data, string_append_data, string_append_data, string_append_data]
    rw [hcolon, hslash2]
    simp only [List.append_assoc, List.cons_append, List.singleton_append, List.nil_append,
      List.append_nil]
  · have hQne : Q ≠ "" := by
      intro h
      rw [h] at hQ
      exact hQ rfl
    rw [if_pos hQne]
    rw [if_pos hSne]
    rw [if_pos ?hc2]
    case hc2 =>
      rw [if_neg (show ¬(("" : String) ≠ "") by simp)]
      exact hcondP
    rw [if_neg (show ¬(("" : String) ≠ "") by simp)]
    rw [if_neg hQ]
    rw [string_append_data, string_append_data, string_append_data, string_append_data,
      string_append_data, string_append_data]
    rw [hcolon, hslash2, hqm]
    simp only [List.append_assoc, List.cons_append, List.singleton_append, List.nil_append,
      List.append_nil]

end AIC

namespace AIC

theorem normalize_canonical_netloc (S N path Q : String) (port2 : Option Nat)
    (hd2 : Char) (tl : List Char) (hS : S.data = hd2 :: tl)
    (hhd : hd2.isAlpha = true) (htl : tl.all schemeChar = true)
    (hSl : S.data.map pyLowerChar = S.data)
    (hNc : ∀ c ∈ N.data, c ≠ '\t' ∧ c ≠ '\r' ∧ c ≠ '\n' ∧ c ≠ '/' ∧ c ≠ '?' ∧ c ≠ '#' ∧
      c ≠ '[' ∧ c ≠ ']')
    (hPortN : pyPortE N = some port2)
    (hHostN : ∀ P2 : ParseResult, P2.netloc = N → normHost P2 ++ normPortStr port2 = N)
    (hpathNE : path.data ≠ [])
    (hpathC : ∀ c ∈ path.data, c ≠ '\t' ∧ c ≠ '\r' ∧ c ≠ '\n' ∧ c ≠ '?' ∧ c ≠ '#')
    (hpathRS : path = "/" ∨ pyRstripL ['/'] path.data = path.data)
    (hseg : (lastSegment path.data).contains ';' = false)
    (hbranch2 : ¬(N = "" ∧ path.data.take 2 = ['/', '/']))
    (hlastws : Q.data ≠ [] ∨ ∀ c, path.data.getLast? = some c → charIn pyWhitespace c = false)
    (hQc : ∀ c ∈ Q.data, 33 ≤ c.toNat ∧ c.toNat ≤ 126 ∧ c.toNat ≠ 35)
    (hQidem : urlencodeSeq (normalizeQueryGroups Q) = Q)
    (hcond : N ≠ "" ∨ (S ≠ "" ∧ uses_netloc.contains S = true ∧ path.data.take 2 ≠ ['/', '/'])) :
    normalize_url (urlunparse S N path "" Q "") = some (urlunparse S N path "" Q "") := by
  have hSne : S ≠ "" := by
    intro h
    rw [h] at hS
    cases hS
  have hpathne : path ≠ "" := by
    intro h
    rw [h] at hpathNE
    exact hpathNE rfl
  set pstr := if path ≠ "" ∧ path.data.take 1 ≠ ['/'] then "/" ++ path else path with hpstr
  have hcases : (path.data.take 1 = ['/'] ∧ pstr = path) ∨
      (path.data.take 1 ≠ ['/'] ∧ pstr.data = '/' :: path.data) := by
    by_cases ht1 : path.data.take 1 = ['/']
    · left
      refine ⟨ht1, ?_⟩
      rw [hpstr, if_neg (by intro hc; exact hc.2 ht1)]
    · right
      refine ⟨ht1, ?_⟩
      rw [hpstr, if_pos ⟨hpathne, ht1⟩]
      rfl
  have hpd : ∃ pr, pstr.data = '/' :: pr := by
    rcases hcases with ⟨ht1, hpe⟩ | ⟨ht1, hpe⟩
    · rw [hpe]
      match hp2 : path.data, hpathNE with
      | c :: rest, _ =>
        rw [hp2] at ht1
        simp only [List.take_succ_cons, List.take_zero] at ht1
        injection ht1 with hc _
        exact ⟨rest, by rw [hc]⟩
    · exact ⟨path.data, hpe⟩
  obtain ⟨pr, hpd⟩ := hpd
  have hpdne : pstr.data ≠ [] := by
    rw [hpd]
    simp
  have hpC : ∀ c ∈ pstr.data, c ≠ '\t' ∧ c ≠ '\r' ∧ c ≠ '\n' ∧ c ≠ '?' ∧ c ≠ '#' := by
    rcases hcases with ⟨_, hpe⟩ | ⟨_, hpe⟩
    · rw [hpe]
      exact hpathC
    · rw [hpe]
      intro c hc
      rcases List.mem_cons.mp hc with rfl | hc
      · exact by decide
      · exact hpathC c hc
  have hlastEq : pstr.data.getLast? = path.data.getLast? := by
    rcases hcases with ⟨_, hpe⟩ | ⟨_, hpe⟩
    · rw [hpe]
    · rw [hpe, getLast?_skip _ _ hpathNE]
  have hsegEq : lastSegment pstr.data = lastSegment path.data := by
    rcases hcases with ⟨_, hpe⟩ | ⟨_, hpe⟩
    · rw [hpe]
    · rw [hpe, lastSegment_slash_cons]
  have hpRS : pstr = "/" ∨ pyRstripL ['/'] pstr.data = pstr.data := by
    rcases hpathRS with hp1 | hp1
    · left
      rcases hcases with ⟨_, hpe⟩ | ⟨ht1, hpe⟩
      · rw [hpe, hp1]
      · rw [hp1] at ht1
        exact absurd rfl ht1
    · right
      rcases hcases with ⟨_, hpe⟩ | ⟨_, hpe⟩
      · rw [hpe]
        exact hp1
      · rw [hpe]
        exact pyRstripL_cons_keep _ _ _ hp1 hpathNE
  have htake1 : pstr.data.take 1 = ['/'] := by
    rw [hpd]
    rfl
  have hcondP : N ≠ "" ∨ (S ≠ "" ∧ uses_netloc.contains S = true ∧
      pstr.data.take 2 ≠ ['/', '/']) := by
    rcases hcond with hN | ⟨h1, h2, _⟩
    · exact Or.inl hN
    · by_cases hN : N = ""
      · right
        refine ⟨h1, h2, ?_⟩
        have hpt2 : path.data.take 2 ≠ ['/', '/'] := by
          intro hc
          exact hbranch2 ⟨hN, hc⟩
        rcases hcases with ⟨_, hpe⟩ | ⟨ht1, hpe⟩
        · rw [hpe]
          exact hpt2
        · rw [hpe]
          match hp2 : path.data, hpathNE with
          | c :: rest, _ =>
            have hcne : c ≠ '/' := by
              rw [hp2] at ht1
              intro hce
              apply ht1
              simp only [List.take_succ_cons, List.take_zero]
              rw [hce]
            simp only [List.take_succ_cons, List.take_zero]
            intro hcon
            injection hcon with _ h2c
            injection h2c with h3c _
            exact hcne h3c
      · exact Or.inl hN
  have hveq : urlunparse S N path "" Q ""
      = (⟨S.data ++ ':' :: '/' :: '/' :: (N.data ++
          (pstr.data ++ (if Q.data = [] then [] else '?' :: Q.data)))⟩ : String) := by
    rw [urlunparse_netloc_data S N path Q hSne hcond, ← hpstr]
  have hveq2 : urlunparse S N pstr "" Q ""
      = (⟨S.data ++ ':' :: '/' :: '/' :: (N.data ++
          (pstr.data ++ (if Q.data = [] then [] else '?' :: Q.data)))⟩ : String) := by
    rw [urlunparse_netloc_data S N pstr Q hSne hcondP]
    have hpp : (if pstr ≠ "" ∧ pstr.data.take 1 ≠ ['/'] then "/" ++ pstr else pstr) = pstr := by
      rw [if_neg (by intro hc; exact hc.2 htake1)]
    rw [hpp]
  have hbodylast : ∀ c, (urlunparse S N path "" Q "").data.getLast? = some c →
      charIn pyWhitespace c = false := by
    intro c hc
    rw [hveq] at hc
    simp only [] at hc
    by_cases hQ : Q.data = []
    · rw [if_pos hQ, List.append_nil] at hc
      rw [List.getLast?_append_of_ne_nil S.data (by simp),
        getLast?_skip _ _ (by simp), getLast?_skip _ _ (by simp),
        getLast?_skip _ _ (by simp [hpdne]),
        List.getLast?_append_of_ne_nil N.data hpdne, hlastEq] at hc
      rcases hlastws with h | h
      · exact absurd hQ h
      · exact h c hc
    · rw [if_neg hQ] at hc
      have hne3 : pstr.data ++ '?' :: Q.data ≠ [] := by simp
      rw [List.getLast?_append_of_ne_nil S.data (by simp),
        getLast?_skip _ _ (by simp), getLast?_skip _ _ (by simp),
        getLast?_skip _ _ (by simp),
        List.getLast?_append_of_ne_nil N.data hne3,
        List.getLast?_append_of_ne_nil pstr.data (by simp),
        getLast?_skip _ _ hQ] at hc
      have hcm : c ∈ Q.data := List.mem_of_mem_getLast? hc
      obtain ⟨h1, h2, _⟩ := hQc c hcm
      exact not_ws_of_range c h1 h2
  have hstrip : pyStrip (urlunparse S N path "" Q "") = urlunparse S N path "" Q "" := by
    apply pyStrip_id_of _ hd2
      (tl ++ ':' :: '/' :: '/' :: (N.data ++ (pstr.data ++ (if Q.data = [] then [] else '?' :: Q.data))))
    · rw [hveq]
      simp only []
      rw [hS, List.cons_append]
    · exact (alpha_good hd2 hhd).1
    · exact hbodylast
  have hparse : urlparseE (pyStrip (urlunparse S N path "" Q ""))
      = some ⟨S, N, pstr, "", Q, ""⟩ := by
    rw [hstrip, hveq]
    unfold urlparseE
    rw [urlsplitE_canonical_netloc S N pstr Q hd2 tl hS hhd htl hSl hNc pr hpd hpC hQc]
    simp only [Option.map_some']
    by_cases hup : uses_params.contains S = true
    · rw [if_pos hup]
      rw [splitparamsL_clean pstr.data (by rw [hsegEq]; exact hseg)]
    · rw [if_neg (by simpa using hup)]
  show (match urlparseE (pyStrip (urlunparse S N path "" Q "")) with
    | none => none
    | some parsed =>
      match pyPortE parsed.netloc with
      | none => none
      | some port =>
        some (urlunparse (normScheme parsed) (normHost parsed ++ normPortStr port)
          (normPath parsed) "" (normQueryStr parsed) "")) = _
  rw [hparse]
  simp only []
  rw [hPortN]
  simp only []
  have hnsch : normScheme ⟨S, N, pstr, "", Q, ""⟩ = S := by
    unfold normScheme
    have hl : pyLower S = S := string_ext _ _ hSl
    simp only []
    rw [hl, if_neg hSne]
  have hnh : normHost ⟨S, N, pstr, "", Q, ""⟩ ++ normPortStr port2 = N :=
    hHostN ⟨S, N, pstr, "", Q, ""⟩ rfl
  have hnp : normPath ⟨S, N, pstr, "", Q, ""⟩ = pstr := by
    unfold normPath
    simp only []
    rcases hpRS with hp1 | hp1
    · rw [hp1]
      rfl
    · have hr : pyRstrip ['/'] pstr = pstr := string_ext _ _ hp1
      rw [hr, if_neg ?hne2]
      case hne2 =>
        intro h
        rw [h] at hpdne
        exact hpdne rfl
  have hnq : normQueryStr ⟨S, N, pstr, "", Q, ""⟩ = Q := by
    unfold normQueryStr
    simp only []
    exact hQidem
  rw [hnsch, hnh, hnp, hnq, hveq2, hveq]

end AIC

namespace AIC

theorem removeUnsafe_mem (l : List Char) : ∀ c ∈ removeUnsafe l,
    c ≠ '\t' ∧ c ≠ '\r' ∧ c ≠ '\n' := by
  intro c hc
  unfold removeUnsafe at hc
  have := List.of_mem_filter hc
  simp only [Bool.and_eq_true, decide_eq_true_iff] at this
  exact ⟨this.1.1, this.1.2, this.2⟩

theorem pyPartitionL_fst_subset (c : Char) (l : List Char) :
    ∀ x ∈ (pyPartitionL c l).1, x ∈ l := by
  intro x hx
  by_cases hf : (pyPartitionL c l).2.1 = true
  · obtain ⟨heq, _⟩ := (pyPartitionL_spec c l).1 hf
    rw [heq]
    exact List.mem_append_left _ hx
  · obtain ⟨heq, _, _⟩ := (pyPartitionL_spec c l).2 (Bool.not_eq_true _ ▸ hf)
    rw [← heq]
    exact hx

theorem pyPartitionL_snd_subset (c : Char) (l : List Char) :
    ∀ x ∈ (pyPartitionL c l).2.2, x ∈ l := by
  intro x hx
  by_cases hf : (pyPartitionL c l).2.1 = true
  · obtain ⟨heq, _⟩ := (pyPartitionL_spec c l).1 hf
    rw [heq]
    exact List.mem_append_right _ (List.mem_cons_of_mem _ hx)
  · obtain ⟨_, heq, _⟩ := (pyPartitionL_spec c l).2 (Bool.not_eq_true _ ▸ hf)
    rw [heq] at hx
    exact absurd hx (List.not_mem_nil x)

theorem pyPartitionL_fst_not (c : Char) (l : List Char) : c ∉ (pyPartitionL c l).1 := by
  by_cases hf : (pyPartitionL c l).2.1 = true
  · exact ((pyPartitionL_spec c l).1 hf).2
  · obtain ⟨heq, _, hno⟩ := (pyPartitionL_spec c l).2 (Bool.not_eq_true _ ▸ hf)
    rw [heq]
    exact hno

theorem pyRpartitionL_fst_subset (c : Char) (l : List Char) :
    ∀ x ∈ (pyRpartitionL c l).1, x ∈ l := by
  intro x hx
  by_cases hf : (pyRpartitionL c l).2.1 = true
  · obtain ⟨heq, _⟩ := (pyRpartitionL_spec c l).1 hf
    rw [heq]
    exact List.mem_append_left _ hx
  · obtain ⟨heq, _, _⟩ := (pyRpartitionL_spec c l).2 (Bool.not_eq_true _ ▸ hf)
    rw [← heq]
    exact hx

theorem pyRpartitionL_snd_subset (c : Char) (l : List Char) :
    ∀ x ∈ (pyRpartitionL c l).2.2, x ∈ l := by
  intro x hx
  by_cases hf : (pyRpartitionL c l).2.1 = true
  · obtain ⟨heq, _⟩ := (pyRpartitionL_spec c l).1 hf
    rw [heq]
    exact List.mem_append_right _ (List.mem_cons_of_mem _ hx)
  · obtain ⟨_, heq, _⟩ := (pyRpartitionL_spec c l).2 (Bool.not_eq_true _ ▸ hf)
    rw [heq] at hx
    exact absurd hx (List.not_mem_nil x)

theorem splitnetlocL_spec (l : List Char) :
    (∀ c ∈ (splitnetlocL l).1, c ∈ l ∧ c ≠ '/' ∧ c ≠ '?' ∧ c ≠ '#') ∧
    (∀ c ∈ (splitnetlocL l).2, c ∈ l) := by
  induction l with
  | nil =>
    constructor <;> intro c hc <;> simp [splitnetlocL] at hc
  | cons x rest ih =>
    rw [splitnetlocL]
    by_cases hx : x = '/' ∨ x = '?' ∨ x = '#'
    · rw [if_pos hx]
      constructor
      · intro c hc
        exact absurd hc (List.not_mem_nil c)
      · intro c hc
        exact hc
    · rw [if_neg hx]
      push_neg at hx
      rcases hsp : splitnetlocL rest with ⟨a, b⟩
      rw [hsp] at ih
      simp only [] at ih ⊢
      constructor
      · intro c hc
        rcases List.mem_cons.mp hc with rfl | hc
        · exact ⟨List.mem_cons_self _ _, hx.1, hx.2.1, hx.2.2⟩
        · obtain ⟨hm, hr⟩ := ih.1 c hc
          exact ⟨List.mem_cons_of_mem _ hm, hr⟩
      · intro c hc
        exact List.mem_cons_of_mem _ (ih.2 c hc)

theorem splitparamsL_fst_subset (l : List Char) :
    ∀ c ∈ (splitparamsL l).1, c ∈ l := by
  intro c hc
  unfold splitparamsL at hc
  by_cases hsemi : l.contains ';'
  · rw [if_pos hsemi] at hc
    by_cases hslash : l.contains '/'
    · rw [if_pos hslash] at hc
      rcases hrp : pyRpartitionL '/' l with ⟨a, f, b⟩
      rw [hrp] at hc
      simp only [] at hc
      rcases hpp : pyPartitionL ';' b with ⟨a2, f2, b2⟩
      rw [hpp] at hc
      simp only [] at hc
      by_cases hf2 : f2 = true
      · rw [if_pos hf2] at hc
        simp only [] at hc
        rcases List.mem_append.mp hc with hm | hm
        · have := pyRpartitionL_fst_subset '/' l c
          rw [hrp] at this
          exact this hm
        · rcases List.mem_cons.mp hm with rfl | hm
          · have hfound : (pyRpartitionL '/' l).2.1 = true := by
              rw [pyRpartitionL_found_iff]
              exact List.mem_of_elem_eq_true hslash
            rw [hrp] at hfound
            simp only [] at hfound
            obtain ⟨heq, _⟩ := (pyRpartitionL_spec '/' l).1 (by rw [hrp]; exact hfound)
            rw [hrp] at heq
            simp only [] at heq
            rw [heq]
            exact List.mem_append_right _ (List.mem_cons_self _ _)
          · have h1 : c ∈ b := by
              have := pyPartitionL_fst_subset ';' b c
              rw [hpp] at this
              exact this hm
            have := pyRpartitionL_snd_subset '/' l c
            rw [hrp] at this
            exact this h1
      · rw [if_neg hf2] at hc
        exact hc
    · rw [if_neg hslash] at hc
      rcases hpp : pyPartitionL ';' l with ⟨a2, f2, b2⟩
      rw [hpp] at hc
      simp only [] at hc
      have := pyPartitionL_fst_subset ';' l c
      rw [hpp] at this
      exact this hc
  · rw [if_neg hsemi] at hc
    exact hc

theorem pyRstripL_subset (cs : List Char) : ∀ (l : List Char), ∀ c ∈ pyRstripL cs l, c ∈ l := by
  intro l
  induction l with
  | nil =>
    intro c hc
    exact hc
  | cons x rest ih =>
    intro c hc
    rw [pyRstripL] at hc
    rcases hr : pyRstripL cs rest with _ | ⟨y, ys⟩
    · rw [hr] at hc
      by_cases hx : charIn cs x = true
      · rw [if_pos hx] at hc
        exact absurd hc (List.not_mem_nil c)
      · rw [if_neg hx] at hc
        rcases List.mem_singleton.mp hc with rfl
        exact List.mem_cons_self _ _
    · rw [hr] at hc
      rcases List.mem_cons.mp hc with rfl | hc
      · exact List.mem_cons_self _ _
      · exact List.mem_cons_of_mem _ (ih c (by rw [hr]; exact hc))

theorem pyRstripL_last_not (cs : List Char) : ∀ (l : List Char) (c : Char),
    (pyRstripL cs l).getLast? = some c → charIn cs c = false := by
  intro l
  induction l with
  | nil =>
    intro c hc
    cases hc
  | cons x rest ih =>
    intro c hc
    rw [pyRstripL] at hc
    rcases hr : pyRstripL cs rest with _ | ⟨y, ys⟩
    · rw [hr] at hc
      by_cases hx : charIn cs x = true
      · rw [if_pos hx] at hc
        cases hc
      · rw [if_neg hx] at hc
        simp only [List.getLast?_singleton, Option.some_inj] at hc
        subst hc
        exact Bool.not_eq_true _ ▸ hx
    · rw [hr] at hc
      rw [getLast?_skip _ _ (by simp)] at hc
      exact ih c (by rw [hr]; exact hc)

end AIC

namespace AIC

theorem isAlpha_lower (c : Char) (h : c.isAlpha = true) : (pyLowerChar c).isAlpha = true := by
  rw [isAlpha_iff] at h ⊢
  rw [pyLowerChar_toNat]
  split_ifs <;> omega

theorem schemeChar_lower (c : Char) (h : schemeChar c = true) :
    schemeChar (pyLowerChar c) = true := by
  rw [schemeChar_iff] at h ⊢
  rw [pyLowerChar_toNat]
  split_ifs <;> omega

theorem splitSchemeL_shape (l : List Char) :
    (splitSchemeL l).1 = "" ∨
      ∃ hd2 tl2, (splitSchemeL l).1.data = hd2 :: tl2 ∧ hd2.isAlpha = true ∧
        tl2.all schemeChar = true ∧
        (splitSchemeL l).1.data.map pyLowerChar = (splitSchemeL l).1.data := by
  simp only [splitSchemeL]
  by_cases h0 : 0 < pyFindCharL ':' l
  · rw [if_pos h0]
    rcases htk : l.take (pyFindCharL ':' l).toNat with _ | ⟨c, rest⟩
    · exact Or.inl rfl
    · simp only []
      by_cases hca : c.isAlpha = true ∧ rest.all schemeChar = true
      · rw [if_pos hca]
        right
        refine ⟨pyLowerChar c, rest.map pyLowerChar, by simp, isAlpha_lower c hca.1, ?_, ?_⟩
        · rw [List.all_eq_true]
          intro x hx
          rcases List.mem_map.mp hx with ⟨y, hy, rfl⟩
          exact schemeChar_lower y (List.all_eq_true.mp hca.2 y hy)
        · simp only [List.map_cons, List.map_map]
          rw [pyLowerChar_idem c]
          congr 1
          apply List.map_congr_left
          intro y _
          exact pyLowerChar_idem y
      · rw [if_neg hca]
        exact Or.inl rfl
  · rw [if_neg h0]
    exact Or.inl rfl

theorem splitSchemeL_snd_subset (l : List Char) : ∀ c ∈ (splitSchemeL l).2, c ∈ l := by
  simp only [splitSchemeL]
  by_cases h0 : 0 < pyFindCharL ':' l
  · rw [if_pos h0]
    rcases htk : l.take (pyFindCharL ':' l).toNat with _ | ⟨c, rest⟩
    · intro c hc
      exact hc
    · simp only []
      by_cases hca : c.isAlpha = true ∧ rest.all schemeChar = true
      · rw [if_pos hca]
        intro x hx
        exact List.drop_subset _ l hx
      · rw [if_neg hca]
        intro x hx
        exact hx
  · rw [if_neg h0]
    intro c hc
    exact hc

theorem urlsplitE_facts (url : String) (R : SplitResult) (h : urlsplitE url = some R) :
    R.scheme = (splitSchemeL (removeUnsafe (lstripC0 url.data))).1 ∧
    (∀ c ∈ R.netloc.data, c ∈ removeUnsafe (lstripC0 url.data) ∧ c ≠ '/' ∧ c ≠ '?' ∧ c ≠ '#') ∧
    (∀ c ∈ R.path.data, c ∈ removeUnsafe (lstripC0 url.data) ∧ c ≠ '?' ∧ c ≠ '#') := by
  simp only [urlsplitE] at h
  rcases hsp : splitSchemeL (removeUnsafe (lstripC0 url.data)) with ⟨s, l1⟩
  rw [hsp] at h
  simp only [] at h
  have hl1sub : ∀ c ∈ l1, c ∈ removeUnsafe (lstripC0 url.data) := by
    intro c hc
    have := splitSchemeL_snd_subset (removeUnsafe (lstripC0 url.data)) c
    rw [hsp] at this
    exact this hc
  by_cases htk2 : l1.take 2 = ['/', '/']
  · rw [if_pos htk2] at h
    rcases hsn : splitnetlocL (l1.drop 2) with ⟨nl, l2⟩
    rw [hsn] at h
    simp only [] at h
    have hnlsub := splitnetlocL_spec (l1.drop 2)
    rw [hsn] at hnlsub
    simp only [] at hnlsub
    by_cases hbr : bracketCheckOk nl = true
    · rw [if_pos hbr] at h
      rcases hp3 : pyPartitionL '#' l2 with ⟨u3, f3, frag⟩
      rw [hp3] at h
      simp only [] at h
      rcases hp4 : pyPartitionL '?' u3 with ⟨u4, f4, q⟩
      rw [hp4] at h
      simp only [] at h
      rw [← Option.some_inj.mp h]
      refine ⟨rfl, ?_, ?_⟩
      · intro c hc
        simp only [] at hc
        obtain ⟨hm, h1, h2, h3⟩ := hnlsub.1 c hc
        exact ⟨hl1sub c (List.drop_subset _ _ hm), h1, h2, h3⟩
      · intro c hc
        simp only [] at hc
        have hcu3 : c ∈ u3 := by
          have := pyPartitionL_fst_subset '?' u3 c
          rw [hp4] at this
          exact this hc
        have hcl2 : c ∈ l2 := by
          have := pyPartitionL_fst_subset '#' l2 c
          rw [hp3] at this
          exact this hcu3
        refine ⟨hl1sub c (List.drop_subset _ _ (hnlsub.2 c hcl2)), ?_, ?_⟩
        · intro he
          subst he
          have := pyPartitionL_fst_not '?' u3
          rw [hp4] at this
          exact this hc
        · intro he
          subst he
          have := pyPartitionL_fst_not '#' l2
          rw [hp3] at this
          exact this hcu3
    · rw [if_neg hbr] at h
      cases h
  · rw [if_neg htk2] at h
    simp only [] at h
    rw [if_pos (show bracketCheckOk [] = true from rfl)] at h
    · rcases hp3 : pyPartitionL '#' l1 with ⟨u3, f3, frag⟩
      rw [hp3] at h
      simp only [] at h
      rcases hp4 : pyPartitionL '?' u3 with ⟨u4, f4, q⟩
      rw [hp4] at h
      simp only [] at h
      rw [← Option.some_inj.mp h]
      refine ⟨rfl, ?_, ?_⟩
      · intro c hc
        simp only [] at hc
        exact absurd hc (List.not_mem_nil c)
      · intro c hc
        simp only [] at hc
        have hcu3 : c ∈ u3 := by
          have := pyPartitionL_fst_subset '?' u3 c
          rw [hp4] at this
          exact this hc
        have hcl1 : c ∈ l1 := by
          have := pyPartitionL_fst_subset '#' l1 c
          rw [hp3] at this
          exact this hcu3
        refine ⟨hl1sub c hcl1, ?_, ?_⟩
        · intro he
          subst he
          have := pyPartitionL_fst_not '?' u3
          rw [hp4] at this
          exact this hc
        · intro he
          subst he
          have := pyPartitionL_fst_not '#' l1
          rw [hp3] at this
          exact this hcu3

theorem urlsplitE_balanced (url : String) (R : SplitResult) (h : urlsplitE url = some R)
    (hnb : ('[' : Char) ∉ R.netloc.data) : ((']' : Char)) ∉ R.netloc.data := by
  simp only [urlsplitE] at h
  rcases hsp : splitSchemeL (removeUnsafe (lstripC0 url.data)) with ⟨s, l1⟩
  rw [hsp] at h
  simp only [] at h
  by_cases htk2 : l1.take 2 = ['/', '/']
  · rw [if_pos htk2] at h
    rcases hsn : splitnetlocL (l1.drop 2) with ⟨nl, l2⟩
    rw [hsn] at h
    simp only [] at h
    by_cases hbr : bracketCheckOk nl = true
    · rw [if_pos hbr] at h
      rcases hp3 : pyPartitionL '#' l2 with ⟨u3, f3, frag⟩
      rw [hp3] at h
      simp only [] at h
      rcases hp4 : pyPartitionL '?' u3 with ⟨u4, f4, q⟩
      rw [hp4] at h
      simp only [] at h
      have hnl : R.netloc = ⟨nl⟩ := by rw [← Option.some_inj.mp h]
      rw [hnl] at hnb ⊢
      intro hm
      unfold bracketCheckOk at hbr
      rw [contains_false_of_not_mem _ _ hnb, contains_true_of_mem _ _ hm] at hbr
      simp at hbr
    · rw [if_neg hbr] at h
      cases h
  · rw [if_neg htk2] at h
    simp only [] at h
    rw [if_pos (show bracketCheckOk [] = true from rfl)] at h
    rcases hp3 : pyPartitionL '#' l1 with ⟨u3, f3, frag⟩
    rw [hp3] at h
    simp only [] at h
    rcases hp4 : pyPartitionL '?' u3 with ⟨u4, f4, q⟩
    rw [hp4] at h
    simp only [] at h
    have hnl : R.netloc = ⟨[]⟩ := by rw [← Option.some_inj.mp h]
    rw [hnl]
    exact List.not_mem_nil _

end AIC

namespace AIC

theorem urlparseE_facts (url : String) (P : ParseResult) (h : urlparseE url = some P) :
    ∃ R : SplitResult, urlsplitE url = some R ∧ P.scheme = R.scheme ∧ P.netloc = R.netloc ∧
      P.query = R.query ∧ ∀ c ∈ P.path.data, c ∈ R.path.data := by
  unfold urlparseE at h
  rcases hsp : urlsplitE url with _ | R
  · rw [hsp] at h
    cases h
  · rw [hsp] at h
    simp only [Option.map_some'] at h
    refine ⟨R, rfl, ?_⟩
    by_cases hup : uses_params.contains R.scheme = true
    · rw [if_pos hup] at h
      rcases hspl : splitparamsL R.path.data with ⟨pp, par⟩
      rw [hspl] at h
      simp only [] at h
      rw [← Option.some_inj.mp h]
      refine ⟨rfl, rfl, rfl, ?_⟩
      intro c hc
      simp only [] at hc
      have := splitparamsL_fst_subset R.path.data c
      rw [hspl] at this
      exact this hc
    · rw [if_neg hup] at h
      rw [← Option.some_inj.mp h]
      exact ⟨rfl, rfl, rfl, fun c hc => hc⟩

theorem mem_pyLower_image (l : List Char) (c : Char) (hc : c ∈ l.map pyLowerChar) :
    ∃ c0 ∈ l, c = pyLowerChar c0 := by
  rcases List.mem_map.mp hc with ⟨c0, hc0, rfl⟩
  exact ⟨c0, hc0, rfl⟩

theorem pyLowerChar_fixes_special (c : Char) (n : Nat) (hn : n < 97 ∨ 122 < n)
    (h : (pyLowerChar c).toNat = n) : c.toNat = n := by
  rw [pyLowerChar_toNat] at h
  split_ifs at h <;> omega

theorem pyHostname_facts (netloc : String)
    (hnb : (('[' : Char)) ∉ netloc.data) :
    (('@' : Char) ∉ (pyHostname netloc).data) ∧ ((':' : Char) ∉ (pyHostname netloc).data) ∧
    (∀ c ∈ (pyHostname netloc).data, ∃ c0 ∈ netloc.data, c = pyLowerChar c0 ∨ c = c0) := by
  unfold pyHostname pyHostinfo
  rcases hrp : pyRpartitionL '@' netloc.data with ⟨a, f, b⟩
  simp only []
  have hhostinfo_sub : ∀ c ∈ (if f = true then b else netloc.data), c ∈ netloc.data := by
    intro c hc
    by_cases hf : f = true
    · rw [if_pos hf] at hc
      have := pyRpartitionL_snd_subset '@' netloc.data c
      rw [hrp] at this
      exact this hc
    · rw [if_neg hf] at hc
      exact hc
  have hbrm : ('[' : Char) ∉ (if f = true then b else netloc.data) :=
    fun hm => hnb (hhostinfo_sub _ hm)
  have hbf : (pyPartitionL '[' (if f = true then b else netloc.data)).2.1 = false := by
    rw [← Bool.not_eq_true, pyPartitionL_found_iff]
    exact hbrm
  rcases hbp : pyPartitionL '[' (if f = true then b else netloc.data) with ⟨c1, ob, c2⟩
  rw [hbp] at hbf
  simp only [] at hbf ⊢
  subst hbf
  simp only [Bool.false_eq_true, if_false]
  have hhostinfo_noat : ('@' : Char) ∉ (if f = true then b else netloc.data) := by
    by_cases hf : f = true
    · rw [if_pos hf]
      have := (pyRpartitionL_spec '@' netloc.data).1 (by rw [hrp]; exact hf)
      rw [hrp] at this
      exact this.2
    · rw [if_neg hf]
      have := (pyRpartitionL_spec '@' netloc.data).2 (by
        rw [hrp]
        cases f
        · rfl
        · exact absurd rfl hf)
      exact this.2.2
  rcases hpp : pyPartitionL ':' (if f = true then b else netloc.data) with ⟨h1, f1, p1⟩
  simp only []
  have hh1_sub : ∀ c ∈ h1, c ∈ netloc.data := by
    intro c hc
    apply hhostinfo_sub
    have := pyPartitionL_fst_subset ':' (if f = true then b else netloc.data) c
    rw [hpp] at this
    exact this hc
  have hh1_noat : ('@' : Char) ∉ h1 := by
    intro hm
    apply hhostinfo_noat
    have := pyPartitionL_fst_subset ':' (if f = true then b else netloc.data) '@'
    rw [hpp] at this
    exact this hm
  have hh1_nocolon : (':' : Char) ∉ h1 := by
    have := pyPartitionL_fst_not ':' (if f = true then b else netloc.data)
    rw [hpp] at this
    exact this
  by_cases hh1e : h1.isEmpty = true
  · rw [if_pos hh1e]
    refine ⟨by simp, by simp, by simp⟩
  · rw [if_neg hh1e]
    rcases hpz : pyPartitionL '%' h1 with ⟨pre, fz, zone⟩
    simp only []
    have hpre_sub : ∀ c ∈ pre, c ∈ h1 := by
      intro c hc
      have := pyPartitionL_fst_subset '%' h1 c
      rw [hpz] at this
      exact this hc
    have hzone_sub : ∀ c ∈ zone, c ∈ h1 := by
      intro c hc
      have := pyPartitionL_snd_subset '%' h1 c
      rw [hpz] at this
      exact this hc
    have hat64 : ('@' : Char).toNat = 64 := by decide
    have hc58 : (':' : Char).toNat = 58 := by decide
    by_cases hfz : fz = true
    · rw [if_pos hfz]
      have hpct_mem : ('%' : Char) ∈ h1 := by
        have := (pyPartitionL_found_iff '%' h1).mp (by rw [hpz]; exact hfz)
        exact this
      refine ⟨?_, ?_, ?_⟩
      · intro hm
        simp only [] at hm
        rcases List.mem_append.mp hm with hm | hm
        · rcases mem_pyLower_image pre '@' hm with ⟨c0, hc0, he⟩
          have : c0.toNat = 64 := pyLowerChar_fixes_special c0 64 (by omega) (by rw [← he, hat64])
          apply hh1_noat
          have : c0 = '@' := by
            rw [char_eq_iff_toNat, hat64]
            exact this
          rw [← this]
          exact hpre_sub c0 hc0
        · rcases List.mem_cons.mp hm with he | hm
          · cases he
          · exact hh1_noat (hzone_sub _ hm)
      · intro hm
        simp only [] at hm
        rcases List.mem_append.mp hm with hm | hm
        · rcases mem_pyLower_image pre ':' hm with ⟨c0, hc0, he⟩
          have hn : c0.toNat = 58 := pyLowerChar_fixes_special c0 58 (by omega) (by rw [← he, hc58])
          apply hh1_nocolon
          have : c0 = ':' := by
            rw [char_eq_iff_toNat, hc58]
            exact hn
          rw [← this]
          exact hpre_sub c0 hc0
        · rcases List.mem_cons.mp hm with he | hm
          · cases he
          · exact hh1_nocolon (hzone_sub _ hm)
      · intro c hm
        simp only [] at hm
        rcases List.mem_append.mp hm with hm | hm
        · rcases mem_pyLower_image pre c hm with ⟨c0, hc0, he⟩
          exact ⟨c0, hh1_sub c0 (hpre_sub c0 hc0), Or.inl he⟩
        · rcases List.mem_cons.mp hm with rfl | hm
          · exact ⟨'%', hh1_sub _ hpct_mem, Or.inr rfl⟩
          · exact ⟨c, hh1_sub c (hzone_sub c hm), Or.inr rfl⟩
    · rw [if_neg hfz]
      refine ⟨?_, ?_, ?_⟩
      · intro hm
        simp only [] at hm
        rcases mem_pyLower_image pre '@' hm with ⟨c0, hc0, he⟩
        have hn : c0.toNat = 64 := pyLowerChar_fixes_special c0 64 (by omega) (by rw [← he, hat64])
        apply hh1_noat
        have : c0 = '@' := by
          rw [char_eq_iff_toNat, hat64]
          exact hn
        rw [← this]
        exact hpre_sub c0 hc0
      · intro hm
        simp only [] at hm
        rcases mem_pyLower_image pre ':' hm with ⟨c0, hc0, he⟩
        have hn : c0.toNat = 58 := pyLowerChar_fixes_special c0 58 (by omega) (by rw [← he, hc58])
        apply hh1_nocolon
        have : c0 = ':' := by
          rw [char_eq_iff_toNat, hc58]
          exact hn
        rw [← this]
        exact hpre_sub c0 hc0
      · intro c hm
        simp only [] at hm
        rcases mem_pyLower_image pre c hm with ⟨c0, hc0, he⟩
        exact ⟨c0, hh1_sub c0 (hpre_sub c0 hc0), Or.inl he⟩

end AIC

namespace AIC

theorem normHost_facts (P : ParseResult)
    (hnb : (('[' : Char)) ∉ P.netloc.data) :
    (('@' : Char) ∉ (normHost P).data) ∧ ((':' : Char) ∉ (normHost P).data) ∧
    ((normHost P).data.map pyLowerChar = (normHost P).data) ∧
    (∀ c ∈ (normHost P).data, ∃ c0 ∈ P.netloc.data, c = pyLowerChar c0) := by
  obtain ⟨hat, hcol, hmem⟩ := pyHostname_facts P.netloc hnb
  unfold normHost
  set host0 := pyHostname P.netloc with hh0
  have hstrip_sub : ∀ c ∈ (if pyStartswith "www." host0 then (⟨host0.data.drop 4⟩ : String)
      else host0).data, c ∈ host0.data := by
    intro c hc
    by_cases hw : pyStartswith "www." host0 = true
    · rw [if_pos hw] at hc
      simp only [] at hc
      exact List.drop_subset _ _ hc
    · rw [if_neg hw] at hc
      exact hc
  refine ⟨?_, ?_, ?_, ?_⟩
  · intro hm
    unfold pyLower at hm
    simp only [] at hm
    rcases mem_pyLower_image _ '@' hm with ⟨c0, hc0, he⟩
    have hn : c0.toNat = 64 := pyLowerChar_fixes_special c0 64 (by omega)
      (by rw [← he]; decide)
    apply hat
    have hce : c0 = '@' := by
      rw [char_eq_iff_toNat, hn]
      decide
    rw [← hce]
    exact hstrip_sub c0 hc0
  · intro hm
    unfold pyLower at hm
    simp only [] at hm
    rcases mem_pyLower_image _ ':' hm with ⟨c0, hc0, he⟩
    have hn : c0.toNat = 58 := pyLowerChar_fixes_special c0 58 (by omega)
      (by rw [← he]; decide)
    apply hcol
    have hce : c0 = ':' := by
      rw [char_eq_iff_toNat, hn]
      decide
    rw [← hce]
    exact hstrip_sub c0 hc0
  · unfold pyLower
    simp only []
    exact pyLower_map_idem _
  · intro c hm
    unfold pyLower at hm
    simp only [] at hm
    rcases mem_pyLower_image _ c hm with ⟨c0, hc0, rfl⟩
    rcases hmem c0 (hstrip_sub c0 hc0) with ⟨c1, hc1, he | he⟩
    · exact ⟨c1, hc1, by rw [he, pyLowerChar_idem]⟩
    · exact ⟨c1, hc1, by rw [he]⟩

theorem pyPortE_le (netloc : String) (port : Option Nat) (h : pyPortE netloc = some port) :
    ∀ pp, port = some pp → pp ≤ 65535 := by
  intro pp hpp
  subst hpp
  simp only [pyPortE] at h
  by_cases he : (pyHostinfo netloc).2.isEmpty = true
  · rw [if_pos he] at h
    cases Option.some_inj.mp h
  · rw [if_neg he] at h
    rcases hpd : parseDigits (pyHostinfo netloc).2 with _ | n
    · rw [hpd] at h
      cases h
    · rw [hpd] at h
      simp only [] at h
      by_cases hle : n ≤ 65535
      · rw [if_pos hle] at h
        rcases Option.some_inj.mp h with he2
        rw [← Option.some_inj.mp he2]
        exact hle
      · rw [if_neg hle] at h
        cases h

theorem normPath_facts (P : ParseResult) :
    (normPath P).data ≠ [] ∧
    (normPath P = "/" ∨ pyRstripL ['/'] (normPath P).data = (normPath P).data) ∧
    (∀ c ∈ (normPath P).data, c ∈ P.path.data ∨ c = '/') := by
  unfold normPath pyRstrip
  simp only []
  by_cases hre : (⟨pyRstripL ['/'] P.path.data⟩ : String) = ""
  · rw [if_pos hre]
    refine ⟨by decide, Or.inl rfl, ?_⟩
    intro c hc
    rcases List.mem_singleton.mp hc with rfl
    exact Or.inr rfl
  · rw [if_neg hre]
    have hdne : pyRstripL ['/'] P.path.data ≠ [] := by
      intro hnil
      apply hre
      apply string_ext
      rw [hnil]
    refine ⟨hdne, Or.inr ?_, ?_⟩
    · simp only []
      rcases hgl : (pyRstripL ['/'] P.path.data).getLast? with _ | c
      · rw [List.getLast?_eq_none_iff] at hgl
        exact absurd hgl hdne
      · exact pyRstripL_no_strip _ _ _ hgl (pyRstripL_last_not _ _ _ hgl)
    · intro c hc
      simp only [] at hc
      exact Or.inl (pyRstripL_subset _ _ c hc)

theorem mem_intercalate_amp (ts : List (List Char)) (c : Char)
    (hc : c ∈ List.intercalate ['&'] ts) : c = '&' ∨ ∃ t ∈ ts, c ∈ t := by
  induction ts with
  | nil =>
    simp [List.intercalate] at hc
  | cons t rest ih =>
    match rest with
    | [] =>
      right
      refine ⟨t, List.mem_cons_self _ _, ?_⟩
      have he : List.intercalate ['&'] [t] = t := by
        simp [List.intercalate, List.intersperse]
      rw [he] at hc
      exact hc
    | t2 :: rest2 =>
      rw [intercalate_cons_cons] at hc
      rcases List.mem_append.mp hc with hm | hm
      · exact Or.inr ⟨t, List.mem_cons_self _ _, hm⟩
      · rcases List.mem_cons.mp hm with rfl | hm
        · exact Or.inl rfl
        · rcases ih hm with he | ⟨t3, ht3, hct3⟩
          · exact Or.inl he
          · exact Or.inr ⟨t3, List.mem_cons_of_mem _ ht3, hct3⟩

theorem urlencodeSeq_char_class (G : List (String × List String)) :
    ∀ c ∈ (urlencodeSeq G).data, 33 ≤ c.toNat ∧ c.toNat ≤ 126 ∧ c.toNat ≠ 35 := by
  intro c hc
  unfold urlencodeSeq at hc
  simp only [] at hc
  rcases mem_intercalate_amp _ c hc with rfl | ⟨t, ht, hct⟩
  · refine ⟨by decide, by decide, by decide⟩
  · rcases List.mem_flatMap.mp ht with ⟨g, _, htg⟩
    rcases List.mem_map.mp htg with ⟨w, _, rfl⟩
    rcases List.mem_append.mp hct with hm | hm
    · obtain ⟨h1, h2, h3, _⟩ := quote_plus_char_class g.1 c hm
      exact ⟨h1, h2, h3⟩
    · rcases List.mem_cons.mp hm with rfl | hm
      · refine ⟨by decide, by decide, by decide⟩
      · obtain ⟨h1, h2, h3, _⟩ := quote_plus_char_class w c hm
        exact ⟨h1, h2, h3⟩

end AIC

namespace AIC

theorem lower_ne_lit (c0 : Char) (d : Char) (n : Nat) (hd : d.toNat = n) (hn : n < 97)
    (hne : c0 ≠ d) : pyLowerChar c0 ≠ d := by
  intro he
  exact hne ((char_eq_lit c0 d n hd).mpr
    (pyLowerChar_fixes_special c0 n (Or.inl hn) (by rw [he, hd])))

theorem normalize_url_idem (u v : String) (hn : normalize_url u = some v)
    (hc : idemCond u = true) : normalize_url v = some v := by
  unfold normalize_url at hn
  rcases hP : urlparseE (pyStrip u) with _ | P
  · rw [hP] at hn
    cases hn
  rw [hP] at hn
  simp only [] at hn
  rcases hport : pyPortE P.netloc with _ | port
  · rw [hport] at hn
    cases hn
  rw [hport] at hn
  simp only [] at hn
  have hv : v = urlunparse (normScheme P) (normHost P ++ normPortStr port) (normPath P) ""
      (normQueryStr P) "" := (Option.some_inj.mp hn).symm
  unfold idemCond at hc
  rw [hP] at hc
  simp only [] at hc
  rw [hport] at hc
  simp only [] at hc
  rw [Bool.and_eq_true, Bool.and_eq_true, Bool.and_eq_true, Bool.and_eq_true] at hc
  obtain ⟨⟨⟨⟨hc1, hc2⟩, hc3⟩, hc4⟩, hc5⟩ := hc
  rw [Bool.not_eq_true'] at hc1 hc3 hc5
  have hnb : (('[' : Char)) ∉ P.netloc.data := contains_false_not_mem _ _ hc5
  have hc2p : ¬(normHost P ++ normPortStr port = "" ∧
      (normPath P).data.take 2 = ['/', '/']) := by
    intro ⟨ha, hb⟩
    rw [ha, hb] at hc2
    simp at hc2
  have hlastws : (normQueryStr P).data ≠ [] ∨
      ∀ c, (normPath P).data.getLast? = some c → charIn pyWhitespace c = false := by
    by_cases hQd : (normQueryStr P).data = []
    · right
      intro c hgl
      have hQe : normQueryStr P = "" := string_ext _ _ (by rw [hQd])
      rw [hQe, hgl] at hc4
      simp only [] at hc4
      simpa using hc4
    · exact Or.inl hQd
  obtain ⟨R, hR, hsch, hnet, hqry, hpathsub⟩ := urlparseE_facts (pyStrip u) P hP
  obtain ⟨hRsch, hRnet, hRpath⟩ := urlsplitE_facts (pyStrip u) R hR
  have hnbR : (('[' : Char)) ∉ R.netloc.data := by
    rw [← hnet]
    exact hnb
  have hnbR2 : ((']' : Char)) ∉ R.netloc.data := urlsplitE_balanced (pyStrip u) R hR hnbR
  -- scheme facts
  have hSfacts : ∃ hd2 tl2, (normScheme P).data = hd2 :: tl2 ∧ hd2.isAlpha = true ∧
      tl2.all schemeChar = true ∧
      (normScheme P).data.map pyLowerChar = (normScheme P).data := by
    rcases splitSchemeL_shape (removeUnsafe (lstripC0 (pyStrip u).data)) with hsh | hsh
    · have hPs : P.scheme = "" := by
        rw [hsch, hRsch, hsh]
      have : normScheme P = "https" := by
        unfold normScheme
        rw [hPs]
        rfl
      rw [this]
      exact ⟨'h', ['t', 't', 'p', 's'], rfl, by decide, by decide, by decide⟩
    · rw [← hRsch, ← hsch] at hsh
      obtain ⟨hd2, tl2, hdata, hal, hsc, hlow⟩ := hsh
      have hPne : P.scheme ≠ "" := by
        intro he
        rw [he] at hdata
        cases hdata
      have hSeq : normScheme P = P.scheme := by
        unfold normScheme
        have hlo : pyLower P.scheme = P.scheme := string_ext _ _ hlow
        rw [hlo, if_neg hPne]
      rw [hSeq]
      exact ⟨hd2, tl2, hdata, hal, hsc, hlow⟩
  obtain ⟨hd2, tl2, hSdata, hSal, hSsc, hSlow⟩ := hSfacts
  have hSne : normScheme P ≠ "" := by
    intro he
    rw [he] at hSdata
    cases hSdata
  -- host and port facts
  obtain ⟨hHat, hHcol, hHlow, hHmem⟩ := normHost_facts P hnb
  have hHbr : (('[' : Char)) ∉ (normHost P).data := by
    intro hm
    rcases hHmem _ hm with ⟨c0, hc0, he⟩
    have hn : c0.toNat = 91 := pyLowerChar_fixes_special c0 91 (by omega)
      (by rw [← he]; decide)
    apply hnb
    have hce : c0 = '[' := by
      rw [char_eq_iff_toNat, hn]
      decide
    rw [← hce]
    exact hc0
  obtain ⟨port2, hPE, hPTeq, hHN⟩ := hostport_rebuild (normHost P) port hHat hHcol hHbr hHlow
    (pyPortE_le P.netloc port hport)
  have hNc : ∀ c ∈ (normHost P ++ normPortStr port).data,
      c ≠ '\t' ∧ c ≠ '\r' ∧ c ≠ '\n' ∧ c ≠ '/' ∧ c ≠ '?' ∧ c ≠ '#' ∧
      c ≠ '[' ∧ c ≠ ']' := by
    intro c hcm
    rw [string_append_data] at hcm
    rcases List.mem_append.mp hcm with hm | hm
    · rcases hHmem c hm with ⟨c0, hc0, rfl⟩
      rw [hnet] at hc0
      obtain ⟨hm0, hs1, hs2, hs3⟩ := hRnet c0 hc0
      obtain ⟨ht1, ht2, ht3⟩ := removeUnsafe_mem (lstripC0 (pyStrip u).data) c0 hm0
      refine ⟨?_, ?_, ?_, ?_, ?_, ?_, ?_, ?_⟩
      · exact lower_ne_lit c0 _ 9 (by decide) (by omega) ht1
      · exact lower_ne_lit c0 _ 13 (by decide) (by omega) ht2
      · exact lower_ne_lit c0 _ 10 (by decide) (by omega) ht3
      · exact lower_ne_lit c0 _ 47 (by decide) (by omega) hs1
      · exact lower_ne_lit c0 _ 63 (by decide) (by omega) hs2
      · exact lower_ne_lit c0 _ 35 (by decide) (by omega) hs3
      · exact lower_ne_lit c0 _ 91 (by decide) (by omega) (fun he => hnbR (he ▸ hc0))
      · exact lower_ne_lit c0 _ 93 (by decide) (by omega) (fun he => hnbR2 (he ▸ hc0))
    · have hdig : 48 ≤ c.toNat ∧ c.toNat ≤ 58 := by
        rcases hpt : port with _ | pp
        · rw [hpt] at hm
          simp only [normPortStr] at hm
          exact absurd hm (List.not_mem_nil c)
        · rw [hpt] at hm
          simp only [normPortStr] at hm
          by_cases hk : pp ≠ 0 ∧ pp ≠ 80 ∧ pp ≠ 443
          · rw [if_pos hk] at hm
            rw [string_append_data] at hm
            rcases List.mem_append.mp hm with hm | hm
            · rcases List.mem_singleton.mp hm with rfl
              exact ⟨by decide, by decide⟩
            · have := natToDigits_mem_range pp c hm
              omega
          · rw [if_neg hk] at hm
            exact absurd hm (List.not_mem_nil c)
      refine ⟨?_, ?_, ?_, ?_, ?_, ?_, ?_, ?_⟩ <;>
        (intro he; subst he; exact absurd hdig (by decide))
  have hHostN : ∀ P2 : ParseResult, P2.netloc = normHost P ++ normPortStr port →
      normHost P2 ++ normPortStr port2 = normHost P ++ normPortStr port := by
    intro P2 hP2
    have hunf : normHost P2 = pyLower (if pyStartswith "www." (pyHostname P2.netloc)
        then ⟨(pyHostname P2.netloc).data.drop 4⟩ else pyHostname P2.netloc) := rfl
    rw [hunf, hP2, hHN, hc1]
    simp only [Bool.false_eq_true, if_false]
    have hlo : pyLower (normHost P) = normHost P := string_ext _ _ hHlow
    rw [hlo, hPTeq]
  -- path facts
  obtain ⟨hpne, hprs, hpmem⟩ := normPath_facts P
  have hpathC : ∀ c ∈ (normPath P).data,
      c ≠ '\t' ∧ c ≠ '\r' ∧ c ≠ '\n' ∧ c ≠ '?' ∧ c ≠ '#' := by
    intro c hcm
    rcases hpmem c hcm with hm | rfl
    · obtain ⟨hm0, hq1, hq2⟩ := hRpath c (hpathsub c hm)
      obtain ⟨h1, h2, h3⟩ := removeUnsafe_mem _ c hm0
      exact ⟨h1, h2, h3, hq1, hq2⟩
    · exact ⟨by decide, by decide, by decide, by decide, by decide⟩
  -- query facts
  have hQdef : normQueryStr P = urlencodeSeq (normalizeQueryGroups P.query) := rfl
  have hQc : ∀ c ∈ (normQueryStr P).data, 33 ≤ c.toNat ∧ c.toNat ≤ 126 ∧ c.toNat ≠ 35 := by
    rw [hQdef]
    exact urlencodeSeq_char_class _
  have hQidem : urlencodeSeq (normalizeQueryGroups (normQueryStr P)) = normQueryStr P := by
    rw [hQdef]
    exact congrArg urlencodeSeq (normalizeQueryGroups_idem P.query)
  -- case split on the urlunsplit branch condition
  by_cases hcond : normHost P ++ normPortStr port ≠ "" ∨
      (normScheme P ≠ "" ∧ uses_netloc.contains (normScheme P) = true ∧
        (normPath P).data.take 2 ≠ ['/', '/'])
  · rw [hv]
    exact normalize_canonical_netloc (normScheme P) (normHost P ++ normPortStr port)
      (normPath P) (normQueryStr P) port2 hd2 tl2 hSdata hSal hSsc hSlow hNc hPE hHostN
      hpne hpathC hprs hc3 hc2p hlastws hQc hQidem hcond
  · push_neg at hcond
    obtain ⟨hN0, hrest⟩ := hcond
    have htake2 : (normPath P).data.take 2 ≠ ['/', '/'] := by
      intro hcon
      exact hc2p ⟨hN0, hcon⟩
    have hnun : uses_netloc.contains (normScheme P) = false := by
      cases hcn : uses_netloc.contains (normScheme P)
      · rfl
      · exact absurd (hrest hSne hcn) htake2
    rw [hv, hN0]
    exact normalize_canonical_noNetloc (normScheme P) (normPath P) (normQueryStr P)
      hd2 tl2 hSdata hSal hSsc hSlow hnun hpne hpathC hprs hc3 htake2 hlastws hQc hQidem

end AIC

namespace AIC

/-- C1 (counterexample): normalize_url is not idempotent. The URL
"https://www.www.x.com/a" normalizes to "https://www.x.com/a", but
normalizing that result again strips another "www." and yields
"https://x.com/a", a different string; and "https://[::1]/a" normalizes to
"https://::1/a", losing the brackets of the IPv6 host, so re-normalizing
raises, because the port property of the rebuilt netloc reads the nondigit
port text ":1". -/
theorem C1_idem_counterexample :
    (normalize_url "https://www.www.x.com/a" = some "https://www.x.com/a" ∧
      normalize_url "https://www.x.com/a" ≠ some "https://www.x.com/a") ∧
    (normalize_url "https://[::1]/a" = some "https://::1/a" ∧
      normalize_url "https://::1/a" = none) := by
  refine ⟨by decide, by decide, by decide⟩

set_option maxRecDepth 4000 in
set_option maxHeartbeats 4000000 in
/-- C1 (amended): normalize_url is idempotent on every URL u satisfying
idemCond u — the normalized host does not again start with "www.", the last
path segment holds no ';', an empty host is not paired with a path starting
"//", an empty query is not paired with a path ending in whitespace, and the
netloc holds no bracketed host — and the claim's variant URLs normalize
identically, so their dedup keys agree:
url_hash "https://www.x.com/a/?utm_source=fb" equals
url_hash "https://x.com/a". -/
theorem C1_normalize_amended :
    (∀ u v : String, normalize_url u = some v → idemCond u = true →
      normalize_url v = some v) ∧
    normalize_url "https://www.x.com/a/?utm_source=fb" = normalize_url "https://x.com/a" ∧
    url_hash "https://www.x.com/a/?utm_source=fb" = url_hash "https://x.com/a" := by
  refine ⟨normalize_url_idem, ?_, ?_⟩ <;> decide

set_option maxRecDepth 4000 in
theorem C1_normalize_amended_witness :
    normalize_url "https://x.com/a" = some "https://x.com/a" :=
  C1_normalize_amended.1 "https://x.com/a" "https://x.com/a" (by decide) (by decide)

end AIC
